import Mathlib

/-!
# Gen4 projection placement, ordering, aggregation and statement rewriting

A shallow embedding of `go/vt/vtgate/planbuilder/selectGen4.go` and
`go/vt/vtgate/planbuilder/rewrite.go`.

Conventions of the embedding:

* Go pointers into the AST are values. Where the source keys a map by pointer
  (`SubqueryRef`, `orderExprColMap`, `TableSetFor`) the node carries a
  `ptr : Nat` standing for its address; structural comparison (`EqualsExpr`)
  ignores it.
* A Go function that mutates its argument returns the argument's new state next
  to its result, so every function result is a pair `(state after, outcome)`.
* `Outcome` distinguishes a returned value, a returned `error` and a Go runtime
  panic (nil dereference, failed type assertion, index out of range).
* Go `int` is `Int`; every integer computed here is a list length or its
  negation, far from the 64-bit bounds.
* The statement walk of `queryRewrite` sees the tree as a value: an expression
  that the HAVING substitution shares between the select list and a condition
  is walked once per occurrence, each time as the statement holds it.
-/

namespace Vitess

/-! ## The SQL syntax tree (package `sqlparser`, a fragment) -/

/-- Column identifier (`sqlparser.ColIdent`), reduced to its text. -/
structure ColIdent where
  val : String
deriving DecidableEq, Repr

/-- Table identifier (`sqlparser.TableIdent`). -/
structure TableIdent where
  v : String
deriving DecidableEq, Repr

/-- Possibly qualified table name (`sqlparser.TableName`): `Qualifier` is the keyspace. -/
structure TableName where
  Name : TableIdent
  Qualifier : TableIdent
deriving DecidableEq, Repr

/-- Operators of `sqlparser.ComparisonExpr`. -/
inductive ComparisonExprOperator where
  | EqualOp | LessThanOp | GreaterThanOp | LessEqualOp | GreaterEqualOp | NotEqualOp
  | NullSafeEqualOp | InOp | NotInOp | LikeOp | NotLikeOp | RegexpOp | NotRegexpOp
deriving DecidableEq, Repr

/-- Sort direction of an `Order`. -/
inductive OrderDirection where
  | AscOrder | DescOrder
deriving DecidableEq, Repr

/-- Kind of a literal (`sqlparser.ValType`). -/
inductive ValType where
  | StrVal | IntVal | FloatVal | HexNum | HexVal | BitVal
deriving DecidableEq, Repr

mutual
/-- Expressions (`sqlparser.Expr`). `nilExpr` is the nil interface value;
`Subquery ptr s` is a `*Subquery` at address `ptr`; the operand of `ExistsExpr`
is its `Subquery` field, a `Subquery` node in every parsed statement;
`ExtractedSubquery ref` is the pointer to the binding stored in `SubqueryRef`
under the subquery address `ref`. -/
inductive Expr where
  | nilExpr
  | ColName (Name : ColIdent) (Qualifier : TableName)
  | Literal (Typ : ValType) (Val : String)
  | Argument (name : String)
  | AndExpr (Left Right : Expr)
  | OrExpr (Left Right : Expr)
  | NotExpr (expr : Expr)
  | ComparisonExpr (Operator : ComparisonExprOperator) (Left Right Escape : Expr)
  | FuncExpr (Qualifier : TableIdent) (Name : ColIdent) (Distinct : Bool) (Exprs : List SelectExpr)
  | Subquery (ptr : Nat) (sel : Select)
  | ExistsExpr (subquery : Expr)
  | ExtractedSubquery (ref : Nat)
/-- Entries of a select list (`sqlparser.SelectExpr`). -/
inductive SelectExpr where
  | StarExpr (tableName : TableName)
  | AliasedExpr (expr : Expr) (As : ColIdent)
  | Nextval (expr : Expr)
/-- Table expressions of a FROM clause (`sqlparser.TableExpr`); an
`*AliasedTableExpr` carries its address `ptr`. -/
inductive TableExpr where
  | AliasedTableExpr (ptr : Nat) (expr : SimpleTableExpr) (As : TableIdent)
  | JoinTableExpr (LeftExpr RightExpr : TableExpr) (On : Expr)
/-- What an `AliasedTableExpr` names (`sqlparser.SimpleTableExpr`). -/
inductive SimpleTableExpr where
  | TableName (name : TableName)
  | DerivedTable (sel : Select)
/-- One ORDER BY entry (`*sqlparser.Order`) at address `ptr`. -/
inductive Order where
  | mk (ptr : Nat) (expr : Expr) (Direction : OrderDirection)
/-- A SELECT statement (`*sqlparser.Select`): the clauses that hold expressions
or tables. `Where` and `Having` are `*Where`, `none` being the nil pointer. -/
inductive Select where
  | mk (selectExprs : List SelectExpr) (tableExprs : List TableExpr) (whereExpr : Option Expr)
      (groupBy : List Expr) (havingExpr : Option Expr) (orderBy : List Order)
end

/-- Select list of a statement. -/
def Select.SelectExprs : Select → List SelectExpr
  | .mk ses _ _ _ _ _ => ses

/-- FROM clause of a statement. -/
def Select.From : Select → List TableExpr
  | .mk _ f _ _ _ _ => f

/-- WHERE condition of a statement. -/
def Select.Where : Select → Option Expr
  | .mk _ _ w _ _ _ => w

/-- GROUP BY list of a statement. -/
def Select.GroupBy : Select → List Expr
  | .mk _ _ _ g _ _ => g

/-- HAVING condition of a statement. -/
def Select.Having : Select → Option Expr
  | .mk _ _ _ _ h _ => h

/-- ORDER BY clause of a statement. -/
def Select.OrderBy : Select → List Order
  | .mk _ _ _ _ _ o => o

/-- Assignment to `sel.SelectExprs`. -/
def Select.setSelectExprs : Select → List SelectExpr → Select
  | .mk _ f w g h o, ses => .mk ses f w g h o

/-- Assignment to `sel.Where`. -/
def Select.setWhere : Select → Option Expr → Select
  | .mk ses f _ g h o, w => .mk ses f w g h o

/-- Assignment to `sel.Having`. -/
def Select.setHaving : Select → Option Expr → Select
  | .mk ses f w g _ o, h => .mk ses f w g h o

/-- Expression of an ORDER BY entry. -/
def Order.Expr : Order → Expr
  | .mk _ e _ => e

/-- Direction of an ORDER BY entry. -/
def Order.Direction : Order → OrderDirection
  | .mk _ _ d => d

/-- Address of an ORDER BY entry. -/
def Order.ptr : Order → Nat
  | .mk p _ _ => p

/-- The struct `sqlparser.AliasedExpr`, as handed to the planner functions. -/
structure AliasedExpr where
  Expr : Expr
  As : ColIdent

/-- An `*AliasedExpr` seen as a `SelectExpr`. -/
def AliasedExpr.toSelectExpr (e : AliasedExpr) : SelectExpr :=
  .AliasedExpr e.Expr e.As

/-- Modelled from the spec: `ColIdent.IsEmpty` of package sqlparser, true for the empty identifier. -/
def ColIdent.IsEmpty (c : ColIdent) : Bool := c.val == ""

/-- Modelled from the spec: `TableIdent.IsEmpty` of package sqlparser. -/
def TableIdent.IsEmpty (t : TableIdent) : Bool := t.v == ""

/-- Modelled from the spec: `TableName.IsEmpty` of package sqlparser; a table
name is empty when its `Name` is (the keyspace qualifier is not looked at). -/
def TableName.IsEmpty (t : TableName) : Bool := t.Name.IsEmpty

/-- Modelled from the spec: `ColIdent.Lowered` of package sqlparser, the
lower-cased text used for case-insensitive matching (ASCII letters here). -/
def ColIdent.Lowered (c : ColIdent) : String := String.mk (c.val.data.map Char.toLower)

/-- Modelled from the spec: `sqlparser.SelectStatement.GetColumnCount` for a `*Select`. -/
def Select.GetColumnCount (s : Select) : Int := s.SelectExprs.length

/-- Modelled from the spec: `(*Select).AddOrder`, appending to the ORDER BY clause. -/
def Select.AddOrder : Select → Order → Select
  | .mk ses f w g h o, ord => .mk ses f w g h (o ++ [ord])

mutual
/-- Modelled from the spec: `sqlparser.EqualsExpr`, the structural deep equality
of package sqlparser (addresses are not compared). -/
def EqualsExpr : Expr → Expr → Bool
  | .nilExpr, .nilExpr => true
  | .ColName n q, .ColName n' q' => n = n' && q = q'
  | .Literal t v, .Literal t' v' => t = t' && v = v'
  | .Argument a, .Argument a' => a = a'
  | .AndExpr l r, .AndExpr l' r' => EqualsExpr l l' && EqualsExpr r r'
  | .OrExpr l r, .OrExpr l' r' => EqualsExpr l l' && EqualsExpr r r'
  | .NotExpr e, .NotExpr e' => EqualsExpr e e'
  | .ComparisonExpr o l r x, .ComparisonExpr o' l' r' x' =>
      o = o' && EqualsExpr l l' && EqualsExpr r r' && EqualsExpr x x'
  | .FuncExpr q n d es, .FuncExpr q' n' d' es' =>
      q = q' && n = n' && d = d' && EqualsSelectExprs es es'
  | .Subquery _ s, .Subquery _ s' => EqualsSelect s s'
  | .ExistsExpr s, .ExistsExpr s' => EqualsExpr s s'
  | .ExtractedSubquery r, .ExtractedSubquery r' => r = r'
  | _, _ => false
termination_by structural e => e
/-- Structural equality of select lists. -/
def EqualsSelectExprs : List SelectExpr → List SelectExpr → Bool
  | [], [] => true
  | a :: as, b :: bs => EqualsSelectExpr a b && EqualsSelectExprs as bs
  | _, _ => false
termination_by structural e => e
/-- Structural equality of select-list entries. -/
def EqualsSelectExpr : SelectExpr → SelectExpr → Bool
  | .StarExpr t, .StarExpr t' => t = t'
  | .AliasedExpr e a, .AliasedExpr e' a' => EqualsExpr e e' && a = a'
  | .Nextval e, .Nextval e' => EqualsExpr e e'
  | _, _ => false
termination_by structural e => e
/-- Structural equality of FROM clauses. -/
def EqualsTableExprs : List TableExpr → List TableExpr → Bool
  | [], [] => true
  | a :: as, b :: bs => EqualsTableExpr a b && EqualsTableExprs as bs
  | _, _ => false
termination_by structural e => e
/-- Structural equality of table expressions. -/
def EqualsTableExpr : TableExpr → TableExpr → Bool
  | .AliasedTableExpr _ e a, .AliasedTableExpr _ e' a' => EqualsSimpleTableExpr e e' && a = a'
  | .JoinTableExpr l r c, .JoinTableExpr l' r' c' =>
      EqualsTableExpr l l' && EqualsTableExpr r r' && EqualsExpr c c'
  | _, _ => false
termination_by structural e => e
/-- Structural equality of simple table expressions. -/
def EqualsSimpleTableExpr : SimpleTableExpr → SimpleTableExpr → Bool
  | .TableName n, .TableName n' => n = n'
  | .DerivedTable s, .DerivedTable s' => EqualsSelect s s'
  | _, _ => false
termination_by structural e => e
/-- Structural equality of expression lists. -/
def EqualsExprs : List Expr → List Expr → Bool
  | [], [] => true
  | a :: as, b :: bs => EqualsExpr a b && EqualsExprs as bs
  | _, _ => false
termination_by structural e => e
/-- Structural equality of optional conditions. -/
def EqualsRefOfWhere : Option Expr → Option Expr → Bool
  | none, none => true
  | some a, some b => EqualsExpr a b
  | _, _ => false
termination_by structural e => e
/-- Structural equality of ORDER BY clauses. -/
def EqualsOrderBy : List Order → List Order → Bool
  | [], [] => true
  | a :: as, b :: bs => EqualsRefOfOrder a b && EqualsOrderBy as bs
  | _, _ => false
termination_by structural e => e
/-- Structural equality of ORDER BY entries. -/
def EqualsRefOfOrder : Order → Order → Bool
  | .mk _ e d, .mk _ e' d' => EqualsExpr e e' && d = d'
termination_by structural e => e
/-- Structural equality of statements. -/
def EqualsSelect : Select → Select → Bool
  | .mk ses f w g h o, .mk ses' f' w' g' h' o' =>
      EqualsSelectExprs ses ses' && EqualsTableExprs f f' && EqualsRefOfWhere w w' &&
      EqualsExprs g g' && EqualsRefOfWhere h h' && EqualsOrderBy o o'
termination_by structural e => e
end

/-- Whether an expression is a `*sqlparser.ColName` (the type assertion `expr.(*sqlparser.ColName)`). -/
def Expr.isColName : Expr → Bool
  | .ColName _ _ => true
  | _ => false

/-- Modelled from the spec: `sqlparser.NewTableIdent` of package sqlparser. -/
def NewTableIdent (s : String) : TableIdent := ⟨s⟩

/-- Modelled from the spec: `sqlparser.NewColIdent` of package sqlparser. -/
def NewColIdent (s : String) : ColIdent := ⟨s⟩

/-! ## Errors and outcomes -/

/-- Status codes of package `vtrpc` that the planner uses. -/
inductive Code where
  | INTERNAL | UNIMPLEMENTED | INVALID_ARGUMENT
deriving DecidableEq, Repr

/-- A Go `error` built by package `vterrors`: a code and a message. Format verbs
of the message are kept as written in the source. -/
structure vtError where
  code : Code
  msg : String
deriving DecidableEq, Repr

/-- Result of a Go call: a value, an `error`, or a runtime panic. -/
inductive Outcome (α : Type) where
  | ok (v : α)
  | error (e : vtError)
  | panic
deriving DecidableEq, Repr

/-- True when the call returned a value and a nil error. -/
def Outcome.isOk {α : Type} : Outcome α → Bool
  | .ok _ => true
  | _ => false

/-- True when the call returned a non-nil error. -/
def Outcome.isError {α : Type} : Outcome α → Bool
  | .error _ => true
  | _ => false

/-- Modelled from the spec: `semantics.Gen4NotSupportedF` of package semantics,
the "unsupported construct" error of the Gen4 planner. -/
def Gen4NotSupportedF (msg : String) : vtError :=
  ⟨.UNIMPLEMENTED, "gen4 does not yet support: " ++ msg⟩

/-! ## Semantic facts (package `semantics`) -/

/-- Set of tables (`semantics.TableSet`), a bit set. -/
abbrev TableSet := Nat

/-- Modelled from the spec: `TableSet.IsSolvedBy` of package semantics: every
table of `ts` is in `other`. -/
def TableSet.IsSolvedBy (ts other : TableSet) : Bool := (ts ||| other) == other

/-- Modelled from the spec: `TableSet.Merge` of package semantics, the union. -/
def TableSet.Merge (ts other : TableSet) : TableSet := ts ||| other

/-- Column types (`querypb.Type`). -/
inductive querypbType where
  | NULL_TYPE | INT8 | UINT8 | INT16 | UINT16 | INT24 | UINT24 | INT32 | UINT32 | INT64 | UINT64
  | FLOAT32 | FLOAT64 | TIMESTAMP | DATE | TIME | DATETIME | YEAR | DECIMAL | TEXT | BLOB
  | VARCHAR | VARBINARY | CHAR | BINARY | BIT | ENUM | SET | TUPLE | GEOMETRY | JSON | EXPRESSION
deriving DecidableEq, Repr

/-- Modelled from the spec: `sqltypes.IsNumber` of package sqltypes: integral,
floating point or decimal types. -/
def IsNumber : querypbType → Bool
  | .INT8 | .UINT8 | .INT16 | .UINT16 | .INT24 | .UINT24 | .INT32 | .UINT32 | .INT64 | .UINT64 => true
  | .YEAR => true
  | .FLOAT32 | .FLOAT64 => true
  | .DECIMAL => true
  | _ => false

/-- Column of a table as known to the semantic analysis (`semantics.ColumnInfo`). -/
structure ColumnInfo where
  Name : String
  Typ : querypbType
deriving DecidableEq, Repr

/-- The original table a routed table points to (`*vindexes.Table`), reduced to its name. -/
structure vindexesTable where
  Name : TableIdent
deriving DecidableEq, Repr

/-- Table information (`semantics.TableInfo`): `GetColumns` and `GetVindexTable`,
the latter `none` for a nil table. -/
structure TableInfo where
  GetColumns : List ColumnInfo
  GetVindexTable : Option vindexesTable
deriving DecidableEq, Repr

/-- Binding of a subquery, the value type of `SemTable.SubqueryRef`. -/
structure SubqueryBinding where
  ArgName : String
  HasValuesArg : String
  OpCode : Int
  OtherSide : Expr

/-- Modelled from the spec: the semantic table (`semantics.SemTable`).
`exprDependencies` is the dependency map of the column references,
`TableInfoFor` and `TableSetFor` are its lookups, the latter by the address of
the aliased table expression, `SubqueryRef` maps the
address of a subquery to its binding; a binding is identified with the address
of its subquery. -/
structure SemTable where
  exprDependencies : ColIdent → TableName → TableSet
  TableInfoFor : TableSet → Except vtError TableInfo
  TableSetFor : Nat → TableSet
  SubqueryRef : List (Nat × SubqueryBinding)

mutual
/-- Modelled from the spec: `SemTable.Dependencies` of package semantics: the
union of the recorded dependencies of every column reference in the expression. -/
def SemTable.Dependencies (st : SemTable) : Expr → TableSet
  | .nilExpr => 0
  | .ColName n q => st.exprDependencies n q
  | .Literal _ _ => 0
  | .Argument _ => 0
  | .AndExpr l r => TableSet.Merge (st.Dependencies l) (st.Dependencies r)
  | .OrExpr l r => TableSet.Merge (st.Dependencies l) (st.Dependencies r)
  | .NotExpr e => st.Dependencies e
  | .ComparisonExpr _ l r x =>
      TableSet.Merge (TableSet.Merge (st.Dependencies l) (st.Dependencies r)) (st.Dependencies x)
  | .FuncExpr _ _ _ es => st.DependenciesSelectExprs es
  | .Subquery _ s => st.DependenciesSelect s
  | .ExistsExpr s => st.Dependencies s
  | .ExtractedSubquery _ => 0
termination_by structural e => e
/-- Dependencies of a select list. -/
def SemTable.DependenciesSelectExprs (st : SemTable) : List SelectExpr → TableSet
  | [] => 0
  | a :: as => TableSet.Merge (st.DependenciesSelectExpr a) (st.DependenciesSelectExprs as)
termination_by structural e => e
/-- Dependencies of a select-list entry. -/
def SemTable.DependenciesSelectExpr (st : SemTable) : SelectExpr → TableSet
  | .StarExpr _ => 0
  | .AliasedExpr e _ => st.Dependencies e
  | .Nextval e => st.Dependencies e
termination_by structural e => e
/-- Dependencies of a FROM clause. -/
def SemTable.DependenciesTableExprs (st : SemTable) : List TableExpr → TableSet
  | [] => 0
  | a :: as => TableSet.Merge (st.DependenciesTableExpr a) (st.DependenciesTableExprs as)
termination_by structural e => e
/-- Dependencies of a table expression. -/
def SemTable.DependenciesTableExpr (st : SemTable) : TableExpr → TableSet
  | .AliasedTableExpr _ e _ => st.DependenciesSimpleTableExpr e
  | .JoinTableExpr l r c =>
      TableSet.Merge (TableSet.Merge (st.DependenciesTableExpr l) (st.DependenciesTableExpr r))
        (st.Dependencies c)
termination_by structural e => e
/-- Dependencies of a simple table expression. -/
def SemTable.DependenciesSimpleTableExpr (st : SemTable) : SimpleTableExpr → TableSet
  | .TableName _ => 0
  | .DerivedTable s => st.DependenciesSelect s
termination_by structural e => e
/-- Dependencies of an expression list. -/
def SemTable.DependenciesExprs (st : SemTable) : List Expr → TableSet
  | [] => 0
  | a :: as => TableSet.Merge (st.Dependencies a) (st.DependenciesExprs as)
termination_by structural e => e
/-- Dependencies of an optional condition. -/
def SemTable.DependenciesWhere (st : SemTable) : Option Expr → TableSet
  | none => 0
  | some a => st.Dependencies a
termination_by structural e => e
/-- Dependencies of an ORDER BY clause. -/
def SemTable.DependenciesOrderBy (st : SemTable) : List Order → TableSet
  | [] => 0
  | a :: as => TableSet.Merge (st.DependenciesOrder a) (st.DependenciesOrderBy as)
termination_by structural e => e
/-- Dependencies of an ORDER BY entry. -/
def SemTable.DependenciesOrder (st : SemTable) : Order → TableSet
  | .mk _ e _ => st.Dependencies e
termination_by structural e => e
/-- Dependencies of a statement. -/
def SemTable.DependenciesSelect (st : SemTable) : Select → TableSet
  | .mk ses f w g h o =>
      TableSet.Merge (TableSet.Merge (TableSet.Merge (TableSet.Merge (TableSet.Merge
        (st.DependenciesTableExprs f) (st.DependenciesSelectExprs ses)) (st.DependenciesWhere w))
        (st.DependenciesExprs g)) (st.DependenciesWhere h)) (st.DependenciesOrderBy o)
termination_by structural e => e
end

/-! ## Plan values -/

/-- A plan value (`sqltypes.PlanValue`): a bind variable key or a literal value. -/
inductive PlanValue where
  | Key (k : String)
  | Value (t : ValType) (v : String)
deriving DecidableEq, Repr

/-- Decimal value of a digit string, `none` when empty or not all digits. -/
def parseDecimal (cs : List Char) : Option Nat :=
  if cs.isEmpty then none
  else cs.foldl (fun acc c => acc.bind fun n =>
    if c.isDigit then some (n * 10 + (c.toNat - 48)) else none) (some 0)

/-- Modelled from the spec: `makePlanValue` of package planbuilder, defined
outside the given sources: "representable as a literal/bind-parameter value".
A bind variable and a literal convert to a value, everything else gives the
nil value without an error; an integer literal that does not fit 64 bits is the
conversion error the caller propagates. -/
def makePlanValue : Expr → Outcome (Option PlanValue)
  | .Argument name => .ok (some (.Key name))
  | .Literal .IntVal v =>
      match parseDecimal v.data with
      | some n => if n < 2 ^ 64 then .ok (some (.Value .IntVal v))
                  else .error ⟨.INVALID_ARGUMENT, "value out of range"⟩
      | none => .error ⟨.INVALID_ARGUMENT, "invalid syntax"⟩
  | .Literal t v => .ok (some (.Value t v))
  | _ => .ok none

/-! ## The logical plan (package `planbuilder` and `engine`) -/

/-- Join kinds (`engine.JoinOpcode`). -/
inductive JoinOpcode where
  | NormalJoin | LeftJoin
deriving DecidableEq, Repr

/-- Aggregation opcodes (`engine.AggregateOpcode`); `AggregateCount` is the zero value. -/
inductive AggregateOpcode where
  | AggregateCount | AggregateSum | AggregateMin | AggregateMax
  | AggregateCountDistinct | AggregateSumDistinct
deriving DecidableEq, Repr

/-- Modelled from the spec: the table `engine.SupportedAggregates`, read as Go
reads a map: a missing key gives the zero opcode. -/
def SupportedAggregates (name : String) : AggregateOpcode :=
  if name = "count" then .AggregateCount
  else if name = "sum" then .AggregateSum
  else if name = "min" then .AggregateMin
  else if name = "max" then .AggregateMax
  else if name = "count_distinct" then .AggregateCountDistinct
  else if name = "sum_distinct" then .AggregateSumDistinct
  else .AggregateCount

/-- One aggregate of an ordered aggregate (`engine.AggregateParams`). -/
structure AggregateParams where
  Opcode : AggregateOpcode
  Col : Int
deriving DecidableEq, Repr

/-- One sort key of a route (`engine.OrderbyParams`). -/
structure OrderbyParams where
  Col : Int
  WeightStringCol : Int
  Desc : Bool
deriving DecidableEq, Repr

/-- The execution descriptor of a route (`engine.Route`): the fields the planner writes. -/
structure engineRoute where
  OrderBy : List OrderbyParams
  TruncateColumnCount : Int
deriving DecidableEq, Repr

/-- A routed fragment (`*route`): its statement, its descriptor, and the tables it solves.
The statement is a `*sqlparser.Select`, as the type assertion of `pushProjection` requires. -/
structure route where
  Select : Select
  eroute : engineRoute
  tables : TableSet

/-- The plan tree (`logicalPlan`). `nilPlan` is the nil interface value. -/
inductive logicalPlan where
  | nilPlan
  | route (r : route)
  | joinGen4 (Left Right : logicalPlan) (Opcode : JoinOpcode) (Cols : List Int)
  | orderedAggregate (input : logicalPlan) (Aggregates : List AggregateParams)
  | memorySortGen4 (orderBy : List OrderbyParams) (input : logicalPlan) (truncateColumnCount : Int)

/-- Modelled from the spec: `logicalPlan.ContainsTables`, "union of base tables
reachable beneath it"; `none` is the panic of calling it on the nil plan. -/
def logicalPlan.ContainsTables : logicalPlan → Option TableSet
  | .nilPlan => none
  | .route r => some r.tables
  | .joinGen4 l r _ _ =>
      match l.ContainsTables, r.ContainsTables with
      | some a, some b => some (TableSet.Merge a b)
      | _, _ => none
  | .orderedAggregate input _ => input.ContainsTables
  | .memorySortGen4 _ input _ => input.ContainsTables

/-- Per-statement working set (`queryProjection`); `orderExprColMap` is keyed by
the address of the ORDER BY entry. -/
structure queryProjection where
  selectExprs : List AliasedExpr
  aggrExprs : List AliasedExpr
  orderExprColMap : List (Nat × Int)

/-! ## selectGen4.go -/

/-- Source: `removeQualifierFromColName`. Only `col.Qualifier.Qualifier`, the
keyspace part of the column's table name, is cleared. -/
def removeQualifierFromColName (expr : AliasedExpr) : AliasedExpr :=
  match expr.Expr with
  | .ColName name qualifier =>
      { Expr := .ColName name { qualifier with Qualifier := NewTableIdent "" }, As := expr.As }
  | _ => expr

/-- The loop of `checkIfAlreadyExists`, from index `i` on. -/
def checkIfAlreadyExistsFrom (expr : AliasedExpr) : List SelectExpr → Int → Int
  | [], _ => -1
  | .AliasedExpr e _ :: rest, i =>
      if EqualsExpr e expr.Expr then i else checkIfAlreadyExistsFrom expr rest (i + 1)
  | _ :: rest, i => checkIfAlreadyExistsFrom expr rest (i + 1)

/-- Source: `checkIfAlreadyExists`. -/
def checkIfAlreadyExists (expr : AliasedExpr) (sel : Select) : Int :=
  checkIfAlreadyExistsFrom expr sel.SelectExprs 0

/-- Source: `pushProjection`. Returns the plan after the call and the call's result. -/
def pushProjection (expr : AliasedExpr) (semTable : SemTable) :
    logicalPlan → Bool → logicalPlan × Outcome Int
  | .route node, inner =>
      match makePlanValue expr.Expr with
      | .error err => (.route node, .error err)
      | .panic => (.route node, .panic)
      | .ok value =>
        let isColName := expr.Expr.isColName
        let badExpr := value.isNone && !isColName
        if !inner && badExpr then
          (.route node,
            .error ⟨.UNIMPLEMENTED, "unsupported: cross-shard left join and column expressions"⟩)
        else
          let sel := node.Select
          let i := checkIfAlreadyExists expr sel
          if i != -1 then (.route node, .ok i)
          else
            let expr := removeQualifierFromColName expr
            let offset : Int := sel.SelectExprs.length
            (.route { node with Select := sel.setSelectExprs (sel.SelectExprs ++ [expr.toSelectExpr]) },
              .ok offset)
  | .joinGen4 Left Right Opcode Cols, inner =>
      match Left.ContainsTables, Right.ContainsTables with
      | some lhsSolves, some rhsSolves =>
        let deps := semTable.Dependencies expr.Expr
        if TableSet.IsSolvedBy deps lhsSolves then
          match pushProjection expr semTable Left inner with
          | (Left', .ok offset) =>
              let Cols' := Cols ++ [-(offset + 1)]
              (.joinGen4 Left' Right Opcode Cols', .ok ((Cols'.length : Int) - 1))
          | (Left', .error err) => (.joinGen4 Left' Right Opcode Cols, .error err)
          | (Left', .panic) => (.joinGen4 Left' Right Opcode Cols, .panic)
        else if TableSet.IsSolvedBy deps rhsSolves then
          match pushProjection expr semTable Right (inner && Opcode != JoinOpcode.LeftJoin) with
          | (Right', .ok offset) =>
              let Cols' := Cols ++ [offset + 1]
              (.joinGen4 Left Right' Opcode Cols', .ok ((Cols'.length : Int) - 1))
          | (Right', .error err) => (.joinGen4 Left Right' Opcode Cols, .error err)
          | (Right', .panic) => (.joinGen4 Left Right' Opcode Cols, .panic)
        else
          (.joinGen4 Left Right Opcode Cols, .error ⟨.INTERNAL, "unknown dependencies for %s"⟩)
      | _, _ => (.joinGen4 Left Right Opcode Cols, .panic)
  | .nilPlan, _ => (.nilPlan, .error ⟨.UNIMPLEMENTED, "%T not yet supported"⟩)
  | .orderedAggregate input aggs, _ =>
      (.orderedAggregate input aggs, .error ⟨.UNIMPLEMENTED, "%T not yet supported"⟩)
  | .memorySortGen4 ob input t, _ =>
      (.memorySortGen4 ob input t, .error ⟨.UNIMPLEMENTED, "%T not yet supported"⟩)

/-- The loop of `planAggregations` over `qp.aggrExprs`. The type assertion
`e.Expr.(*sqlparser.FuncExpr)` panics on anything but a function call. -/
def planAggregationsLoop (semTable : SemTable) :
    List AliasedExpr → logicalPlan → List AggregateParams →
      logicalPlan × Outcome (List AggregateParams)
  | [], plan, aggregates => (plan, .ok aggregates)
  | e :: rest, plan, aggregates =>
      match pushProjection e semTable plan true with
      | (plan', .error err) => (plan', .error err)
      | (plan', .panic) => (plan', .panic)
      | (plan', .ok offset) =>
        match e.Expr with
        | .FuncExpr _ name _ _ =>
            let opcode := SupportedAggregates name.Lowered
            planAggregationsLoop semTable rest plan' (aggregates ++ [⟨opcode, offset⟩])
        | _ => (plan', .panic)

/-- Source: `planAggregations`. The ordered aggregate wraps the child plan. -/
def planAggregations (qp : queryProjection) (plan : logicalPlan) (semTable : SemTable) :
    logicalPlan × Outcome logicalPlan :=
  match planAggregationsLoop semTable qp.aggrExprs plan [] with
  | (plan', .ok aggregates) => (plan', .ok (.orderedAggregate plan' aggregates))
  | (plan', .error err) => (plan', .error err)
  | (plan', .panic) => (plan', .panic)

/-- The state of a `*route` after a call that was handed it as a `logicalPlan`. -/
def logicalPlan.asRoute : logicalPlan → Vitess.route → Vitess.route
  | .route r, _ => r
  | _, old => old

/-- Source: `pushExpression`: projects `weight_string(expr)`. -/
def pushExpression (plan : route) (expr : Expr) (semTable : SemTable) : route × Outcome Int :=
  let aliasedExpr : AliasedExpr :=
    { Expr := .FuncExpr (NewTableIdent "") (NewColIdent "weight_string") false
        [.AliasedExpr expr (NewColIdent "")],
      As := NewColIdent "" }
  let res := pushProjection aliasedExpr semTable (.route plan) true
  (res.1.asRoute plan, res.2)

/-- The loop of `needsWeightString` over the table's columns. -/
def needsWeightStringIn (colName : ColIdent) : List ColumnInfo → Bool
  | [] => true
  | c :: rest => if colName.val = c.Name then !IsNumber c.Typ else needsWeightStringIn colName rest

/-- Source: `needsWeightString`; `colName` is the `Name` of the column reference. -/
def needsWeightString (tbl : TableInfo) (colName : ColIdent) : Bool :=
  needsWeightStringIn colName tbl.GetColumns

/-- Lookup in a Go map given as a list of entries. -/
def mapLookup {β : Type} (key : Nat) : List (Nat × β) → Option β
  | [] => none
  | (k, v) :: rest => if k = key then some v else mapLookup key rest

/-- The element `xs[i]` of a Go slice, `none` when the index is out of range. -/
def sliceAt {β : Type} (xs : List β) (i : Int) : Option β :=
  if i < 0 then none else xs.get? i.toNat

/-- Source: `getOrProjectExpr`. Indexing `qp.selectExprs[offset]` panics when
the recorded offset is out of range. -/
def getOrProjectExpr (qp : queryProjection) (plan : route) (semTable : SemTable) (order : Order) :
    route × Outcome (Int × Expr) :=
  match mapLookup order.ptr qp.orderExprColMap with
  | some offset =>
      match sliceAt qp.selectExprs offset with
      | some se => (plan, .ok (offset, se.Expr))
      | none => (plan, .panic)
  | none =>
      let aliasedExpr : AliasedExpr := { Expr := order.Expr, As := NewColIdent "" }
      let res := pushProjection aliasedExpr semTable (.route plan) true
      match res.2 with
      | .ok offset => (res.1.asRoute plan, .ok (offset, order.Expr))
      | .error err => (res.1.asRoute plan, .error err)
      | .panic => (res.1.asRoute plan, .panic)

/-- The loop of `planOrderByForRoute` over the ORDER BY entries. -/
def planOrderByForRouteLoop (qp : queryProjection) (semTable : SemTable) :
    List Order → route → route × Outcome Unit
  | [], plan => (plan, .ok ())
  | order :: rest, plan =>
      match getOrProjectExpr qp plan semTable order with
      | (plan, .error err) => (plan, .error err)
      | (plan, .panic) => (plan, .panic)
      | (plan, .ok (offset, expr)) =>
        match expr with
        | .ColName name _ =>
          let table := semTable.Dependencies expr
          match semTable.TableInfoFor table with
          | .error err => (plan, .error err)
          | .ok tbl =>
            let weightStringNeeded := needsWeightString tbl name
            let ws : route × Outcome Int :=
              if weightStringNeeded then pushExpression plan expr semTable else (plan, .ok (-1))
            match ws with
            | (plan, .error err) => (plan, .error err)
            | (plan, .panic) => (plan, .panic)
            | (plan, .ok weightStringOffset) =>
              let plan : route :=
                { plan with
                  eroute := { plan.eroute with
                    OrderBy := plan.eroute.OrderBy ++
                      [⟨offset, weightStringOffset, order.Direction == OrderDirection.DescOrder⟩] },
                  Select := plan.Select.AddOrder order }
              planOrderByForRouteLoop qp semTable rest plan
        | _ => (plan, .error (Gen4NotSupportedF "order by non-column expression"))

/-- Source: `planOrderByForRoute`. Returns the route after the call and the returned plan. -/
def planOrderByForRoute (qp : queryProjection) (orderExprs : List Order) (plan : route)
    (semTable : SemTable) : route × Outcome logicalPlan :=
  let origColCount := plan.Select.GetColumnCount
  match planOrderByForRouteLoop qp semTable orderExprs plan with
  | (plan, .error err) => (plan, .error err)
  | (plan, .panic) => (plan, .panic)
  | (plan, .ok ()) =>
    let plan : route :=
      if origColCount != plan.Select.GetColumnCount then
        { plan with eroute := { plan.eroute with TruncateColumnCount := origColCount } }
      else plan
    (plan, .ok (.route plan))

/-- The loop of `planOrderByForJoin` that computes `isAllLeft`; `none` is the
panic of `plan.Left.ContainsTables()` on a nil left child. -/
def isAllLeftLoop (semTable : SemTable) (Left : logicalPlan) : List Order → Option Bool
  | [] => some true
  | expr :: rest =>
      let exprDependencies := semTable.Dependencies expr.Expr
      match Left.ContainsTables with
      | none => none
      | some lhs =>
        if !TableSet.IsSolvedBy exprDependencies lhs then some false
        else isAllLeftLoop semTable Left rest

/-- Source: `planOrderByForJoin`. `recLeft` is the result of the recursive call
`planOrderBy(qp, orderExprs, plan.Left, semTable)`, used when every key is
solved by the left side. The assignment `plan.Left, err = ...` stores the
returned plan, which is nil when the call fails. -/
def planOrderByForJoin (recLeft : logicalPlan × Outcome logicalPlan) (semTable : SemTable)
    (orderExprs : List Order) (Left Right : logicalPlan) (Opcode : JoinOpcode) (Cols : List Int) :
    logicalPlan × Outcome logicalPlan :=
  match isAllLeftLoop semTable Left orderExprs with
  | none => (.joinGen4 Left Right Opcode Cols, .panic)
  | some true =>
      match recLeft.2 with
      | .ok Left' => (.joinGen4 Left' Right Opcode Cols, .ok (.joinGen4 Left' Right Opcode Cols))
      | .error err => (.joinGen4 .nilPlan Right Opcode Cols, .error err)
      | .panic => (.joinGen4 recLeft.1 Right Opcode Cols, .panic)
  | some false =>
      (.joinGen4 Left Right Opcode Cols,
        .ok (.memorySortGen4 [] (.joinGen4 Left Right Opcode Cols) 0))

/-- Source: `planOrderBy`. Returns the plan after the call and the returned plan. -/
def planOrderBy (qp : queryProjection) (orderExprs : List Order) (semTable : SemTable) :
    logicalPlan → logicalPlan × Outcome logicalPlan
  | .route plan =>
      let res := planOrderByForRoute qp orderExprs plan semTable
      (.route res.1, res.2)
  | .joinGen4 Left Right Opcode Cols =>
      planOrderByForJoin (planOrderBy qp orderExprs semTable Left) semTable orderExprs
        Left Right Opcode Cols
  | .nilPlan => (.nilPlan, .error (Gen4NotSupportedF "ordering on complex query"))
  | .orderedAggregate input aggs =>
      (.orderedAggregate input aggs, .error (Gen4NotSupportedF "ordering on complex query"))
  | .memorySortGen4 ob input t =>
      (.memorySortGen4 ob input t, .error (Gen4NotSupportedF "ordering on complex query"))

/-! ## rewrite.go: the HAVING clause -/

/-- What a pre-order callback did at a node: the node it put in the parent's
slot through `cursor.Replace`, if any, and its return value. -/
structure PreResult where
  replaced : Option Expr
  kontinue : Bool

/-- The slot of the parent after the visit of `node`: the replacement when the
callback replaced the node, the node with its children visited when the
callback asked to descend, the node itself otherwise. -/
def visitExpr (pre : Expr → PreResult) (node descended : Expr) : Expr :=
  match (pre node).replaced with
  | some e => e
  | none => if (pre node).kontinue then descended else node

mutual
/-- Modelled from the spec: `sqlparser.Rewrite` of package sqlparser, called
with a pre-order callback that acts on expressions and a nil post-order
callback: the value left in the slot that held the visited expression. -/
def RewriteExpr (pre : Expr → PreResult) : Expr → Expr
  | .nilExpr => .nilExpr
  | .ColName n q => visitExpr pre (.ColName n q) (.ColName n q)
  | .Literal t v => visitExpr pre (.Literal t v) (.Literal t v)
  | .Argument a => visitExpr pre (.Argument a) (.Argument a)
  | .AndExpr l r => visitExpr pre (.AndExpr l r) (.AndExpr (RewriteExpr pre l) (RewriteExpr pre r))
  | .OrExpr l r => visitExpr pre (.OrExpr l r) (.OrExpr (RewriteExpr pre l) (RewriteExpr pre r))
  | .NotExpr e => visitExpr pre (.NotExpr e) (.NotExpr (RewriteExpr pre e))
  | .ComparisonExpr o l r x =>
      visitExpr pre (.ComparisonExpr o l r x)
        (.ComparisonExpr o (RewriteExpr pre l) (RewriteExpr pre r) (RewriteExpr pre x))
  | .FuncExpr q n d es =>
      visitExpr pre (.FuncExpr q n d es) (.FuncExpr q n d (RewriteSelectExprs pre es))
  | .Subquery p s => visitExpr pre (.Subquery p s) (.Subquery p (RewriteSelect pre s))
  | .ExistsExpr sq => visitExpr pre (.ExistsExpr sq) (.ExistsExpr (RewriteExpr pre sq))
  | .ExtractedSubquery ref => visitExpr pre (.ExtractedSubquery ref) (.ExtractedSubquery ref)
termination_by structural e => e
/-- The visit of a select list. -/
def RewriteSelectExprs (pre : Expr → PreResult) : List SelectExpr → List SelectExpr
  | [] => []
  | a :: as => RewriteSelectExpr pre a :: RewriteSelectExprs pre as
termination_by structural e => e
/-- The visit of a select-list entry. -/
def RewriteSelectExpr (pre : Expr → PreResult) : SelectExpr → SelectExpr
  | .StarExpr t => .StarExpr t
  | .AliasedExpr e a => .AliasedExpr (RewriteExpr pre e) a
  | .Nextval e => .Nextval (RewriteExpr pre e)
termination_by structural e => e
/-- The visit of a FROM clause. -/
def RewriteTableExprs (pre : Expr → PreResult) : List TableExpr → List TableExpr
  | [] => []
  | a :: as => RewriteTableExpr pre a :: RewriteTableExprs pre as
termination_by structural e => e
/-- The visit of a table expression. -/
def RewriteTableExpr (pre : Expr → PreResult) : TableExpr → TableExpr
  | .AliasedTableExpr p e a => .AliasedTableExpr p (RewriteSimpleTableExpr pre e) a
  | .JoinTableExpr l r c =>
      .JoinTableExpr (RewriteTableExpr pre l) (RewriteTableExpr pre r) (RewriteExpr pre c)
termination_by structural e => e
/-- The visit of a simple table expression. -/
def RewriteSimpleTableExpr (pre : Expr → PreResult) : SimpleTableExpr → SimpleTableExpr
  | .TableName n => .TableName n
  | .DerivedTable s => .DerivedTable (RewriteSelect pre s)
termination_by structural e => e
/-- The visit of an expression list. -/
def RewriteExprs (pre : Expr → PreResult) : List Expr → List Expr
  | [] => []
  | a :: as => RewriteExpr pre a :: RewriteExprs pre as
termination_by structural e => e
/-- The visit of an optional condition. -/
def RewriteRefOfWhere (pre : Expr → PreResult) : Option Expr → Option Expr
  | none => none
  | some a => some (RewriteExpr pre a)
termination_by structural e => e
/-- The visit of an ORDER BY clause. -/
def RewriteOrderBy (pre : Expr → PreResult) : List Order → List Order
  | [] => []
  | a :: as => RewriteRefOfOrder pre a :: RewriteOrderBy pre as
termination_by structural e => e
/-- The visit of an ORDER BY entry. -/
def RewriteRefOfOrder (pre : Expr → PreResult) : Order → Order
  | .mk p e d => .mk p (RewriteExpr pre e) d
termination_by structural e => e
/-- The visit of a statement. -/
def RewriteSelect (pre : Expr → PreResult) : Select → Select
  | .mk ses f w g h o =>
      .mk (RewriteSelectExprs pre ses) (RewriteTableExprs pre f) (RewriteRefOfWhere pre w)
        (RewriteExprs pre g) (RewriteRefOfWhere pre h) (RewriteOrderBy pre o)
termination_by structural e => e
end

/-- The root object after `sqlparser.Rewrite(root, pre, nil)` when the caller
drops the returned node: a replacement of the root itself goes to the returned
node only, so the object the caller still holds has at most its children
rewritten. -/
def RewriteInPlace (pre : Expr → PreResult) (root : Expr) : Expr :=
  if (pre root).kontinue then
    match root with
    | .AndExpr l r => .AndExpr (RewriteExpr pre l) (RewriteExpr pre r)
    | .OrExpr l r => .OrExpr (RewriteExpr pre l) (RewriteExpr pre r)
    | .NotExpr e => .NotExpr (RewriteExpr pre e)
    | .ComparisonExpr o l r x =>
        .ComparisonExpr o (RewriteExpr pre l) (RewriteExpr pre r) (RewriteExpr pre x)
    | .FuncExpr q n d es => .FuncExpr q n d (RewriteSelectExprs pre es)
    | .Subquery p s => .Subquery p (RewriteSelect pre s)
    | .ExistsExpr sq => .ExistsExpr (RewriteExpr pre sq)
    | e => e
  else root

/-- Lookup in a Go `map[string]Expr` given as a list, newest entry first. -/
def lookupAlias (key : String) : List (String × Expr) → Option Expr
  | [] => none
  | (k, v) :: rest => if k = key then some v else lookupAlias key rest

/-- The first loop of `rewriteHavingClause`: the map from lower-cased alias to
the aliased expression; a later entry overrides an earlier one. -/
def buildSelectExprMap : List SelectExpr → List (String × Expr) → List (String × Expr)
  | [], m => m
  | .AliasedExpr e as :: rest, m =>
      if as.IsEmpty then buildSelectExprMap rest m
      else buildSelectExprMap rest ((as.Lowered, e) :: m)
  | _ :: rest, m => buildSelectExprMap rest m

/-- The closure handed to `sqlparser.Rewrite` by `rewriteHavingClause`. -/
def havingPre (selectExprMap : List (String × Expr)) (node : Expr) : PreResult :=
  match node with
  | .ColName name qualifier =>
      if !qualifier.IsEmpty then ⟨none, false⟩
      else
        match lookupAlias name.Lowered selectExprMap with
        | some originalExpr => ⟨some originalExpr, false⟩
        | none => ⟨none, false⟩
  | _ => ⟨none, true⟩

/-- Modelled from the spec: `sqlparser.SplitAndExpression` of package sqlparser:
the top-level AND-conjuncts, appended to `filters`. -/
def SplitAndExpression (filters : List Expr) : Expr → List Expr
  | .nilExpr => filters
  | .AndExpr l r => SplitAndExpression (SplitAndExpression filters l) r
  | node => filters ++ [node]

/-- Modelled from the spec: `FuncExpr.IsAggregate` of package sqlparser: the
lower-cased function name is one of the aggregate functions. -/
def IsAggregateName (lowered : String) : Bool :=
  lowered ∈ ["avg", "bit_and", "bit_or", "bit_xor", "count", "group_concat", "max", "min",
    "std", "stddev_pop", "stddev_samp", "stddev", "sum", "var_pop", "var_samp", "variance"]

mutual
/-- Modelled from the spec: `sqlparser.ContainsAggregation` of package
sqlparser: some node of the expression is an aggregate function call. -/
def ContainsAggregation : Expr → Bool
  | .nilExpr => false
  | .ColName _ _ => false
  | .Literal _ _ => false
  | .Argument _ => false
  | .AndExpr l r => ContainsAggregation l || ContainsAggregation r
  | .OrExpr l r => ContainsAggregation l || ContainsAggregation r
  | .NotExpr e => ContainsAggregation e
  | .ComparisonExpr _ l r x => ContainsAggregation l || ContainsAggregation r || ContainsAggregation x
  | .FuncExpr _ n _ es => IsAggregateName n.Lowered || ContainsAggregationSelectExprs es
  | .Subquery _ s => ContainsAggregationSelect s
  | .ExistsExpr s => ContainsAggregation s
  | .ExtractedSubquery _ => false
termination_by structural e => e
/-- Aggregation in a select list. -/
def ContainsAggregationSelectExprs : List SelectExpr → Bool
  | [] => false
  | a :: as => ContainsAggregationSelectExpr a || ContainsAggregationSelectExprs as
termination_by structural e => e
/-- Aggregation in a select-list entry. -/
def ContainsAggregationSelectExpr : SelectExpr → Bool
  | .StarExpr _ => false
  | .AliasedExpr e _ => ContainsAggregation e
  | .Nextval e => ContainsAggregation e
termination_by structural e => e
/-- Aggregation in a FROM clause. -/
def ContainsAggregationTableExprs : List TableExpr → Bool
  | [] => false
  | a :: as => ContainsAggregationTableExpr a || ContainsAggregationTableExprs as
termination_by structural e => e
/-- Aggregation in a table expression. -/
def ContainsAggregationTableExpr : TableExpr → Bool
  | .AliasedTableExpr _ e _ => ContainsAggregationSimpleTableExpr e
  | .JoinTableExpr l r c =>
      ContainsAggregationTableExpr l || ContainsAggregationTableExpr r || ContainsAggregation c
termination_by structural e => e
/-- Aggregation in a simple table expression. -/
def ContainsAggregationSimpleTableExpr : SimpleTableExpr → Bool
  | .TableName _ => false
  | .DerivedTable s => ContainsAggregationSelect s
termination_by structural e => e
/-- Aggregation in an expression list. -/
def ContainsAggregationExprs : List Expr → Bool
  | [] => false
  | a :: as => ContainsAggregation a || ContainsAggregationExprs as
termination_by structural e => e
/-- Aggregation in an optional condition. -/
def ContainsAggregationWhere : Option Expr → Bool
  | none => false
  | some a => ContainsAggregation a
termination_by structural e => e
/-- Aggregation in an ORDER BY clause. -/
def ContainsAggregationOrderBy : List Order → Bool
  | [] => false
  | a :: as => ContainsAggregationOrder a || ContainsAggregationOrderBy as
termination_by structural e => e
/-- Aggregation in an ORDER BY entry. -/
def ContainsAggregationOrder : Order → Bool
  | .mk _ e _ => ContainsAggregation e
termination_by structural e => e
/-- Aggregation in a statement. -/
def ContainsAggregationSelect : Select → Bool
  | .mk ses f w g h o =>
      ContainsAggregationTableExprs f || ContainsAggregationSelectExprs ses ||
      ContainsAggregationWhere w || ContainsAggregationExprs g || ContainsAggregationWhere h ||
      ContainsAggregationOrderBy o
termination_by structural e => e
end

/-- Modelled from the spec: `(*Select).AddWhere` of package sqlparser: the
condition is ANDed to the right of the WHERE clause. -/
def Select.AddWhere (node : Select) (expr : Expr) : Select :=
  match node.Where with
  | none => node.setWhere (some expr)
  | some w => node.setWhere (some (.AndExpr w expr))

/-- Modelled from the spec: `(*Select).AddHaving` of package sqlparser: the
condition is ANDed to the right of the HAVING clause. -/
def Select.AddHaving (node : Select) (expr : Expr) : Select :=
  match node.Having with
  | none => node.setHaving (some expr)
  | some h => node.setHaving (some (.AndExpr h expr))

/-- The HAVING expression held by `node.Having.Expr` after the call of
`sqlparser.Rewrite` in `rewriteHavingClause`, whose returned node is dropped. -/
def havingAfterRewrite (node : Select) (havingExpr : Expr) : Expr :=
  RewriteInPlace (havingPre (buildSelectExprMap node.SelectExprs [])) havingExpr

/-- The last loop of `rewriteHavingClause`, distributing the conjuncts. -/
def distributeHaving : List Expr → Select → Select
  | [], node => node
  | expr :: rest, node =>
      if ContainsAggregation expr then distributeHaving rest (node.AddHaving expr)
      else distributeHaving rest (node.AddWhere expr)

/-- Source: `rewriteHavingClause`. Returns the statement after the call. -/
def rewriteHavingClause (node : Select) : Select :=
  match node.Having with
  | none => node
  | some havingExpr =>
      let exprs := SplitAndExpression [] (havingAfterRewrite node havingExpr)
      distributeHaving exprs (node.setHaving none)

/-! ## rewrite.go: subqueries and routed tables -/

/-- Modelled from the spec: the name-reservation service
(`sqlparser.ReservedVars`): the names in use and the subquery counter. -/
structure ReservedVars where
  reserved : List String
  sqNext : Nat
deriving DecidableEq, Repr

/-- Primary parameter name of subquery number `n`. -/
def subQueryArgName (n : Nat) : String := "__sq" ++ toString n

/-- Has-values parameter name of subquery number `n`. -/
def hasValuesArgName (n : Nat) : String := "__sq_has_values" ++ toString n

/-- The first counter from `n` on for which `free` holds, trying `fuel` counters. -/
def nextFree (free : Nat → Bool) : Nat → Nat → Nat
  | 0, n => n
  | fuel + 1, n => if free n then n else nextFree free fuel (n + 1)

/-- Modelled from the spec: `ReserveSubQuery`, "reserveParam(scalar)": the next
primary name not in use. Returns the name and the service afterwards. -/
def ReservedVars.ReserveSubQuery (rv : ReservedVars) : String × ReservedVars :=
  let n := nextFree (fun k => !(rv.reserved.contains (subQueryArgName k)))
    (rv.reserved.length + 1) (rv.sqNext + 1)
  (subQueryArgName n, ⟨subQueryArgName n :: rv.reserved, n⟩)

/-- Modelled from the spec: `ReserveSubQueryWithHasValues`,
"reserveParam(hasValues)": the next pair of a primary and a has-values name,
neither in use. Returns both names and the service afterwards. -/
def ReservedVars.ReserveSubQueryWithHasValues (rv : ReservedVars) :
    String × String × ReservedVars :=
  let n := nextFree (fun k => !(rv.reserved.contains (subQueryArgName k)) &&
      !(rv.reserved.contains (hasValuesArgName k)))
    (rv.reserved.length + 1) (rv.sqNext + 1)
  (subQueryArgName n, hasValuesArgName n,
    ⟨hasValuesArgName n :: subQueryArgName n :: rv.reserved, n⟩)

/-- Modelled from the spec: `ReserveHasValuesSubQuery`,
"reserveParam(hasValuesForExists)": the next has-values name not in use. -/
def ReservedVars.ReserveHasValuesSubQuery (rv : ReservedVars) : String × ReservedVars :=
  let n := nextFree (fun k => !(rv.reserved.contains (hasValuesArgName k)))
    (rv.reserved.length + 1) (rv.sqNext + 1)
  (hasValuesArgName n, ⟨hasValuesArgName n :: rv.reserved, n⟩)

/-- Source: `type rewriter struct`. `semTable` and `reservedVars` are pointers
in the source; here they are the current state of the objects pointed to. -/
structure rewriter where
  semTable : SemTable
  reservedVars : ReservedVars
  isInSubquery : Int
  err : Option vtError

/-- Writes through the binding pointer found under the subquery address `ptr`. -/
def setBinding (ptr : Nat) (b : SubqueryBinding) :
    List (Nat × SubqueryBinding) → List (Nat × SubqueryBinding)
  | [] => []
  | (k, v) :: rest => if k = ptr then (k, b) :: rest else (k, v) :: setBinding ptr b rest

/-- The rewriter after the fields of the binding under `ptr` were assigned. -/
def rewriter.withBinding (r : rewriter) (ptr : Nat) (b : SubqueryBinding) : rewriter :=
  { r with semTable := { r.semTable with SubqueryRef := setBinding ptr b r.semTable.SubqueryRef } }

/-- Whether an expression is the nil interface value. -/
def Expr.isNil : Expr → Bool
  | .nilExpr => true
  | _ => false

/-- Source: `getSubqueryAndOtherSide`, on the operands of the comparison: the
address of the subquery operand (`none` for a nil `subq`) and the other operand. -/
def getSubqueryAndOtherSide (Left Right : Expr) : Option Nat × Expr :=
  match Left with
  | .Subquery lSubq _ => (some lSubq, Right)
  | _ =>
    match Right with
    | .Subquery rSubq _ => (some rSubq, Left)
    | _ => (none, .nilExpr)

/-- What one of the rewrite functions did: the rewriter afterwards, the node
handed to `cursor.Replace` if any, and the returned error. -/
structure RewriteResult where
  r : rewriter
  replaced : Option Expr
  err : Option vtError

/-- The internal error of a subquery without binding. -/
def errNotInSubqMap : vtError :=
  ⟨.INTERNAL, "BUG: came across subquery that was not in the subq map"⟩

/-- Source: `rewriteInSubquery`, on the fields of the comparison node. -/
def rewriteInSubquery (r : rewriter) (Operator : ComparisonExprOperator) (Left Right : Expr) :
    RewriteResult :=
  if Operator != .InOp && Operator != .NotInOp && Operator != .EqualOp &&
      Operator != .NotEqualOp then
    ⟨r, none, none⟩
  else
    match getSubqueryAndOtherSide Left Right with
    | (none, _) => ⟨r, none, none⟩
    | (some subq, exp) =>
      if exp.isNil then ⟨r, none, none⟩
      else
        match mapLookup subq r.semTable.SubqueryRef with
        | none => ⟨r, none, some errNotInSubqMap⟩
        | some semTableSQ =>
          let res := r.reservedVars.ReserveSubQueryWithHasValues
          let semTableSQ : SubqueryBinding :=
            { semTableSQ with ArgName := res.1, HasValuesArg := res.2.1, OtherSide := exp }
          ⟨{ r.withBinding subq semTableSQ with reservedVars := res.2.2 },
            some (.ExtractedSubquery subq), none⟩

/-- Source: `rewriteSubquery`, on the address of the subquery node. `PulloutValue` is opcode 0. -/
def rewriteSubquery (r : rewriter) (node : Nat) : RewriteResult :=
  match mapLookup node r.semTable.SubqueryRef with
  | none => ⟨r, none, some errNotInSubqMap⟩
  | some semTableSQ =>
    if semTableSQ.OpCode != 0 then ⟨r, none, none⟩
    else
      let res := r.reservedVars.ReserveSubQuery
      let semTableSQ : SubqueryBinding := { semTableSQ with ArgName := res.1 }
      ⟨{ r.withBinding node semTableSQ with reservedVars := res.2 },
        some (.ExtractedSubquery node), none⟩

/-- Source: `rewriter.rewriteExistsSubquery`, on the `Subquery` field of the
EXISTS node; a field that is not a subquery node has no binding. -/
def rewriteExistsSubquery (r : rewriter) (Subquery : Expr) : RewriteResult :=
  let found : Option (Nat × SubqueryBinding) :=
    match Subquery with
    | .Subquery ptr _ => (mapLookup ptr r.semTable.SubqueryRef).map fun b => (ptr, b)
    | _ => none
  match found with
  | none => ⟨r, none, some errNotInSubqMap⟩
  | some (ptr, semTableSQ) =>
    let res := r.reservedVars.ReserveHasValuesSubQuery
    let semTableSQ : SubqueryBinding := { semTableSQ with ArgName := res.1 }
    ⟨{ r.withBinding ptr semTableSQ with reservedVars := res.2 },
      some (.ExtractedSubquery ptr), none⟩

/-- The nodes on which the callbacks of the rewriter switch. -/
inductive SQLNode where
  | Select (s : Select)
  | Expr (e : Expr)
  | TableExpr (t : TableExpr)
  | other

/-- What `rewriteDown` did: the rewriter afterwards, the visited node after
its in-place changes, the node handed to `cursor.Replace` if any, and the
returned flag. -/
structure DownResult where
  r : rewriter
  node : SQLNode
  replaced : Option Expr
  kontinue : Bool

/-- The assignment `r.err = err` made when `err != nil`. -/
def rewriter.recordErr (r : rewriter) : Option vtError → rewriter
  | some e => { r with err := some e }
  | none => r

/-- Source: `rewriter.rewriteDown`. -/
def rewriteDown (r : rewriter) (node : SQLNode) : DownResult :=
  match node with
  | .Select s => ⟨r, .Select (rewriteHavingClause s), none, true⟩
  | .Expr (.ComparisonExpr op l rt _) =>
      let res := rewriteInSubquery r op l rt
      ⟨res.r.recordErr res.err, node, res.replaced, true⟩
  | .Expr (.ExistsExpr sq) =>
      let res := rewriteExistsSubquery r sq
      ⟨res.r.recordErr res.err, node, res.replaced, false⟩
  | .TableExpr (.AliasedTableExpr ptr expr As) =>
      match expr with
      | .DerivedTable _ => ⟨r, node, none, true⟩
      | .TableName tableName =>
        if r.isInSubquery == 0 then ⟨r, node, none, true⟩
        else
          let tableSet := r.semTable.TableSetFor ptr
          match r.semTable.TableInfoFor tableSet with
          | .error _ => ⟨r, node, none, true⟩
          | .ok tableInfo =>
            match tableInfo.GetVindexTable with
            | none => ⟨r, node, none, true⟩
            | some vindexTable =>
              if vindexTable.Name = tableName.Name then ⟨r, node, none, true⟩
              else
                let As' := if As.IsEmpty then tableName.Name else As
                let tableName' : TableName := { tableName with Name := vindexTable.Name }
                ⟨r, .TableExpr (.AliasedTableExpr ptr (.TableName tableName') As'), none, true⟩
  | _ => ⟨r, node, none, true⟩

/-- Source: `rewriter.rewriteUp`. -/
def rewriteUp (r : rewriter) (node : SQLNode) : rewriter × Bool :=
  match node with
  | .Expr (.Subquery _ _) =>
      let r' : rewriter := { r with isInSubquery := r.isInSubquery - 1 }
      (r', r'.err.isNone)
  | _ => (r, r.err.isNone)

/-- The slot of a visited expression: the replacement made on the way down, or
the visited node with the slots of its children as the walk left them. -/
def slotOf (d : DownResult) (node : Expr) : Expr :=
  match d.replaced with
  | some e => e
  | none => node

/-- The statement held by a node that `rewriteDown` was given as a `*Select`. -/
def SQLNode.asSelect : SQLNode → Vitess.Select → Vitess.Select
  | .Select s, _ => s
  | _, old => old

/-- The table expression held by a node that `rewriteDown` was given as one. -/
def SQLNode.asTableExpr : SQLNode → Vitess.TableExpr → Vitess.TableExpr
  | .TableExpr t, _ => t
  | _, old => old

mutual
/-- Modelled from the spec: `sqlparser.Rewrite` of package sqlparser with the
callbacks `rewriteDown` and `rewriteUp`, at an expression: the pre-order
callback, then the children of the visited node (skipped when the callback
returned false), then the post-order callback, which stops the whole walk by
returning false. The result is the rewriter afterwards, the content of the
slot that held the node, and whether the walk goes on; `none` is a walk that
ran out of `fuel`, which bounds its depth. Identifier leaves are
visited too; the callbacks change nothing there and the post-order callback
re-checks `r.err`, which only matters where they come before other children. -/
def walkExpr : Nat → rewriter → Expr → Option (rewriter × Expr × Bool)
  | 0, _, _ => none
  | _ + 1, r, .nilExpr => some (r, .nilExpr, true)
  | fuel + 1, r, node =>
      let d := rewriteDown r (.Expr node)
      if !d.kontinue then some (d.r, slotOf d node, true)
      else do
        let (r, node', ok) ← walkExprChildren fuel d.r node
        if !ok then return (r, slotOf d node', false)
        let u := rewriteUp r (.Expr node')
        return (u.1, slotOf d node', u.2)
/-- The children of an expression node, in field order. -/
def walkExprChildren : Nat → rewriter → Expr → Option (rewriter × Expr × Bool)
  | 0, _, _ => none
  | fuel + 1, r, .AndExpr l rt => do
      let (r, l', ok) ← walkExpr fuel r l
      if !ok then return (r, .AndExpr l' rt, false)
      let (r, rt', ok) ← walkExpr fuel r rt
      return (r, .AndExpr l' rt', ok)
  | fuel + 1, r, .OrExpr l rt => do
      let (r, l', ok) ← walkExpr fuel r l
      if !ok then return (r, .OrExpr l' rt, false)
      let (r, rt', ok) ← walkExpr fuel r rt
      return (r, .OrExpr l' rt', ok)
  | fuel + 1, r, .NotExpr e => do
      let (r, e', ok) ← walkExpr fuel r e
      return (r, .NotExpr e', ok)
  | fuel + 1, r, .ComparisonExpr o l rt x => do
      let (r, l', ok) ← walkExpr fuel r l
      if !ok then return (r, .ComparisonExpr o l' rt x, false)
      let (r, rt', ok) ← walkExpr fuel r rt
      if !ok then return (r, .ComparisonExpr o l' rt' x, false)
      let (r, x', ok) ← walkExpr fuel r x
      return (r, .ComparisonExpr o l' rt' x', ok)
  | fuel + 1, r, .FuncExpr q n d es =>
      if !(rewriteUp r .other).2 then some (r, .FuncExpr q n d es, false)
      else do
        let (r, es', ok) ← walkSelectExprs fuel r es
        return (r, .FuncExpr q n d es', ok)
  | fuel + 1, r, .Subquery p s => do
      let (r, s', ok) ← walkSelect fuel r s
      return (r, .Subquery p s', ok)
  | fuel + 1, r, .ExistsExpr sq => do
      let (r, sq', ok) ← walkExpr fuel r sq
      return (r, .ExistsExpr sq', ok)
  | _ + 1, r, node => some (r, node, true)
/-- A select list, a node of its own when not nil. -/
def walkSelectExprs : Nat → rewriter → List SelectExpr → Option (rewriter × List SelectExpr × Bool)
  | 0, _, _ => none
  | _ + 1, r, [] => some (r, [], true)
  | fuel + 1, r, ses => do
      let (r, ses', ok) ← walkSelectExprList fuel r ses
      if !ok then return (r, ses', false)
      let u := rewriteUp r .other
      return (u.1, ses', u.2)
/-- The entries of a select list. -/
def walkSelectExprList : Nat → rewriter → List SelectExpr → Option (rewriter × List SelectExpr × Bool)
  | 0, _, _ => none
  | _ + 1, r, [] => some (r, [], true)
  | fuel + 1, r, a :: as => do
      let (r, a', ok) ← walkSelectExpr fuel r a
      if !ok then return (r, a' :: as, false)
      let (r, as', ok) ← walkSelectExprList fuel r as
      return (r, a' :: as', ok)
/-- One entry of a select list. -/
def walkSelectExpr : Nat → rewriter → SelectExpr → Option (rewriter × SelectExpr × Bool)
  | 0, _, _ => none
  | _ + 1, r, .StarExpr t =>
      let u := rewriteUp r .other
      some (u.1, .StarExpr t, u.2)
  | fuel + 1, r, .AliasedExpr e a => do
      let (r, e', ok) ← walkExpr fuel r e
      if !ok then return (r, .AliasedExpr e' a, false)
      let u := rewriteUp r .other
      return (u.1, .AliasedExpr e' a, u.2)
  | fuel + 1, r, .Nextval e => do
      let (r, e', ok) ← walkExpr fuel r e
      if !ok then return (r, .Nextval e', false)
      let u := rewriteUp r .other
      return (u.1, .Nextval e', u.2)
/-- The table expressions of a FROM clause, a plain slice. -/
def walkTableExprList : Nat → rewriter → List TableExpr → Option (rewriter × List TableExpr × Bool)
  | 0, _, _ => none
  | _ + 1, r, [] => some (r, [], true)
  | fuel + 1, r, a :: as => do
      let (r, a', ok) ← walkTableExpr fuel r a
      if !ok then return (r, a' :: as, false)
      let (r, as', ok) ← walkTableExprList fuel r as
      return (r, a' :: as', ok)
/-- One table expression. -/
def walkTableExpr : Nat → rewriter → TableExpr → Option (rewriter × TableExpr × Bool)
  | 0, _, _ => none
  | fuel + 1, r, .JoinTableExpr l rt c => do
      let (r, l', ok) ← walkTableExpr fuel r l
      if !ok then return (r, .JoinTableExpr l' rt c, false)
      let (r, rt', ok) ← walkTableExpr fuel r rt
      if !ok then return (r, .JoinTableExpr l' rt' c, false)
      let (r, c', ok) ← walkExpr fuel r c
      if !ok then return (r, .JoinTableExpr l' rt' c', false)
      let u := rewriteUp r .other
      return (u.1, .JoinTableExpr l' rt' c', u.2)
  | fuel + 1, r, .AliasedTableExpr p e a =>
      let d := rewriteDown r (.TableExpr (.AliasedTableExpr p e a))
      match d.node.asTableExpr (.AliasedTableExpr p e a) with
      | .AliasedTableExpr p' (.DerivedTable s) a' => do
          let (r, s', ok) ← walkSelect fuel d.r s
          if !ok then return (r, .AliasedTableExpr p' (.DerivedTable s') a', false)
          let u := rewriteUp r .other
          return (u.1, .AliasedTableExpr p' (.DerivedTable s') a', u.2)
      | node' =>
          let u := rewriteUp d.r .other
          some (u.1, node', u.2)
/-- The expressions of a GROUP BY clause. -/
def walkExprList : Nat → rewriter → List Expr → Option (rewriter × List Expr × Bool)
  | 0, _, _ => none
  | _ + 1, r, [] => some (r, [], true)
  | fuel + 1, r, a :: as => do
      let (r, a', ok) ← walkExpr fuel r a
      if !ok then return (r, a' :: as, false)
      let (r, as', ok) ← walkExprList fuel r as
      return (r, a' :: as', ok)
/-- A WHERE or HAVING clause, a node of its own when not nil. -/
def walkWhere : Nat → rewriter → Option Expr → Option (rewriter × Option Expr × Bool)
  | 0, _, _ => none
  | _ + 1, r, none => some (r, none, true)
  | fuel + 1, r, some e => do
      let (r, e', ok) ← walkExpr fuel r e
      if !ok then return (r, some e', false)
      let u := rewriteUp r .other
      return (u.1, some e', u.2)
/-- The entries of an ORDER BY clause. -/
def walkOrderList : Nat → rewriter → List Order → Option (rewriter × List Order × Bool)
  | 0, _, _ => none
  | _ + 1, r, [] => some (r, [], true)
  | fuel + 1, r, .mk p e d :: as => do
      let (r, e', ok) ← walkExpr fuel r e
      if !ok then return (r, .mk p e' d :: as, false)
      let u := rewriteUp r .other
      if !u.2 then return (u.1, .mk p e' d :: as, false)
      let (r, as', ok) ← walkOrderList fuel u.1 as
      return (r, .mk p e' d :: as', ok)
/-- A statement: `rewriteDown` changes it in place, then its clauses are
walked as they are after that change. -/
def walkSelect : Nat → rewriter → Select → Option (rewriter × Select × Bool)
  | 0, _, _ => none
  | fuel + 1, r, node =>
      let d := rewriteDown r (.Select node)
      match d.node.asSelect node with
      | .mk ses f w g h o => do
        let (r, f', ok) ← walkTableExprList fuel d.r f
        if !ok then return (r, .mk ses f' w g h o, false)
        let (r, ses', ok) ← walkSelectExprs fuel r ses
        if !ok then return (r, .mk ses' f' w g h o, false)
        let (r, w', ok) ← walkWhere fuel r w
        if !ok then return (r, .mk ses' f' w' g h o, false)
        let (r, g', ok) ← walkExprList fuel r g
        if !ok then return (r, .mk ses' f' w' g' h o, false)
        let ug := if g'.isEmpty then (r, true) else rewriteUp r .other
        if !ug.2 then return (ug.1, .mk ses' f' w' g' h o, false)
        let (r, h', ok) ← walkWhere fuel ug.1 h
        if !ok then return (r, .mk ses' f' w' g' h' o, false)
        let (r, o', ok) ← walkOrderList fuel r o
        if !ok then return (r, .mk ses' f' w' g' h' o', false)
        let uo := if o'.isEmpty then (r, true) else rewriteUp r .other
        if !uo.2 then return (uo.1, .mk ses' f' w' g' h' o', false)
        let u := rewriteUp uo.1 (.Select (.mk ses' f' w' g' h' o'))
        return (u.1, .mk ses' f' w' g' h' o', u.2)
end

/-- What `queryRewrite` leaves behind: the rewriter it used, the statement
after the walk, and the error it returns. -/
structure QueryRewriteResult where
  r : rewriter
  statement : Select
  returned : Option vtError

/-- Source: `queryRewrite`. The walk fills `r.err`; the function returns nil.
`none` is a walk that ran out of fuel. -/
def queryRewrite (fuel : Nat) (semTable : SemTable) (reservedVars : ReservedVars)
    (statement : Select) : Option QueryRewriteResult :=
  let r : rewriter := { semTable := semTable, reservedVars := reservedVars, isInSubquery := 0, err := none }
  match walkSelect fuel r statement with
  | none => none
  | some (r, statement', _) => some ⟨r, statement', none⟩

/-! ## Notions used to state the properties -/

/-- The calls `pushProjection(e_1, p, inner_1)`, ..., `pushProjection(e_n, p, inner_n)`
made in this order on the same plan: the plan afterwards and the returned
offsets, `none` as soon as a call does not return a value. -/
def pushProjectionSeq (semTable : SemTable) :
    List (AliasedExpr × Bool) → logicalPlan → logicalPlan × Option (List Int)
  | [], plan => (plan, some [])
  | (e, inner) :: rest, plan =>
      match pushProjection e semTable plan inner with
      | (plan', .ok offset) =>
          match pushProjectionSeq semTable rest plan' with
          | (plan'', some offsets) => (plan'', some (offset :: offsets))
          | (plan'', none) => (plan'', none)
      | (plan', _) => (plan', none)

/-- The select expression that the entry `c` of the `Cols` of a join over two
routes designates: column `|c| - 1` of the left route when `c < 0`, of the
right route when `c > 0`. -/
def designated (l r : route) (c : Int) : Option SelectExpr :=
  if c < 0 then l.Select.SelectExprs.get? (-c - 1).toNat
  else if 0 < c then r.Select.SelectExprs.get? (c - 1).toNat
  else none

/-- A select expression that answers the request `e`: an aliased expression
whose expression is structurally equal to that of `e`, or to that of `e`
after `removeQualifierFromColName`. -/
def answers (se : SelectExpr) (e : AliasedExpr) : Bool :=
  match se with
  | .AliasedExpr x _ => EqualsExpr x e.Expr || EqualsExpr x (removeQualifierFromColName e).Expr
  | _ => false

/-- The plan `q` holds every route and join of `p` at the same place, possibly
under new aggregation or sort nodes, each route with its select list extended
at the end and each join with its `Cols` extended at the end. -/
inductive AppendOnly : logicalPlan → logicalPlan → Prop where
  | nilPlan : AppendOnly .nilPlan .nilPlan
  | route (r r' : Vitess.route) :
      r.Select.SelectExprs <+: r'.Select.SelectExprs → AppendOnly (.route r) (.route r')
  | joinGen4 (l l' r r' : logicalPlan) (op : JoinOpcode) (cols cols' : List Int) :
      AppendOnly l l' → AppendOnly r r' → cols <+: cols' →
      AppendOnly (.joinGen4 l r op cols) (.joinGen4 l' r' op cols')
  | orderedAggregate (i i' : logicalPlan) (a a' : List AggregateParams) :
      AppendOnly i i' → AppendOnly (.orderedAggregate i a) (.orderedAggregate i' a')
  | memorySortGen4 (i i' : logicalPlan) (ob ob' : List OrderbyParams) (t t' : Int) :
      AppendOnly i i' → AppendOnly (.memorySortGen4 ob i t) (.memorySortGen4 ob' i' t')
  | underAggregate (p p' : logicalPlan) (a : List AggregateParams) :
      AppendOnly p p' → AppendOnly p (.orderedAggregate p' a)
  | underSort (p p' : logicalPlan) (ob : List OrderbyParams) (t : Int) :
      AppendOnly p p' → AppendOnly p (.memorySortGen4 ob p' t)

/-- The helper expression `weight_string(expr)` that `pushExpression` projects. -/
def weightStringOf (expr : Expr) : AliasedExpr :=
  { Expr := .FuncExpr (NewTableIdent "") (NewColIdent "weight_string") false
      [.AliasedExpr expr (NewColIdent "")],
    As := NewColIdent "" }

/-- The expression an ORDER BY entry resolves to in `getOrProjectExpr`: the
select expression at the recorded offset when the entry is in
`qp.orderExprColMap`, the entry's own expression otherwise. -/
def resolvedExpr (qp : queryProjection) (order : Order) : Option Expr :=
  match mapLookup order.ptr qp.orderExprColMap with
  | some offset => (sliceAt qp.selectExprs offset).map fun se => se.Expr
  | none => some order.Expr

/-- The ORDER BY entry asks for a column that the select list `ses` lacks:
its own expression (when it has no recorded offset), or the weight_string
helper of the non-numeric column it resolves to. -/
def lacksColumn (qp : queryProjection) (semTable : SemTable) (ses : List SelectExpr)
    (order : Order) : Prop :=
  (mapLookup order.ptr qp.orderExprColMap = none ∧
    checkIfAlreadyExistsFrom { Expr := order.Expr, As := NewColIdent "" } ses 0 = -1) ∨
  (∃ name q tbl, resolvedExpr qp order = some (.ColName name q) ∧
    semTable.TableInfoFor (semTable.Dependencies (.ColName name q)) = .ok tbl ∧
    needsWeightString tbl name = true ∧
    checkIfAlreadyExistsFrom (weightStringOf (.ColName name q)) ses 0 = -1)

/-- Successive calls of `planOrderBy`, each on the plan the previous one
returned; `none` as soon as a call does not return a plan. -/
def planOrderBySeq (semTable : SemTable) :
    List (queryProjection × List Order) → logicalPlan → Option logicalPlan
  | [], plan => some plan
  | (qp, orderExprs) :: rest, plan =>
      match (planOrderBy qp orderExprs semTable plan).2 with
      | .ok plan' => planOrderBySeq semTable rest plan'
      | _ => none

/-- The conjunction of a non-empty list of conditions, nested to the left as
`AddWhere` and `AddHaving` build it on top of the condition `start`. -/
def andAll (start : Expr) (conds : List Expr) : Expr :=
  conds.foldl Expr.AndExpr start

/-- The clause made of the conditions `conds` added one by one to the clause `clause`. -/
def addAll (clause : Option Expr) (conds : List Expr) : Option Expr :=
  match clause, conds with
  | some w, cs => some (andAll w cs)
  | none, [] => none
  | none, c :: cs => some (andAll c cs)

/-- The top-level AND-conjuncts of a clause. -/
def conjunctsOf : Option Expr → List Expr
  | none => []
  | some e => SplitAndExpression [] e

/-- The route after `pushProjection` appended the expression to its select list. -/
def route.appended (node : route) (expr : AliasedExpr) : route :=
  { node with
    Select := (node.Select.setSelectExprs
      (node.Select.SelectExprs ++ [(removeQualifierFromColName expr).toSelectExpr])) }

/-- Whether `pushProjection` accepts the expression on a route: the plan-value
conversion reports no error and the expression is a column reference or a
plan value, or `inner` is set. -/
def acceptedOnRoute (e : AliasedExpr) (inner : Bool) : Bool :=
  match makePlanValue e.Expr with
  | .ok value => !(!inner && (value.isNone && !e.Expr.isColName))
  | _ => false

/-- The route `r'` is the route `r` with columns appended: same tables, same
`TruncateColumnCount`, select list extended at the end. -/
def routeExtends (r r' : route) : Prop :=
  r.Select.SelectExprs <+: r'.Select.SelectExprs ∧
  r'.eroute.TruncateColumnCount = r.eroute.TruncateColumnCount ∧
  r'.tables = r.tables

/-- The route after one round of the loop of `planOrderByForRoute`: the sort
key is recorded and the entry is added to the ORDER BY clause. -/
def route.ordered (plan : route) (offset weightStringOffset : Int) (order : Order) : route :=
  { plan with
    eroute := { plan.eroute with
      OrderBy := plan.eroute.OrderBy ++
        [⟨offset, weightStringOffset, order.Direction == OrderDirection.DescOrder⟩] },
    Select := plan.Select.AddOrder order }

/-- A conjunct: neither a conjunction nor the nil expression. -/
def isConjunct : Expr → Bool
  | .AndExpr _ _ => false
  | .nilExpr => false
  | _ => true

/-- Whether an expression is a `*sqlparser.Subquery`. -/
def Expr.isSubquery : Expr → Bool
  | .Subquery _ _ => true
  | _ => false

/-- The error of `pushProjection` for an expression that is neither a column
nor a plan value, pushed into a route on the outer side of a left join. -/
def errCrossShardLeftJoin : vtError :=
  ⟨.UNIMPLEMENTED, "unsupported: cross-shard left join and column expressions"⟩

/-- Whether an expression is a function call (`*sqlparser.FuncExpr`). -/
def Expr.isFuncExpr : Expr → Bool
  | .FuncExpr _ _ _ _ => true
  | _ => false

/-- The name of a function call; the empty name for anything else. -/
def Expr.funcName : Expr → ColIdent
  | .FuncExpr _ name _ _ => name
  | _ => NewColIdent ""

/-- The aggregates that pair, in order, the opcode which `SupportedAggregates`
holds for the lower-cased function name of each expression with the offset
at the same position. -/
def aggregateParamsOf : List AliasedExpr → List Int → List AggregateParams
  | e :: es, offset :: offsets =>
      ⟨SupportedAggregates e.Expr.funcName.Lowered, offset⟩ :: aggregateParamsOf es offsets
  | _, _ => []

/-- The calls `pushProjection(e, plan, inner = true)` that `planAggregations` makes. -/
def aggregatePushes (es : List AliasedExpr) : List (AliasedExpr × Bool) :=
  es.map fun e => (e, true)

/-- The sort key `p` is what the loop of `planOrderByForRoute`, run from the
route `r` to the route `r'`, records for the ORDER BY entry `o`: `Desc` tells
whether the entry is descending, and `Col` is the offset recorded for the
entry in `qp.orderExprColMap` or, for an entry not in that map, the offset
returned by `pushProjection` for the entry's expression, called with
`inner = true` on the route in a state between `r` and `r'`. -/
def recordsKey (qp : queryProjection) (semTable : SemTable) (r r' : route)
    (p : OrderbyParams) (o : Order) : Prop :=
  p.Desc = (o.Direction == OrderDirection.DescOrder) ∧
  (∀ offset, mapLookup o.ptr qp.orderExprColMap = some offset → p.Col = offset) ∧
  (mapLookup o.ptr qp.orderExprColMap = none →
    ∃ ri ri' : route, r.Select.SelectExprs <+: ri.Select.SelectExprs ∧
      ri'.Select.SelectExprs <+: r'.Select.SelectExprs ∧
      pushProjection { Expr := o.Expr, As := NewColIdent "" } semTable (.route ri) true
        = (.route ri', .ok p.Col))

/-- The ORDER BY entry resolves to a bare column reference whose table
information the semantic table finds. -/
def resolvesToColumn (qp : queryProjection) (semTable : SemTable) (order : Order) : Prop :=
  ∃ name q tbl, resolvedExpr qp order = some (.ColName name q) ∧
    semTable.TableInfoFor (semTable.Dependencies (.ColName name q)) = .ok tbl

/-- The keys of the table `SupportedAggregates`. -/
def supportedAggregateNames : List String :=
  ["count", "sum", "min", "max", "count_distinct", "sum_distinct"]

/-- The number of columns a plan node offers to a join above it: the length
of the select list of a route and of the `Cols` of a join; an aggregation or
sort node hands on the columns of its input. -/
def logicalPlan.width : logicalPlan → Nat
  | .nilPlan => 0
  | .route r => r.Select.SelectExprs.length
  | .joinGen4 _ _ _ cols => cols.length
  | .orderedAggregate input _ => input.width
  | .memorySortGen4 _ input _ => input.width

/-- The entry `c` of the `Cols` of a join over the children `l` and `r` is a
valid reference: `c` is not 0 and `|c| - 1` is a column index of the left
child when `c < 0`, of the right child when `c > 0`. -/
def validCol (l r : logicalPlan) (c : Int) : Bool :=
  if c < 0 then decide ((-c - 1).toNat < l.width)
  else if 0 < c then decide ((c - 1).toNat < r.width)
  else false

/-- Every entry of the `Cols` of every join of the plan is a valid reference. -/
def ColsValid : logicalPlan → Bool
  | .nilPlan => true
  | .route _ => true
  | .joinGen4 l r _ cols => ColsValid l && ColsValid r && cols.all (validCol l r)
  | .orderedAggregate input _ => ColsValid input
  | .memorySortGen4 _ input _ => ColsValid input

/-- A plan built from routes and joins only, the `Cols` of every join empty. -/
def emptyCols : logicalPlan → Bool
  | .route _ => true
  | .joinGen4 l r _ cols => emptyCols l && emptyCols r && cols.isEmpty
  | _ => false

/-- The expression without the qualifier of a top-level column reference:
`ks.t.a` and `t.a` both give `a`; any other expression is kept as it is. -/
def Expr.withoutQualifier : Expr → Expr
  | .ColName n _ => .ColName n ⟨⟨""⟩, ⟨""⟩⟩
  | e => e

/-- The select expression is an aliased expression structurally equal to `e`
up to removal of a top-level column qualifier: with the qualifier of a
top-level column reference removed on both sides, the two are structurally
equal. -/
def sameUpToQualifier (se : SelectExpr) (e : Expr) : Bool :=
  match se with
  | .AliasedExpr x _ => EqualsExpr x.withoutQualifier e.withoutQualifier
  | _ => false

/-- The defining expression of the alias `key`, a lower-cased name, in a
select list: that of the last aliased select expression whose alias,
lower-cased, is `key`. -/
def aliasDefinition (key : String) : List SelectExpr → Option Expr
  | [] => none
  | se :: rest =>
      match aliasDefinition key rest with
      | some d => some d
      | none =>
        match se with
        | .AliasedExpr e as => if !as.IsEmpty && decide (as.Lowered = key) then some e else none
        | _ => none

mutual
/-- The alias-substituted expression: every unqualified column reference
whose name matches, case-insensitively, the alias of a select expression of
`ses` is replaced by that select expression's defining expression; every
qualified reference and every reference that matches no alias is kept. -/
def substituteAliases (ses : List SelectExpr) : Expr → Expr
  | .nilExpr => .nilExpr
  | .ColName n q =>
      if q.IsEmpty then
        match aliasDefinition n.Lowered ses with
        | some d => d
        | none => .ColName n q
      else .ColName n q
  | .Literal t v => .Literal t v
  | .Argument a => .Argument a
  | .AndExpr l r => .AndExpr (substituteAliases ses l) (substituteAliases ses r)
  | .OrExpr l r => .OrExpr (substituteAliases ses l) (substituteAliases ses r)
  | .NotExpr e => .NotExpr (substituteAliases ses e)
  | .ComparisonExpr o l r x =>
      .ComparisonExpr o (substituteAliases ses l) (substituteAliases ses r)
        (substituteAliases ses x)
  | .FuncExpr q n d es => .FuncExpr q n d (substituteAliasesSelectExprs ses es)
  | .Subquery p s => .Subquery p (substituteAliasesSelect ses s)
  | .ExistsExpr sq => .ExistsExpr (substituteAliases ses sq)
  | .ExtractedSubquery ref => .ExtractedSubquery ref
termination_by structural e => e
/-- Alias substitution in a select list. -/
def substituteAliasesSelectExprs (ses : List SelectExpr) : List SelectExpr → List SelectExpr
  | [] => []
  | a :: as => substituteAliasesSelectExpr ses a :: substituteAliasesSelectExprs ses as
termination_by structural e => e
/-- Alias substitution in a select-list entry. -/
def substituteAliasesSelectExpr (ses : List SelectExpr) : SelectExpr → SelectExpr
  | .StarExpr t => .StarExpr t
  | .AliasedExpr e a => .AliasedExpr (substituteAliases ses e) a
  | .Nextval e => .Nextval (substituteAliases ses e)
termination_by structural e => e
/-- Alias substitution in a FROM clause. -/
def substituteAliasesTableExprs (ses : List SelectExpr) : List TableExpr → List TableExpr
  | [] => []
  | a :: as => substituteAliasesTableExpr ses a :: substituteAliasesTableExprs ses as
termination_by structural e => e
/-- Alias substitution in a table expression. -/
def substituteAliasesTableExpr (ses : List SelectExpr) : TableExpr → TableExpr
  | .AliasedTableExpr p e a => .AliasedTableExpr p (substituteAliasesSimpleTableExpr ses e) a
  | .JoinTableExpr l r c =>
      .JoinTableExpr (substituteAliasesTableExpr ses l) (substituteAliasesTableExpr ses r)
        (substituteAliases ses c)
termination_by structural e => e
/-- Alias substitution in a simple table expression. -/
def substituteAliasesSimpleTableExpr (ses : List SelectExpr) : SimpleTableExpr → SimpleTableExpr
  | .TableName n => .TableName n
  | .DerivedTable s => .DerivedTable (substituteAliasesSelect ses s)
termination_by structural e => e
/-- Alias substitution in an expression list. -/
def substituteAliasesExprs (ses : List SelectExpr) : List Expr → List Expr
  | [] => []
  | a :: as => substituteAliases ses a :: substituteAliasesExprs ses as
termination_by structural e => e
/-- Alias substitution in an optional condition. -/
def substituteAliasesWhere (ses : List SelectExpr) : Option Expr → Option Expr
  | none => none
  | some a => some (substituteAliases ses a)
termination_by structural e => e
/-- Alias substitution in an ORDER BY clause. -/
def substituteAliasesOrderBy (ses : List SelectExpr) : List Order → List Order
  | [] => []
  | a :: as => substituteAliasesOrder ses a :: substituteAliasesOrderBy ses as
termination_by structural e => e
/-- Alias substitution in an ORDER BY entry. -/
def substituteAliasesOrder (ses : List SelectExpr) : Order → Order
  | .mk p e d => .mk p (substituteAliases ses e) d
termination_by structural e => e
/-- Alias substitution in a statement nested in the expression. -/
def substituteAliasesSelect (ses : List SelectExpr) : Select → Select
  | .mk s f w g h o =>
      .mk (substituteAliasesSelectExprs ses s) (substituteAliasesTableExprs ses f)
        (substituteAliasesWhere ses w) (substituteAliasesExprs ses g)
        (substituteAliasesWhere ses h) (substituteAliasesOrderBy ses o)
termination_by structural e => e
end

/-- The whole HAVING expression is an unqualified column reference that names
an alias of the select list. -/
def havingRootIsAlias (ses : List SelectExpr) : Expr → Bool
  | .ColName n q => q.IsEmpty && (aliasDefinition n.Lowered ses).isSome
  | _ => false

/-- The top-level AND-conjuncts, in order, of the alias-substituted HAVING expression. -/
def substitutedConjuncts (ses : List SelectExpr) (havingExpr : Expr) : List Expr :=
  SplitAndExpression [] (substituteAliases ses havingExpr)

/-! ## Concrete inputs used by the evaluations -/

/-- The empty table name. -/
def noTable : TableName := ⟨⟨""⟩, ⟨""⟩⟩

/-- The column `a`, unqualified. -/
def colA : Expr := .ColName ⟨"a"⟩ noTable

/-- The column `b`, unqualified. -/
def colB : Expr := .ColName ⟨"b"⟩ noTable

/-- The column `ks.t.a`, qualified by table and keyspace. -/
def colKsTA : Expr := .ColName ⟨"a"⟩ ⟨⟨"t"⟩, ⟨"ks"⟩⟩

/-- The column `t.a`, the result of `removeQualifierFromColName` on `ks.t.a`. -/
def colTA : Expr := .ColName ⟨"a"⟩ ⟨⟨"t"⟩, ⟨""⟩⟩

/-- An expression without alias. -/
def unaliased (e : Expr) : AliasedExpr := ⟨e, ⟨""⟩⟩

/-- A statement with the given select list and nothing else. -/
def selectOf (ses : List SelectExpr) : Select := .mk ses [] none [] none []

/-- A route over the table set `ts` with the given select list. -/
def routeOf (ses : List SelectExpr) (ts : TableSet) : route := ⟨selectOf ses, ⟨[], 0⟩, ts⟩

/-- A semantic table in which every column reference depends on the table set
`ts` and every table has a VARCHAR column `a` and an INT64 column `n`. -/
def semTableOf (ts : TableSet) : SemTable :=
  ⟨fun _ _ => ts, fun _ => .ok ⟨[⟨"a", .VARCHAR⟩, ⟨"n", .INT64⟩], none⟩, fun _ => ts, []⟩

/-- A semantic table in which the column `a` depends on table 1 and every
other column on table 2. -/
def semTableAB : SemTable :=
  ⟨fun n _ => if n.val = "a" then 1 else 2,
    fun _ => .ok ⟨[⟨"a", .VARCHAR⟩, ⟨"n", .INT64⟩], none⟩, fun _ => 0, []⟩

/-- The aggregate `count(a)`. -/
def countOfA : Expr := .FuncExpr ⟨""⟩ ⟨"count"⟩ false [.AliasedExpr colA ⟨""⟩]

/-- The entry `ORDER BY a` (ascending) at address 1. -/
def orderByA : Order := .mk 1 colA .AscOrder

/-- The entry `ORDER BY b DESC` at address 2. -/
def orderByB : Order := .mk 2 colB .DescOrder

/-- A working set without recorded ORDER BY offsets and with the aggregate `count(a)`. -/
def qpCountA : queryProjection := ⟨[unaliased countOfA], [unaliased countOfA], []⟩

/-- The inner join of a route over table 1 that selects `a` and a route over
table 2 that selects nothing yet. -/
def joinOfA : logicalPlan :=
  .joinGen4 (.route (routeOf [.AliasedExpr colA ⟨""⟩] 1)) (.route (routeOf [] 2)) .NormalJoin []

/-- A working set without aggregates and without recorded ORDER BY offsets. -/
def qpEmpty : queryProjection := ⟨[], [], []⟩

/-- The column `y`, unqualified. -/
def colY : Expr := .ColName ⟨"y"⟩ noTable

/-- The condition `count(a) > 1`. -/
def countAGtOne : Expr := .ComparisonExpr .GreaterThanOp countOfA (.Literal .IntVal "1") .nilExpr

/-- The condition `y = 2`. -/
def yEqTwo : Expr := .ComparisonExpr .EqualOp colY (.Literal .IntVal "2") .nilExpr

/-- The table `t`, without alias, at address 100. -/
def tableT : TableExpr := .AliasedTableExpr 100 (.TableName ⟨⟨"t"⟩, ⟨""⟩⟩) ⟨""⟩

/-- The statement `select a from t having count(a) > 1 and y = 2`. -/
def selectHavingAggAndY : Select :=
  .mk [.AliasedExpr colA ⟨""⟩] [tableT] none [] (some (.AndExpr countAGtOne yEqTwo)) []

/-- The column `c`, unqualified. -/
def colC : Expr := .ColName ⟨"c"⟩ noTable

/-- The aggregate `count(*)`. -/
def countStar : Expr := .FuncExpr ⟨""⟩ ⟨"count"⟩ false [.StarExpr noTable]

/-- The statement `select count(*) as c from t group by t.a having c`. -/
def selectHavingAlias : Select :=
  .mk [.AliasedExpr countStar ⟨"c"⟩] [tableT] none [colTA] (some colC) []

/-- The condition `c > 5`. -/
def cGtFive : Expr := .ComparisonExpr .GreaterThanOp colC (.Literal .IntVal "5") .nilExpr

/-- The statement `select count(*) as c from t group by t.a having c > 5`. -/
def selectHavingAliasGtFive : Select :=
  .mk [.AliasedExpr countStar ⟨"c"⟩] [tableT] none [colTA] (some cGtFive) []

/-- The table `t2`, without alias, at address 101. -/
def tableT2 : TableExpr := .AliasedTableExpr 101 (.TableName ⟨⟨"t2"⟩, ⟨""⟩⟩) ⟨""⟩

/-- The statement `select y from t2`. -/
def selectYFromT2 : Select := .mk [.AliasedExpr colY ⟨""⟩] [tableT2] none [] none []

/-- The column `x`, unqualified. -/
def colX : Expr := .ColName ⟨"x"⟩ noTable

/-- A binding as the semantic analysis leaves it, with the given opcode. -/
def freshBinding (opcode : Int) : SubqueryBinding := ⟨"", "", opcode, .nilExpr⟩

/-- A semantic table that binds the subquery at address 7 (opcode 1) and nothing else. -/
def semTableSq7 : SemTable :=
  ⟨fun _ _ => 1, fun _ => .ok ⟨[], none⟩, fun _ => 1, [(7, freshBinding 1)]⟩

/-- A rewriter at the start of `queryRewrite` over `semTableSq7`, no name reserved yet. -/
def rewriterSq7 : rewriter := ⟨semTableSq7, ⟨[], 0⟩, 0, none⟩

/-- The statement `select a from t where exists (select y from t2)`, its
subquery at address 7. -/
def selectWhereExists : Select :=
  .mk [.AliasedExpr colA ⟨""⟩] [tableT] (some (.ExistsExpr (.Subquery 7 selectYFromT2))) [] none []

/-- The statement `select a from t where x in (select y from t2)`, its
subquery at address 7. -/
def selectWhereIn : Select :=
  .mk [.AliasedExpr colA ⟨""⟩] [tableT]
    (some (.ComparisonExpr .InOp colX (.Subquery 7 selectYFromT2) .nilExpr)) [] none []

/-- A route over table 1 that selects `a` and `weight_string(a)`. -/
def routeAWs : route :=
  routeOf [.AliasedExpr colA ⟨""⟩, (weightStringOf colA).toSelectExpr] 1

/-- The route `routeAWs` after `ORDER BY a`: the sort key is recorded, no
column is added and `TruncateColumnCount` is still 0. -/
def routeAWsOrdered : route :=
  ⟨.mk [.AliasedExpr colA ⟨""⟩, (weightStringOf colA).toSelectExpr] [] none [] none [orderByA],
    ⟨[⟨0, 1, false⟩], 0⟩, 1⟩

/-- The route over table 1 that selects `a`, after `ORDER BY a`: the helper
`weight_string(a)` is column 1 and `TruncateColumnCount` is 1. -/
def routeAOrdered : route :=
  ⟨.mk [.AliasedExpr colA ⟨""⟩, (weightStringOf colA).toSelectExpr] [] none [] none [orderByA],
    ⟨[⟨0, 1, false⟩], 1⟩, 1⟩

/-- The route `routeAOrdered` after a further `ORDER BY b DESC`: `b` and
`weight_string(b)` are columns 2 and 3 and `TruncateColumnCount` is 2. -/
def routeABOrdered : route :=
  ⟨.mk [.AliasedExpr colA ⟨""⟩, (weightStringOf colA).toSelectExpr,
      .AliasedExpr colB ⟨""⟩, (weightStringOf colB).toSelectExpr] [] none [] none
      [orderByA, orderByB],
    ⟨[⟨0, 1, false⟩, ⟨2, 3, true⟩], 2⟩, 1⟩

/-- The table `t3`, without alias, at address 102. -/
def tableT3 : TableExpr := .AliasedTableExpr 102 (.TableName ⟨⟨"t3"⟩, ⟨""⟩⟩) ⟨""⟩

/-- The table `t4`, without alias, at address 103. -/
def tableT4 : TableExpr := .AliasedTableExpr 103 (.TableName ⟨⟨"t4"⟩, ⟨""⟩⟩) ⟨""⟩

/-- The statement `select y from t3`. -/
def selectYFromT3 : Select := .mk [.AliasedExpr colY ⟨""⟩] [tableT3] none [] none []

/-- The condition `x < (select y from t3)`, its subquery at address 7. -/
def xLtSubquery : Expr := .ComparisonExpr .LessThanOp colX (.Subquery 7 selectYFromT3) .nilExpr

/-- The statement `select a from t join t2 on x < (select y from t3), t4`. -/
def selectJoinOnSubquery : Select :=
  .mk [.AliasedExpr colA ⟨""⟩] [.JoinTableExpr tableT tableT2 xLtSubquery, tableT4] none [] none []

/-- A semantic table in which every table reference is a routed table whose
original table is named `orig`; no subquery is bound. -/
def semTableRouted : SemTable :=
  ⟨fun _ _ => 1, fun _ => .ok ⟨[], some ⟨⟨"orig"⟩⟩⟩, fun _ => 1, []⟩

/-- The table reference `orig as t4` at address 103: `t4` after the routed-table rewrite. -/
def tableT4Rewritten : TableExpr :=
  .AliasedTableExpr 103 (.TableName ⟨⟨"orig"⟩, ⟨""⟩⟩) ⟨"t4"⟩

/-- The table reference `orig as t3` at address 102: `t3` after the routed-table rewrite. -/
def tableT3Rewritten : TableExpr :=
  .AliasedTableExpr 102 (.TableName ⟨⟨"orig"⟩, ⟨""⟩⟩) ⟨"t3"⟩

/-- A semantic table that binds the subqueries at addresses 7 and 8 (opcode 1 each). -/
def semTableSq78 : SemTable :=
  ⟨fun _ _ => 1, fun _ => .ok ⟨[], none⟩, fun _ => 1, [(7, freshBinding 1), (8, freshBinding 1)]⟩

/-- The aggregate `sum(b)`. -/
def sumOfB : Expr := .FuncExpr ⟨""⟩ ⟨"sum"⟩ false [.AliasedExpr colB ⟨""⟩]

/-- The left join of a route over table 1 that selects `a` and a route over
table 2 that selects nothing yet. -/
def leftJoinOfA : logicalPlan :=
  .joinGen4 (.route (routeOf [.AliasedExpr colA ⟨""⟩] 1)) (.route (routeOf [] 2)) .LeftJoin []

/-- A working set whose only aggregate is `sum(b)`. -/
def qpSumB : queryProjection := ⟨[unaliased sumOfB], [unaliased sumOfB], []⟩

/-- The aggregate `SUM(b)`, its name in upper case. -/
def upperSumOfB : Expr := .FuncExpr ⟨""⟩ ⟨"SUM"⟩ false [.AliasedExpr colB ⟨""⟩]

/-- A working set with the aggregates `count(a)` and `SUM(b)`. -/
def qpCountASumB : queryProjection :=
  ⟨[unaliased countOfA, unaliased upperSumOfB], [unaliased countOfA, unaliased upperSumOfB], []⟩

/-- The entry `ORDER BY count(a)` (ascending) at address 3. -/
def orderByCountA : Order := .mk 3 countOfA .AscOrder

/-- A semantic table in which every column depends on table 1 and every
table-information lookup fails. -/
def semTableNoInfo : SemTable :=
  ⟨fun _ _ => 1, fun _ => .error ⟨.INTERNAL, "[BUG] should only be used for single tables"⟩,
    fun _ => 1, []⟩

/-- The literal `1`, an expression without dependencies. -/
def literalOne : Expr := .Literal .IntVal "1"

/-- A semantic table in which every column depends on table 4. -/
def semTableFour : SemTable := semTableOf 4

/-- The function call `avg(a)`, whose name is no key of `SupportedAggregates`. -/
def avgOfA : Expr := .FuncExpr ⟨""⟩ ⟨"avg"⟩ false [.AliasedExpr colA ⟨""⟩]

/-- A working set whose only aggregate expression is `avg(a)`. -/
def qpAvgA : queryProjection := ⟨[unaliased avgOfA], [unaliased avgOfA], []⟩

/-- The entry `ORDER BY ks.t.a` (ascending) at address 4. -/
def orderByKsTA : Order := .mk 4 colKsTA .AscOrder

/-- The entry `ORDER BY ks.t.a DESC` at address 5. -/
def orderByKsTADesc : Order := .mk 5 colKsTA .DescOrder

/-- The route over table 1 with an empty select list, after
`ORDER BY ks.t.a, ks.t.a DESC`: the first round appends `t.a` and
`weight_string(ks.t.a)` as columns 0 and 1, the second round does not find
`ks.t.a` and appends `t.a` again as column 2. -/
def routeKsTAOrdered : route :=
  ⟨.mk [.AliasedExpr colTA ⟨""⟩, (weightStringOf colKsTA).toSelectExpr, .AliasedExpr colTA ⟨""⟩]
      [] none [] none [orderByKsTA, orderByKsTADesc],
    ⟨[⟨0, 1, false⟩, ⟨2, 1, true⟩], 0⟩, 1⟩

/-- The statement `select count(*) as c from t group by t.a having c > 5 and y = 2`. -/
def selectHavingAliasAndY : Select :=
  .mk [.AliasedExpr countStar ⟨"c"⟩] [tableT] none [colTA] (some (.AndExpr cGtFive yEqTwo)) []

/-- The condition `count(*) > 5`. -/
def countStarGtFive : Expr :=
  .ComparisonExpr .GreaterThanOp countStar (.Literal .IntVal "5") .nilExpr

/-! ## Theorems -/

/-- The empty table set is solved by every table set. -/
theorem TableSet.zero_IsSolvedBy (ts : TableSet) : TableSet.IsSolvedBy 0 ts = true := by
  simp [TableSet.IsSolvedBy]

mutual
/-- `EqualsExpr` is reflexive. -/
theorem EqualsExpr_refl : ∀ e, EqualsExpr e e = true
  | .nilExpr => rfl
  | .ColName n q => by
      show (decide (n = n) && decide (q = q)) = true
      simp
  | .Literal t v => by
      show (decide (t = t) && decide (v = v)) = true
      simp
  | .Argument a => by
      show decide (a = a) = true
      simp
  | .AndExpr l r => by
      show (EqualsExpr l l && EqualsExpr r r) = true
      rw [EqualsExpr_refl l, EqualsExpr_refl r]; rfl
  | .OrExpr l r => by
      show (EqualsExpr l l && EqualsExpr r r) = true
      rw [EqualsExpr_refl l, EqualsExpr_refl r]; rfl
  | .NotExpr e => by
      show EqualsExpr e e = true
      exact EqualsExpr_refl e
  | .ComparisonExpr o l r x => by
      show (decide (o = o) && EqualsExpr l l && EqualsExpr r r && EqualsExpr x x) = true
      rw [EqualsExpr_refl l, EqualsExpr_refl r, EqualsExpr_refl x]; simp
  | .FuncExpr q n d es => by
      show (decide (q = q) && decide (n = n) && decide (d = d) && EqualsSelectExprs es es) = true
      rw [EqualsSelectExprs_refl es]; simp
  | .Subquery _ s => by
      show EqualsSelect s s = true
      exact EqualsSelect_refl s
  | .ExistsExpr s => by
      show EqualsExpr s s = true
      exact EqualsExpr_refl s
  | .ExtractedSubquery r => by
      show decide (r = r) = true
      simp
/-- `EqualsSelectExprs` is reflexive. -/
theorem EqualsSelectExprs_refl : ∀ e, EqualsSelectExprs e e = true
  | [] => rfl
  | a :: as => by
      show (EqualsSelectExpr a a && EqualsSelectExprs as as) = true
      rw [EqualsSelectExpr_refl a, EqualsSelectExprs_refl as]; rfl
/-- `EqualsSelectExpr` is reflexive. -/
theorem EqualsSelectExpr_refl : ∀ e, EqualsSelectExpr e e = true
  | .StarExpr t => by
      show decide (t = t) = true
      simp
  | .AliasedExpr e a => by
      show (EqualsExpr e e && decide (a = a)) = true
      rw [EqualsExpr_refl e]; simp
  | .Nextval e => by
      show EqualsExpr e e = true
      exact EqualsExpr_refl e
/-- `EqualsTableExprs` is reflexive. -/
theorem EqualsTableExprs_refl : ∀ e, EqualsTableExprs e e = true
  | [] => rfl
  | a :: as => by
      show (EqualsTableExpr a a && EqualsTableExprs as as) = true
      rw [EqualsTableExpr_refl a, EqualsTableExprs_refl as]; rfl
/-- `EqualsTableExpr` is reflexive. -/
theorem EqualsTableExpr_refl : ∀ e, EqualsTableExpr e e = true
  | .AliasedTableExpr _ e a => by
      show (EqualsSimpleTableExpr e e && decide (a = a)) = true
      rw [EqualsSimpleTableExpr_refl e]; simp
  | .JoinTableExpr l r c => by
      show (EqualsTableExpr l l && EqualsTableExpr r r && EqualsExpr c c) = true
      rw [EqualsTableExpr_refl l, EqualsTableExpr_refl r, EqualsExpr_refl c]; rfl
/-- `EqualsSimpleTableExpr` is reflexive. -/
theorem EqualsSimpleTableExpr_refl : ∀ e, EqualsSimpleTableExpr e e = true
  | .TableName n => by
      show decide (n = n) = true
      simp
  | .DerivedTable s => by
      show EqualsSelect s s = true
      exact EqualsSelect_refl s
/-- `EqualsExprs` is reflexive. -/
theorem EqualsExprs_refl : ∀ e, EqualsExprs e e = true
  | [] => rfl
  | a :: as => by
      show (EqualsExpr a a && EqualsExprs as as) = true
      rw [EqualsExpr_refl a, EqualsExprs_refl as]; rfl
/-- `EqualsRefOfWhere` is reflexive. -/
theorem EqualsRefOfWhere_refl : ∀ e, EqualsRefOfWhere e e = true
  | none => rfl
  | some a => by
      show EqualsExpr a a = true
      exact EqualsExpr_refl a
/-- `EqualsOrderBy` is reflexive. -/
theorem EqualsOrderBy_refl : ∀ e, EqualsOrderBy e e = true
  | [] => rfl
  | a :: as => by
      show (EqualsRefOfOrder a a && EqualsOrderBy as as) = true
      rw [EqualsRefOfOrder_refl a, EqualsOrderBy_refl as]; rfl
/-- `EqualsRefOfOrder` is reflexive. -/
theorem EqualsRefOfOrder_refl : ∀ e, EqualsRefOfOrder e e = true
  | .mk _ e d => by
      show (EqualsExpr e e && decide (d = d)) = true
      rw [EqualsExpr_refl e]; simp
/-- `EqualsSelect` is reflexive. -/
theorem EqualsSelect_refl : ∀ e, EqualsSelect e e = true
  | .mk ses f w g h o => by
      show (EqualsSelectExprs ses ses && EqualsTableExprs f f && EqualsRefOfWhere w w &&
        EqualsExprs g g && EqualsRefOfWhere h h && EqualsOrderBy o o) = true
      rw [EqualsSelectExprs_refl ses, EqualsTableExprs_refl f, EqualsRefOfWhere_refl w,
        EqualsExprs_refl g, EqualsRefOfWhere_refl h, EqualsOrderBy_refl o]; rfl
end

/-- `checkIfAlreadyExistsFrom` returns -1 or an index of the scanned range. -/
theorem checkIfAlreadyExistsFrom_range (expr : AliasedExpr) (l : List SelectExpr) (i : Int) :
    checkIfAlreadyExistsFrom expr l i = -1 ∨
      (i ≤ checkIfAlreadyExistsFrom expr l i ∧ checkIfAlreadyExistsFrom expr l i < i + l.length) := by
  induction l generalizing i with
  | nil => left; rfl
  | cons a as ih =>
    cases a with
    | AliasedExpr e al =>
      simp only [checkIfAlreadyExistsFrom]
      split
      · right; constructor
        · exact le_refl _
        · simp only [List.length_cons, Nat.cast_add, Nat.cast_one]; omega
      · rcases ih (i + 1) with h | ⟨h1, h2⟩
        · left; exact h
        · right; simp only [List.length_cons, Nat.cast_add, Nat.cast_one]; omega
    | StarExpr t =>
      simp only [checkIfAlreadyExistsFrom]
      rcases ih (i + 1) with h | ⟨h1, h2⟩
      · left; exact h
      · right; simp only [List.length_cons, Nat.cast_add, Nat.cast_one]; omega
    | Nextval e =>
      simp only [checkIfAlreadyExistsFrom]
      rcases ih (i + 1) with h | ⟨h1, h2⟩
      · left; exact h
      · right; simp only [List.length_cons, Nat.cast_add, Nat.cast_one]; omega

/-- An index returned by `checkIfAlreadyExistsFrom` holds an aliased
expression structurally equal to the one looked for. -/
theorem checkIfAlreadyExistsFrom_found (expr : AliasedExpr) (l : List SelectExpr) (i : Int)
    (hi : 0 ≤ i) (hk : checkIfAlreadyExistsFrom expr l i ≠ -1) :
    ∃ e a, l.get? (checkIfAlreadyExistsFrom expr l i - i).toNat = some (.AliasedExpr e a) ∧
      EqualsExpr e expr.Expr = true := by
  induction l generalizing i with
  | nil => exact absurd rfl hk
  | cons a as ih =>
    have step : ∀ k : Int, i + 1 ≤ k → (k - i).toNat = (k - (i + 1)).toNat + 1 := by
      intro k hk; omega
    cases a with
    | AliasedExpr e al =>
      simp only [checkIfAlreadyExistsFrom] at hk ⊢
      split
      · rename_i heq
        exact ⟨e, al, by simp, heq⟩
      · rename_i hne
        simp only [hne] at hk
        obtain ⟨e', a', h1, h2⟩ := ih (i + 1) (by omega) (by simpa using hk)
        rcases checkIfAlreadyExistsFrom_range expr as (i + 1) with h | ⟨h3, _⟩
        · simp [h] at hk
        · exact ⟨e', a', by rw [step _ h3]; simpa using h1, h2⟩
    | StarExpr t =>
      simp only [checkIfAlreadyExistsFrom] at hk ⊢
      obtain ⟨e', a', h1, h2⟩ := ih (i + 1) (by omega) hk
      rcases checkIfAlreadyExistsFrom_range expr as (i + 1) with h | ⟨h3, _⟩
      · exact absurd h hk
      · exact ⟨e', a', by rw [step _ h3]; simpa using h1, h2⟩
    | Nextval e =>
      simp only [checkIfAlreadyExistsFrom] at hk ⊢
      obtain ⟨e', a', h1, h2⟩ := ih (i + 1) (by omega) hk
      rcases checkIfAlreadyExistsFrom_range expr as (i + 1) with h | ⟨h3, _⟩
      · exact absurd h hk
      · exact ⟨e', a', by rw [step _ h3]; simpa using h1, h2⟩

/-- A hit of `checkIfAlreadyExistsFrom` is not moved by appending to the list. -/
theorem checkIfAlreadyExistsFrom_append_hit (expr : AliasedExpr) (l l' : List SelectExpr) (i : Int)
    (hk : checkIfAlreadyExistsFrom expr l i ≠ -1) :
    checkIfAlreadyExistsFrom expr (l ++ l') i = checkIfAlreadyExistsFrom expr l i := by
  induction l generalizing i with
  | nil => exact absurd rfl hk
  | cons a as ih =>
    cases a with
    | AliasedExpr e al =>
      simp only [checkIfAlreadyExistsFrom, List.cons_append] at hk ⊢
      split
      · rfl
      · rename_i hne
        simp only [hne] at hk
        exact ih (i + 1) (by simpa using hk)
    | StarExpr t =>
      simp only [checkIfAlreadyExistsFrom, List.cons_append] at hk ⊢
      exact ih (i + 1) hk
    | Nextval e =>
      simp only [checkIfAlreadyExistsFrom, List.cons_append] at hk ⊢
      exact ih (i + 1) hk

/-- After a miss, `checkIfAlreadyExistsFrom` goes on in what was appended. -/
theorem checkIfAlreadyExistsFrom_append_miss (expr : AliasedExpr) (l l' : List SelectExpr) (i : Int)
    (hi : 0 ≤ i) (hk : checkIfAlreadyExistsFrom expr l i = -1) :
    checkIfAlreadyExistsFrom expr (l ++ l') i
      = checkIfAlreadyExistsFrom expr l' (i + l.length) := by
  induction l generalizing i with
  | nil => simp
  | cons a as ih =>
    have e1 : i + 1 + (as.length : Int) = i + ((a :: as).length : Int) := by
      simp only [List.length_cons, Nat.cast_add, Nat.cast_one]; omega
    cases a with
    | AliasedExpr e al =>
      simp only [checkIfAlreadyExistsFrom, List.cons_append, List.append_eq] at hk ⊢
      split
      · rename_i heq
        simp only [heq, if_true] at hk
        omega
      · rename_i hne
        simp only [hne] at hk
        rw [ih (i + 1) (by omega) (by simpa using hk), e1]
    | StarExpr t =>
      simp only [checkIfAlreadyExistsFrom, List.cons_append, List.append_eq] at hk ⊢
      rw [ih (i + 1) (by omega) hk, e1]
    | Nextval e =>
      simp only [checkIfAlreadyExistsFrom, List.cons_append, List.append_eq] at hk ⊢
      rw [ih (i + 1) (by omega) hk, e1]

@[simp] theorem Select.SelectExprs_setSelectExprs (s : Select) (l : List SelectExpr) :
    (s.setSelectExprs l).SelectExprs = l := by
  cases s; rfl

@[simp] theorem Select.SelectExprs_AddOrder (s : Select) (o : Order) :
    (s.AddOrder o).SelectExprs = s.SelectExprs := by
  cases s; rfl

@[simp] theorem route.appended_SelectExprs (node : route) (e : AliasedExpr) :
    (node.appended e).Select.SelectExprs
      = node.Select.SelectExprs ++ [(removeQualifierFromColName e).toSelectExpr] := by
  simp [route.appended]

@[simp] theorem route.appended_eroute (node : route) (e : AliasedExpr) :
    (node.appended e).eroute = node.eroute := rfl

@[simp] theorem route.appended_tables (node : route) (e : AliasedExpr) :
    (node.appended e).tables = node.tables := rfl

/-- `makePlanValue` never panics. -/
theorem makePlanValue_ne_panic (e : Expr) : makePlanValue e ≠ .panic := by
  cases e <;> try (simp [makePlanValue]; done)
  case Literal t v =>
    cases t <;> simp only [makePlanValue] <;> try (simp; done)
    split
    · split <;> simp
    · simp

/-- The three ways `pushProjection` ends on a route: an error that leaves the
route as it was, the offset of an expression already there, or the offset of
the expression it appended. -/
theorem pushProjection_route_cases (e : AliasedExpr) (st : SemTable) (node : route) (inner : Bool) :
    (∃ err, pushProjection e st (.route node) inner = (.route node, .error err)) ∨
    (checkIfAlreadyExists e node.Select ≠ -1 ∧
      pushProjection e st (.route node) inner
        = (.route node, .ok (checkIfAlreadyExists e node.Select))) ∨
    (checkIfAlreadyExists e node.Select = -1 ∧
      pushProjection e st (.route node) inner
        = (.route (node.appended e), .ok (node.Select.SelectExprs.length : Int))) := by
  unfold pushProjection
  cases hv : makePlanValue e.Expr with
  | panic => exact absurd hv (makePlanValue_ne_panic _)
  | error err => left; exact ⟨err, rfl⟩
  | ok value =>
    simp only
    split
    · left; exact ⟨_, rfl⟩
    · right
      by_cases hc : checkIfAlreadyExists e node.Select = -1
      · right; refine ⟨hc, ?_⟩
        simp [hc, route.appended]
      · left; refine ⟨hc, ?_⟩
        simp [hc]

/-- A successful `pushProjection` on a join placed the expression in exactly
one child and appended the signed offset to `Cols`. -/
theorem pushProjection_joinGen4_ok (e : AliasedExpr) (st : SemTable) (L R : logicalPlan)
    (op : JoinOpcode) (cols : List Int) (inner : Bool) (p' : logicalPlan) (k : Int)
    (h : pushProjection e st (.joinGen4 L R op cols) inner = (p', .ok k)) :
    k = cols.length ∧
    ((∃ L' off, pushProjection e st L inner = (L', .ok off) ∧
        p' = .joinGen4 L' R op (cols ++ [-(off + 1)])) ∨
     (∃ R' off, pushProjection e st R (inner && op != JoinOpcode.LeftJoin) = (R', .ok off) ∧
        p' = .joinGen4 L R' op (cols ++ [off + 1]))) := by
  unfold pushProjection at h
  split at h
  · simp only at h
    split at h
    · split at h
      · rename_i L' off hL
        simp only [Prod.mk.injEq, Outcome.ok.injEq] at h
        refine ⟨?_, Or.inl ⟨L', off, hL, h.1.symm⟩⟩
        rw [← h.2]; simp
      · simp at h
      · simp at h
    · split at h
      · split at h
        · rename_i R' off hR
          simp only [Prod.mk.injEq, Outcome.ok.injEq] at h
          refine ⟨?_, Or.inr ⟨R', off, hR, h.1.symm⟩⟩
          rw [← h.2]; simp
        · simp at h
        · simp at h
      · simp at h
  · simp at h

/-- A successful `pushProjection` on a route returns a valid offset of the
route afterwards, whose select list is the old one, unchanged or with one
entry appended, and the entry at that offset answers the request. -/
theorem pushProjection_route_ok (e : AliasedExpr) (st : SemTable) (node : route) (inner : Bool)
    (p' : logicalPlan) (off : Int)
    (h : pushProjection e st (.route node) inner = (p', .ok off)) :
    ∃ node', p' = .route node' ∧
      node.Select.SelectExprs <+: node'.Select.SelectExprs ∧
      node'.eroute = node.eroute ∧ node'.tables = node.tables ∧ 0 ≤ off ∧
      ∃ se, node'.Select.SelectExprs.get? off.toNat = some se ∧ answers se e = true := by
  rcases pushProjection_route_cases e st node inner with ⟨err, h1⟩ | ⟨hne, h1⟩ | ⟨heq, h1⟩
  · rw [h1] at h; simp at h
  · rw [h1] at h
    simp only [Prod.mk.injEq, Outcome.ok.injEq] at h
    obtain ⟨hp, hoff⟩ := h
    refine ⟨node, hp.symm, List.prefix_refl _, rfl, rfl, ?_, ?_⟩
    · rcases checkIfAlreadyExistsFrom_range e node.Select.SelectExprs 0 with h0 | ⟨h0, _⟩
      · exact absurd h0 hne
      · rw [← hoff]; exact h0
    · obtain ⟨x, a, hx, hxe⟩ := checkIfAlreadyExistsFrom_found e node.Select.SelectExprs 0
        (le_refl _) hne
      refine ⟨.AliasedExpr x a, ?_, ?_⟩
      · rw [← hoff]; simpa [checkIfAlreadyExists] using hx
      · simp [answers, hxe]
  · rw [h1] at h
    simp only [Prod.mk.injEq, Outcome.ok.injEq] at h
    obtain ⟨hp, hoff⟩ := h
    refine ⟨node.appended e, hp.symm, by simp, rfl, rfl, by omega, ?_⟩
    refine ⟨(removeQualifierFromColName e).toSelectExpr, ?_, ?_⟩
    · rw [← hoff]; simp
    · simp [answers, AliasedExpr.toSelectExpr, EqualsExpr_refl]

/-- A list lookup that succeeds still succeeds, with the same result, after appending. -/
theorem get?_append_some {α : Type} {l l' : List α} {n : Nat} {a : α} (h : l.get? n = some a) :
    (l ++ l').get? n = some a := by
  have hn : n < l.length := by
    by_contra hc
    rw [List.get?_eq_none.mpr (by omega)] at h
    exact absurd h (by simp)
  simp only [List.get?_eq_getElem?] at h ⊢
  rw [List.getElem?_append_left hn]; exact h

/-- An entry of `Cols` keeps designating the same select expression when the
select lists of both routes are extended at the end. -/
theorem designated_mono (l r l' r' : route) (c : Int) (se : SelectExpr)
    (hl : l.Select.SelectExprs <+: l'.Select.SelectExprs)
    (hr : r.Select.SelectExprs <+: r'.Select.SelectExprs)
    (h : designated l r c = some se) : designated l' r' c = some se := by
  obtain ⟨tl, htl⟩ := hl
  obtain ⟨tr, htr⟩ := hr
  unfold designated at h ⊢
  rw [← htl, ← htr]
  split
  · rename_i hc
    simp only [hc, if_true] at h
    exact get?_append_some h  
  · rename_i hc
    simp only [hc, if_false] at h
    split
    · rename_i hc'
      simp only [hc', if_true] at h
      exact get?_append_some h
    · rename_i hc'
      simp [hc'] at h


/-- One successful `pushProjection` on a join over two routes: the join keeps
its shape, `Cols` gets one entry, the returned offset is its index, both select
lists are extended at the end, and the new entry designates a select
expression that answers the request. -/
theorem pushProjection_join_routes_ok (e : AliasedExpr) (st : SemTable) (l r : route)
    (op : JoinOpcode) (cols : List Int) (inner : Bool) (p' : logicalPlan) (k : Int)
    (h : pushProjection e st (.joinGen4 (.route l) (.route r) op cols) inner = (p', .ok k)) :
    k = cols.length ∧
    ∃ l' r' c, p' = .joinGen4 (.route l') (.route r') op (cols ++ [c]) ∧
      l.Select.SelectExprs <+: l'.Select.SelectExprs ∧
      r.Select.SelectExprs <+: r'.Select.SelectExprs ∧
      ∃ se, designated l' r' c = some se ∧ answers se e = true := by
  obtain ⟨hk, hcase⟩ := pushProjection_joinGen4_ok e st _ _ op cols inner p' k h
  refine ⟨hk, ?_⟩
  rcases hcase with ⟨L', off, hL, hp⟩ | ⟨R', off, hR, hp⟩
  · obtain ⟨l', rfl, hpre, _, _, hoff, se, hse, hans⟩ := pushProjection_route_ok e st l inner L' off hL
    refine ⟨l', r, -(off + 1), hp, hpre, List.prefix_refl _, se, ?_, hans⟩
    have h1 : -(off + 1) < 0 := by omega
    have h2 : (- -(off + 1) - 1) = off := by omega
    simp only [designated, h1, if_true, h2]
    exact hse
  · obtain ⟨r', rfl, hpre, _, _, hoff, se, hse, hans⟩ := pushProjection_route_ok e st r _ R' off hR
    refine ⟨l, r', off + 1, hp, List.prefix_refl _, hpre, se, ?_, hans⟩
    have h1 : ¬ (off + 1 < 0) := by omega
    have h2 : (0 : Int) < off + 1 := by omega
    have h3 : off + 1 - 1 = off := by omega
    simp only [designated, h1, if_false, h2, if_true, h3]
    exact hse

/-- The column mapping of a join over two routes, from any initial `Cols`:
the calls return the successive indexes from the initial length on, and the
entries appended to `Cols` designate, in order, select expressions that answer
the requests. -/
theorem pushProjectionSeq_join_routes (st : SemTable) (op : JoinOpcode)
    (es : List (AliasedExpr × Bool)) :
    ∀ (l r : route) (cols : List Int) (ks : List Int),
      (pushProjectionSeq st es (.joinGen4 (.route l) (.route r) op cols)).2 = some ks →
      ∃ l' r' added,
        (pushProjectionSeq st es (.joinGen4 (.route l) (.route r) op cols)).1
          = .joinGen4 (.route l') (.route r') op (cols ++ added) ∧
        l.Select.SelectExprs <+: l'.Select.SelectExprs ∧
        r.Select.SelectExprs <+: r'.Select.SelectExprs ∧
        ks = (List.range' cols.length es.length).map Int.ofNat ∧
        List.Forall₂ (fun c (req : AliasedExpr × Bool) =>
          ∃ se, designated l' r' c = some se ∧ answers se req.1 = true) added es := by
  induction es with
  | nil =>
    intro l r cols ks h
    refine ⟨l, r, [], by simp [pushProjectionSeq], List.prefix_refl _, List.prefix_refl _, ?_,
      List.Forall₂.nil⟩
    simpa [pushProjectionSeq] using h.symm
  | cons req rest ih =>
    intro l r cols ks h
    obtain ⟨e, inner⟩ := req
    cases hstep : pushProjection e st (.joinGen4 (.route l) (.route r) op cols) inner with
    | mk p1 res =>
      cases res with
      | error err => simp [pushProjectionSeq, hstep] at h
      | panic => simp [pushProjectionSeq, hstep] at h
      | ok k =>
        obtain ⟨hk, l1, r1, c, hp1, hl1, hr1, se, hse, hans⟩ :=
          pushProjection_join_routes_ok e st l r op cols inner p1 k hstep
        subst hp1
        cases hrest : pushProjectionSeq st rest (.joinGen4 (.route l1) (.route r1) op (cols ++ [c])) with
        | mk p2 res2 =>
          cases res2 with
          | none => simp [pushProjectionSeq, hstep, hrest] at h
          | some ks' =>
            have hks : ks = k :: ks' := by simpa [pushProjectionSeq, hstep, hrest] using h.symm
            obtain ⟨l', r', added, hfin, hl', hr', hks', hall⟩ :=
              ih l1 r1 (cols ++ [c]) ks' (by rw [hrest])
            rw [hrest] at hfin
            simp only at hfin
            refine ⟨l', r', c :: added, ?_, hl1.trans hl', hr1.trans hr', ?_, ?_⟩
            · simp [pushProjectionSeq, hstep, hrest, hfin]
            · rw [hks, hks', hk]
              simp [List.range'_succ]
            · exact List.Forall₂.cons ⟨se, designated_mono l1 r1 l' r' c se hl' hr' hse, hans⟩ hall

/-- An expression that is not accepted on a route gets an error and the route is unchanged. -/
theorem pushProjection_route_rejected (e : AliasedExpr) (st : SemTable) (node : route)
    (inner : Bool) (h : acceptedOnRoute e inner = false) :
    ∃ err, pushProjection e st (.route node) inner = (.route node, .error err) := by
  unfold acceptedOnRoute at h
  unfold pushProjection
  cases hv : makePlanValue e.Expr with
  | panic => exact absurd hv (makePlanValue_ne_panic _)
  | error err => exact ⟨err, rfl⟩
  | ok value =>
    simp only [hv, Bool.not_eq_false'] at h
    simp only
    rw [if_pos h]
    exact ⟨_, rfl⟩

/-- An accepted expression is found in the select list or appended to it. -/
theorem pushProjection_route_accepted (e : AliasedExpr) (st : SemTable) (node : route)
    (inner : Bool) (h : acceptedOnRoute e inner = true) :
    (checkIfAlreadyExists e node.Select ≠ -1 ∧
      pushProjection e st (.route node) inner
        = (.route node, .ok (checkIfAlreadyExists e node.Select))) ∨
    (checkIfAlreadyExists e node.Select = -1 ∧
      pushProjection e st (.route node) inner
        = (.route (node.appended e), .ok (node.Select.SelectExprs.length : Int))) := by
  unfold acceptedOnRoute at h
  unfold pushProjection
  cases hv : makePlanValue e.Expr with
  | panic => exact absurd hv (makePlanValue_ne_panic _)
  | error err => simp [hv] at h
  | ok value =>
    simp only [hv, Bool.not_eq_true'] at h
    simp only
    rw [if_neg (by simp [h])]
    by_cases hc : checkIfAlreadyExists e node.Select = -1
    · right; exact ⟨hc, by simp [hc, route.appended]⟩
    · left; exact ⟨hc, by simp [hc]⟩

/-- Dedup on a route holds for every accepted expression that
`removeQualifierFromColName` leaves structurally equal to itself (anything but
a column reference that carries a keyspace): the second call returns the
offset of the first and the select list has grown by one entry. -/
theorem pushProjection_route_twice (e : AliasedExpr) (st : SemTable) (node : route)
    (inner : Bool) (p1 : logicalPlan) (off : Int)
    (hkeep : EqualsExpr (removeQualifierFromColName e).Expr e.Expr = true)
    (hnew : checkIfAlreadyExists e node.Select = -1)
    (h1 : pushProjection e st (.route node) inner = (p1, .ok off)) :
    p1 = .route (node.appended e) ∧ off = node.Select.SelectExprs.length ∧
    pushProjection e st p1 inner = (p1, .ok off) := by
  have hacc : acceptedOnRoute e inner = true := by
    by_contra hc
    obtain ⟨err, h⟩ := pushProjection_route_rejected e st node inner (by simpa using hc)
    rw [h] at h1; simp at h1
  rcases pushProjection_route_accepted e st node inner hacc with ⟨hne, _⟩ | ⟨_, h⟩
  · exact absurd hnew hne
  · rw [h] at h1
    simp only [Prod.mk.injEq, Outcome.ok.injEq] at h1
    obtain ⟨hp, hoff⟩ := h1
    subst hp; subst hoff
    refine ⟨rfl, rfl, ?_⟩
    have hchk : checkIfAlreadyExists e (node.appended e).Select
        = (node.Select.SelectExprs.length : Int) := by
      unfold checkIfAlreadyExists at hnew ⊢
      rw [route.appended_SelectExprs,
        checkIfAlreadyExistsFrom_append_miss e _ _ 0 (le_refl _) hnew]
      simp [checkIfAlreadyExistsFrom, AliasedExpr.toSelectExpr, hkeep]
    rcases pushProjection_route_accepted e st (node.appended e) inner hacc with ⟨_, h2⟩ | ⟨h2, _⟩
    · rw [h2, hchk]
    · rw [hchk] at h2; omega

/-- C1 (the code at the failing input). On a route with an empty select list,
the column `ks.t.a` is not in the list, the first `pushProjection` of it
returns 0 and appends `t.a`, and the second returns 1 and appends `t.a` once
more: the offsets differ and the select list has grown by two entries. -/
theorem C1_keyspace_qualified_column_pushed_twice :
    checkIfAlreadyExists (unaliased colKsTA) (routeOf [] 1).Select = -1 ∧
    pushProjection (unaliased colKsTA) (semTableOf 1) (.route (routeOf [] 1)) true
      = (.route (routeOf [.AliasedExpr colTA ⟨""⟩] 1), .ok 0) ∧
    pushProjection (unaliased colKsTA) (semTableOf 1)
        (.route (routeOf [.AliasedExpr colTA ⟨""⟩] 1)) true
      = (.route (routeOf [.AliasedExpr colTA ⟨""⟩, .AliasedExpr colTA ⟨""⟩] 1), .ok 1) := by
  refine ⟨by decide, rfl, rfl⟩

/-- C3. Outer-join safety: on a left join over two routes, an expression that
is not a column reference and whose dependencies are solved by the right
route's tables but not by the left route's is rejected with the "unsupported"
error, for either value of `inner`, and the join, its `Cols` and both routes
are left as they were. -/
theorem C3_outer_join_rejects_non_column (st : SemTable) (l r : route) (Cols : List Int)
    (e : AliasedExpr) (inner : Bool)
    (hcol : e.Expr.isColName = false)
    (hright : TableSet.IsSolvedBy (st.Dependencies e.Expr) r.tables = true)
    (hleft : TableSet.IsSolvedBy (st.Dependencies e.Expr) l.tables = false) :
    pushProjection e st (.joinGen4 (.route l) (.route r) .LeftJoin Cols) inner
      = (.joinGen4 (.route l) (.route r) .LeftJoin Cols,
          .error ⟨.UNIMPLEMENTED, "unsupported: cross-shard left join and column expressions"⟩) := by
  obtain ⟨ex, as⟩ := e
  simp only at hcol hright hleft
  have hv : makePlanValue ex = .ok none := by
    cases ex
    case ColName => simp [Expr.isColName] at hcol
    case Literal => simp [SemTable.Dependencies, TableSet.zero_IsSolvedBy] at hleft
    case Argument => simp [SemTable.Dependencies, TableSet.zero_IsSolvedBy] at hleft
    all_goals rfl
  simp [pushProjection, logicalPlan.ContainsTables, hleft, hright, hv, hcol]

/-- C3, for `f(b)` on a left join of a route over table 1 and a route over
table 2, `b` being a column of table 2. -/
theorem C3_outer_join_rejects_non_column_witness :
    (unaliased (.FuncExpr ⟨""⟩ ⟨"f"⟩ false [.AliasedExpr colB ⟨""⟩])).Expr.isColName = false ∧
    TableSet.IsSolvedBy (semTableAB.Dependencies
      (unaliased (.FuncExpr ⟨""⟩ ⟨"f"⟩ false [.AliasedExpr colB ⟨""⟩])).Expr)
      (routeOf [] 2).tables = true ∧
    TableSet.IsSolvedBy (semTableAB.Dependencies
      (unaliased (.FuncExpr ⟨""⟩ ⟨"f"⟩ false [.AliasedExpr colB ⟨""⟩])).Expr)
      (routeOf [] 1).tables = false ∧
    pushProjection (unaliased (.FuncExpr ⟨""⟩ ⟨"f"⟩ false [.AliasedExpr colB ⟨""⟩])) semTableAB
        (.joinGen4 (.route (routeOf [] 1)) (.route (routeOf [] 2)) .LeftJoin [-1]) true
      = (.joinGen4 (.route (routeOf [] 1)) (.route (routeOf [] 2)) .LeftJoin [-1],
          .error ⟨.UNIMPLEMENTED, "unsupported: cross-shard left join and column expressions"⟩) :=
  ⟨by decide, by decide, by decide,
    C3_outer_join_rejects_non_column semTableAB (routeOf [] 1) (routeOf [] 2) [-1]
      (unaliased (.FuncExpr ⟨""⟩ ⟨"f"⟩ false [.AliasedExpr colB ⟨""⟩])) true
      (by decide) (by decide) (by decide)⟩

/-- Every plan extends itself. -/
theorem AppendOnly_refl : ∀ p, AppendOnly p p
  | .nilPlan => .nilPlan
  | .route r => .route r r (List.prefix_refl _)
  | .joinGen4 l r op cols =>
      .joinGen4 _ _ _ _ op cols cols (AppendOnly_refl l) (AppendOnly_refl r) (List.prefix_refl _)
  | .orderedAggregate i a => .orderedAggregate _ _ a a (AppendOnly_refl i)
  | .memorySortGen4 ob i t => .memorySortGen4 _ _ ob ob t t (AppendOnly_refl i)

/-- Extensions compose. -/
theorem AppendOnly_trans {a b c : logicalPlan} (h1 : AppendOnly a b) (h2 : AppendOnly b c) :
    AppendOnly a c := by
  induction h2 generalizing a with
  | nilPlan => exact h1
  | route r r' hp =>
    cases h1 with
    | route r0 _ hp0 => exact .route _ _ (hp0.trans hp)
  | joinGen4 l l' r r' op cols cols' hl hr hc ihl ihr =>
    cases h1 with
    | joinGen4 l0 _ r0 _ _ cols0 _ hl0 hr0 hc0 =>
      exact .joinGen4 _ _ _ _ _ _ _ (ihl hl0) (ihr hr0) (hc0.trans hc)
  | orderedAggregate i i' a a' hi ih =>
    cases h1 with
    | orderedAggregate i0 _ a0 _ hi0 => exact .orderedAggregate _ _ _ _ (ih hi0)
    | underAggregate _ _ _ hp => exact .underAggregate _ _ _ (ih hp)
  | memorySortGen4 i i' ob ob' t t' hi ih =>
    cases h1 with
    | memorySortGen4 i0 _ ob0 _ t0 _ hi0 => exact .memorySortGen4 _ _ _ _ _ _ (ih hi0)
    | underSort _ _ _ _ hp => exact .underSort _ _ _ _ (ih hp)
  | underAggregate p p' a hp ih => exact .underAggregate _ _ _ (ih h1)
  | underSort p p' ob t hp ih => exact .underSort _ _ _ _ (ih h1)

/-- `pushProjection` only appends, whatever its result. -/
theorem pushProjection_appendOnly (e : AliasedExpr) (st : SemTable) :
    ∀ (p : logicalPlan) (inner : Bool), AppendOnly p (pushProjection e st p inner).1
  | .nilPlan, _ => by unfold pushProjection; exact .nilPlan
  | .orderedAggregate i a, _ => by unfold pushProjection; exact AppendOnly_refl _
  | .memorySortGen4 ob i t, _ => by unfold pushProjection; exact AppendOnly_refl _
  | .route node, inner => by
    rcases pushProjection_route_cases e st node inner with ⟨err, h⟩ | ⟨_, h⟩ | ⟨_, h⟩
    · rw [h]; exact AppendOnly_refl _
    · rw [h]; exact AppendOnly_refl _
    · rw [h]; exact .route _ _ (by simp)
  | .joinGen4 L R op cols, inner => by
    have ihL := pushProjection_appendOnly e st L inner
    have ihR := pushProjection_appendOnly e st R (inner && op != JoinOpcode.LeftJoin)
    unfold pushProjection
    split
    · simp only
      split
      · split
        · rename_i heq
          rw [heq] at ihL
          exact .joinGen4 _ _ _ _ _ _ _ ihL (AppendOnly_refl _) (List.prefix_append _ _)
        · rename_i heq
          rw [heq] at ihL
          exact .joinGen4 _ _ _ _ _ _ _ ihL (AppendOnly_refl _) (List.prefix_refl _)
        · rename_i heq
          rw [heq] at ihL
          exact .joinGen4 _ _ _ _ _ _ _ ihL (AppendOnly_refl _) (List.prefix_refl _)
      · split
        · split
          · rename_i heq
            rw [heq] at ihR
            exact .joinGen4 _ _ _ _ _ _ _ (AppendOnly_refl _) ihR (List.prefix_append _ _)
          · rename_i heq
            rw [heq] at ihR
            exact .joinGen4 _ _ _ _ _ _ _ (AppendOnly_refl _) ihR (List.prefix_refl _)
          · rename_i heq
            rw [heq] at ihR
            exact .joinGen4 _ _ _ _ _ _ _ (AppendOnly_refl _) ihR (List.prefix_refl _)
        · exact AppendOnly_refl _
    · exact AppendOnly_refl _

/-- The loop of `planAggregations` only appends, whatever its result. -/
theorem planAggregationsLoop_appendOnly (st : SemTable) (es : List AliasedExpr) :
    ∀ (p : logicalPlan) (aggs : List AggregateParams),
      AppendOnly p (planAggregationsLoop st es p aggs).1 := by
  induction es with
  | nil => intro p aggs; exact AppendOnly_refl _
  | cons e rest ih =>
    intro p aggs
    have hp := pushProjection_appendOnly e st p true
    unfold planAggregationsLoop
    split
    · rename_i heq; rw [heq] at hp; exact hp
    · rename_i heq; rw [heq] at hp; exact hp
    · rename_i heq
      rw [heq] at hp
      split
      · exact AppendOnly_trans hp (ih _ _)
      · exact hp

/-- A route extends itself. -/
theorem routeExtends_refl (r : route) : routeExtends r r :=
  ⟨List.prefix_refl _, rfl, rfl⟩

/-- Route extensions compose. -/
theorem routeExtends_trans {a b c : route} (h1 : routeExtends a b) (h2 : routeExtends b c) :
    routeExtends a c :=
  ⟨h1.1.trans h2.1, h2.2.1.trans h1.2.1, h2.2.2.trans h1.2.2⟩

/-- A route extension does not shorten the select list. -/
theorem routeExtends_length_le {a b : route} (h : routeExtends a b) :
    a.Select.SelectExprs.length ≤ b.Select.SelectExprs.length :=
  h.1.length_le

/-- Appending an expression extends the route. -/
theorem routeExtends_appended (r : route) (e : AliasedExpr) : routeExtends r (r.appended e) :=
  ⟨by simp, rfl, rfl⟩

/-- Recording a sort key extends the route and keeps its select list. -/
theorem routeExtends_ordered (r : route) (a b : Int) (o : Order) :
    routeExtends r (r.ordered a b o) :=
  ⟨by simp [route.ordered], rfl, rfl⟩

@[simp] theorem route.ordered_SelectExprs (r : route) (a b : Int) (o : Order) :
    (r.ordered a b o).Select.SelectExprs = r.Select.SelectExprs := by
  simp [route.ordered]

/-- A successful `pushExpression` found the helper column or appended it. -/
theorem pushExpression_ok (plan plan2 : route) (expr : Expr) (st : SemTable) (off : Int)
    (h : pushExpression plan expr st = (plan2, .ok off)) :
    (plan2 = plan ∧ checkIfAlreadyExists (weightStringOf expr) plan.Select ≠ -1 ∧
      off = checkIfAlreadyExists (weightStringOf expr) plan.Select) ∨
    (plan2 = plan.appended (weightStringOf expr) ∧
      checkIfAlreadyExists (weightStringOf expr) plan.Select = -1 ∧
      off = plan.Select.SelectExprs.length) := by
  have hdef : pushExpression plan expr st
      = ((pushProjection (weightStringOf expr) st (.route plan) true).1.asRoute plan,
         (pushProjection (weightStringOf expr) st (.route plan) true).2) := rfl
  rw [hdef] at h
  rcases pushProjection_route_cases (weightStringOf expr) st plan true with
    ⟨err, h1⟩ | ⟨hne, h1⟩ | ⟨heq, h1⟩
  · rw [h1] at h; simp at h
  · rw [h1] at h
    simp only [logicalPlan.asRoute, Prod.mk.injEq, Outcome.ok.injEq] at h
    exact Or.inl ⟨h.1.symm, hne, h.2.symm⟩
  · rw [h1] at h
    simp only [logicalPlan.asRoute, Prod.mk.injEq, Outcome.ok.injEq] at h
    exact Or.inr ⟨h.1.symm, heq, h.2.symm⟩

/-- A successful `getOrProjectExpr` returns the expression the entry resolves
to; the route is unchanged, or the entry had no recorded offset, its expression
was not in the select list, and it was appended. -/
theorem getOrProjectExpr_ok (qp : queryProjection) (plan plan1 : route) (st : SemTable)
    (order : Order) (off : Int) (expr : Expr)
    (h : getOrProjectExpr qp plan st order = (plan1, .ok (off, expr))) :
    resolvedExpr qp order = some expr ∧
    ((plan1 = plan ∧ ¬ (mapLookup order.ptr qp.orderExprColMap = none ∧
        checkIfAlreadyExists { Expr := order.Expr, As := NewColIdent "" } plan.Select = -1)) ∨
     (plan1 = plan.appended { Expr := order.Expr, As := NewColIdent "" } ∧
        mapLookup order.ptr qp.orderExprColMap = none ∧
        checkIfAlreadyExists { Expr := order.Expr, As := NewColIdent "" } plan.Select = -1)) := by
  unfold getOrProjectExpr at h
  unfold resolvedExpr
  cases hm : mapLookup order.ptr qp.orderExprColMap with
  | some offset =>
    simp only [hm] at h ⊢
    cases hs : sliceAt qp.selectExprs offset with
    | none => simp [hs] at h
    | some se =>
      simp only [hs, Prod.mk.injEq, Outcome.ok.injEq] at h
      refine ⟨by simp [h.2.2], Or.inl ⟨h.1.symm, by simp⟩⟩
  | none =>
    simp only [hm] at h ⊢
    rcases pushProjection_route_cases { Expr := order.Expr, As := NewColIdent "" } st plan true with
      ⟨err, h1⟩ | ⟨hne, h1⟩ | ⟨heq, h1⟩
    · rw [h1] at h; simp at h
    · rw [h1] at h
      simp only [logicalPlan.asRoute, Prod.mk.injEq, Outcome.ok.injEq] at h
      exact ⟨by rw [h.2.2], Or.inl ⟨h.1.symm, fun hc => hne hc.2⟩⟩
    · rw [h1] at h
      simp only [logicalPlan.asRoute, Prod.mk.injEq, Outcome.ok.injEq] at h
      exact ⟨by rw [h.2.2], Or.inr ⟨h.1.symm, trivial, heq⟩⟩

/-- A round of the loop of `planOrderByForRoute` that goes on: the entry
resolved to a column reference, the table information was found, the
weight_string helper was projected when needed, and the loop continued on the
route with the sort key recorded. -/
theorem planOrderByForRouteLoop_cons_ok (qp : queryProjection) (st : SemTable) (order : Order)
    (rest : List Order) (plan r' : route)
    (h : planOrderByForRouteLoop qp st (order :: rest) plan = (r', .ok ())) :
    ∃ plan1 off name q tbl plan2 wsoff,
      getOrProjectExpr qp plan st order = (plan1, .ok (off, .ColName name q)) ∧
      st.TableInfoFor (st.Dependencies (.ColName name q)) = .ok tbl ∧
      (if needsWeightString tbl name then pushExpression plan1 (.ColName name q) st
        else (plan1, .ok (-1))) = (plan2, .ok wsoff) ∧
      planOrderByForRouteLoop qp st rest (plan2.ordered off wsoff order) = (r', .ok ()) := by
  unfold planOrderByForRouteLoop at h
  split at h
  · simp at h
  · simp at h
  · rename_i plan1 off expr hg
    split at h
    · rename_i name q
      simp only at h
      split at h
      · simp at h
      · rename_i tbl htbl
        split at h
        · simp at h
        · simp at h
        · rename_i plan2 wsoff hws
          exact ⟨plan1, off, name, q, tbl, plan2, wsoff, hg, htbl, hws, h⟩
    · simp at h

/-- The helper projection of a round extends the route. -/
theorem weightString_step_extends (st : SemTable) (plan1 plan2 : route) (tbl : TableInfo)
    (name : ColIdent) (q : TableName) (wsoff : Int)
    (h : (if needsWeightString tbl name then pushExpression plan1 (.ColName name q) st
        else (plan1, .ok (-1))) = (plan2, .ok wsoff)) :
    routeExtends plan1 plan2 := by
  split at h
  · rcases pushExpression_ok _ _ _ _ _ h with ⟨h1, _⟩ | ⟨h1, _⟩
    · rw [h1]; exact routeExtends_refl _
    · rw [h1]; exact routeExtends_appended _ _
  · simp only [Prod.mk.injEq] at h
    rw [← h.1]; exact routeExtends_refl _

/-- A successful loop of `planOrderByForRoute` extends the route. -/
theorem planOrderByForRouteLoop_extends (qp : queryProjection) (st : SemTable) (os : List Order) :
    ∀ (plan r' : route), planOrderByForRouteLoop qp st os plan = (r', .ok ()) →
      routeExtends plan r' := by
  induction os with
  | nil =>
    intro plan r' h
    simp only [planOrderByForRouteLoop, Prod.mk.injEq] at h
    rw [← h.1]; exact routeExtends_refl _
  | cons order rest ih =>
    intro plan r' h
    obtain ⟨plan1, off, name, q, tbl, plan2, wsoff, hg, _, hws, hrest⟩ :=
      planOrderByForRouteLoop_cons_ok qp st order rest plan r' h
    have h1 : routeExtends plan plan1 := by
      rcases (getOrProjectExpr_ok qp plan plan1 st order off _ hg).2 with ⟨e1, _⟩ | ⟨e1, _⟩
      · rw [e1]; exact routeExtends_refl _
      · rw [e1]; exact routeExtends_appended _ _
    have h2 := weightString_step_extends st plan1 plan2 tbl name q wsoff hws
    exact routeExtends_trans (routeExtends_trans h1 h2)
      (routeExtends_trans (routeExtends_ordered _ _ _ _) (ih _ _ hrest))

/-- When the select list lacks a column that some entry asks for, a successful
loop of `planOrderByForRoute` makes the select list longer. -/
theorem planOrderByForRouteLoop_grows (qp : queryProjection) (st : SemTable) (os : List Order) :
    ∀ (plan r' : route), planOrderByForRouteLoop qp st os plan = (r', .ok ()) →
      (∃ o ∈ os, lacksColumn qp st plan.Select.SelectExprs o) →
      plan.Select.SelectExprs.length < r'.Select.SelectExprs.length := by
  induction os with
  | nil => intro plan r' _ ⟨o, ho, _⟩; simp at ho
  | cons order rest ih =>
    intro plan r' h ⟨o, ho, hlack⟩
    obtain ⟨plan1, off, name, q, tbl, plan2, wsoff, hg, htbl, hws, hrest⟩ :=
      planOrderByForRouteLoop_cons_ok qp st order rest plan r' h
    obtain ⟨hres, hcase⟩ := getOrProjectExpr_ok qp plan plan1 st order off _ hg
    have h2 := weightString_step_extends st plan1 plan2 tbl name q wsoff hws
    have h3 : routeExtends plan2 r' :=
      routeExtends_trans (routeExtends_ordered _ _ _ _)
        (planOrderByForRouteLoop_extends qp st rest _ _ hrest)
    have h23 : plan1.Select.SelectExprs.length ≤ r'.Select.SelectExprs.length :=
      routeExtends_length_le (routeExtends_trans h2 h3)
    rcases hcase with ⟨e1, hnot⟩ | ⟨e1, _, _⟩
    · -- the first projection appended nothing
      subst e1
      have hstep : plan1.Select.SelectExprs.length < plan2.Select.SelectExprs.length ∨
          plan2.Select.SelectExprs = plan1.Select.SelectExprs := by
        rcases Nat.lt_or_ge plan1.Select.SelectExprs.length plan2.Select.SelectExprs.length with
          hlt | hge
        · exact Or.inl hlt
        · exact Or.inr (h2.1.eq_of_length_le hge).symm
      rcases hstep with hlt | hsame
      · exact lt_of_lt_of_le hlt (routeExtends_length_le h3)
      · rcases List.mem_cons.mp ho with rfl | hmem
        · exfalso
          rcases hlack with ⟨hm, hc⟩ | ⟨name', q', tbl', hr', ht', hn', hc'⟩
          · exact hnot ⟨hm, hc⟩
          · rw [hres] at hr'
            simp only [Option.some.injEq, Expr.ColName.injEq] at hr'
            obtain ⟨rfl, rfl⟩ := hr'
            rw [htbl] at ht'
            simp only [Except.ok.injEq] at ht'
            subst ht'
            rw [if_pos hn'] at hws
            rcases pushExpression_ok _ _ _ _ _ hws with ⟨_, hne, _⟩ | ⟨hp2, _, _⟩
            · exact hne hc'
            · rw [hp2] at hsame; simp at hsame
        · have := ih (plan2.ordered off wsoff order) r' hrest
            ⟨o, hmem, by simpa [hsame] using hlack⟩
          simpa [hsame] using this
    · subst e1
      have : plan.Select.SelectExprs.length
          < (plan.appended { Expr := order.Expr, As := NewColIdent "" }).Select.SelectExprs.length := by
        simp
      exact lt_of_lt_of_le this h23

/-- When the select list lacks no column that an entry asks for, a successful
loop of `planOrderByForRoute` leaves the select list as it was. -/
theorem planOrderByForRouteLoop_same (qp : queryProjection) (st : SemTable) (os : List Order) :
    ∀ (plan r' : route), planOrderByForRouteLoop qp st os plan = (r', .ok ()) →
      (∀ o ∈ os, ¬ lacksColumn qp st plan.Select.SelectExprs o) →
      r'.Select.SelectExprs = plan.Select.SelectExprs := by
  induction os with
  | nil =>
    intro plan r' h _
    simp only [planOrderByForRouteLoop, Prod.mk.injEq] at h
    rw [← h.1]
  | cons order rest ih =>
    intro plan r' h hno
    obtain ⟨plan1, off, name, q, tbl, plan2, wsoff, hg, htbl, hws, hrest⟩ :=
      planOrderByForRouteLoop_cons_ok qp st order rest plan r' h
    obtain ⟨hres, hcase⟩ := getOrProjectExpr_ok qp plan plan1 st order off _ hg
    have hhead := hno order (List.mem_cons_self _ _)
    have h1 : plan1 = plan := by
      rcases hcase with ⟨e1, _⟩ | ⟨_, hm, hc⟩
      · exact e1
      · exact absurd (Or.inl ⟨hm, hc⟩) hhead
    subst h1
    have h2 : plan2 = plan1 := by
      by_cases hn : needsWeightString tbl name = true
      · rw [if_pos hn] at hws
        rcases pushExpression_ok _ _ _ _ _ hws with ⟨e2, _⟩ | ⟨_, hc, _⟩
        · exact e2
        · exact absurd (Or.inr ⟨name, q, tbl, hres, htbl, hn, hc⟩) hhead
      · rw [if_neg hn] at hws
        simp only [Prod.mk.injEq] at hws
        exact hws.1.symm
    subst h2
    have := ih (plan2.ordered off wsoff order) r' hrest
      (fun o ho => by simpa using hno o (List.mem_cons_of_mem _ ho))
    simpa using this

/-- A successful `planOrderByForRoute` returns the route itself, which is the
route left by the loop with `TruncateColumnCount` set to the column count at
entry when that count has changed. -/
theorem planOrderByForRoute_ok (qp : queryProjection) (os : List Order) (plan r' : route)
    (st : SemTable) (p : logicalPlan)
    (h : planOrderByForRoute qp os plan st = (r', .ok p)) :
    p = .route r' ∧ ∃ r1, planOrderByForRouteLoop qp st os plan = (r1, .ok ()) ∧
      r' = (if plan.Select.GetColumnCount != r1.Select.GetColumnCount then
          { r1 with eroute := { r1.eroute with TruncateColumnCount := plan.Select.GetColumnCount } }
        else r1) := by
  unfold planOrderByForRoute at h
  simp only at h
  split at h
  · simp at h
  · simp at h
  · rename_i r1 hloop
    simp only [Prod.mk.injEq, Outcome.ok.injEq] at h
    exact ⟨by rw [← h.2, ← h.1], r1, hloop, h.1.symm⟩

/-- A successful `planOrderByForRoute` extends the select list of the route
and keeps its tables. -/
theorem planOrderByForRoute_extends (qp : queryProjection) (os : List Order) (plan r' : route)
    (st : SemTable) (p : logicalPlan)
    (h : planOrderByForRoute qp os plan st = (r', .ok p)) :
    plan.Select.SelectExprs <+: r'.Select.SelectExprs ∧ r'.tables = plan.tables := by
  obtain ⟨_, r1, hloop, hr'⟩ := planOrderByForRoute_ok qp os plan r' st p h
  have hext := planOrderByForRouteLoop_extends qp st os plan r1 hloop
  rw [hr']
  split
  · exact ⟨hext.1, hext.2.2⟩
  · exact ⟨hext.1, hext.2.2⟩

/-- A successful `planOrderBy` only appends: the returned plan, and the plan
left in place, extend the plan it was given. -/
theorem planOrderBy_appendOnly (qp : queryProjection) (os : List Order) (st : SemTable) :
    ∀ (p p' : logicalPlan), (planOrderBy qp os st p).2 = .ok p' →
      AppendOnly p p' ∧ AppendOnly p (planOrderBy qp os st p).1
  | .nilPlan, p', h => by simp [planOrderBy] at h
  | .orderedAggregate i a, p', h => by simp [planOrderBy] at h
  | .memorySortGen4 ob i t, p', h => by simp [planOrderBy] at h
  | .route plan, p', h => by
    simp only [planOrderBy] at h ⊢
    have hpair : planOrderByForRoute qp os plan st
        = ((planOrderByForRoute qp os plan st).1, .ok p') := by
      rw [← h]
    obtain ⟨hp, _⟩ := planOrderByForRoute_ok qp os plan _ st p' hpair
    have hpre := (planOrderByForRoute_extends qp os plan _ st p' hpair).1
    rw [hp]
    exact ⟨.route _ _ hpre, .route _ _ hpre⟩
  | .joinGen4 L R op cols, p', h => by
    have ih := planOrderBy_appendOnly qp os st L
    simp only [planOrderBy] at h ⊢
    cases hall : isAllLeftLoop st L os with
    | none => simp [planOrderByForJoin, hall] at h
    | some b =>
      cases b with
      | true =>
        cases hL : (planOrderBy qp os st L).2 with
        | ok L' =>
          simp only [planOrderByForJoin, hall, hL, Outcome.ok.injEq] at h ⊢
          have hLL := (ih L' hL).1
          rw [← h]
          exact ⟨.joinGen4 _ _ _ _ _ _ _ hLL (AppendOnly_refl _) (List.prefix_refl _),
            .joinGen4 _ _ _ _ _ _ _ hLL (AppendOnly_refl _) (List.prefix_refl _)⟩
        | error err => simp [planOrderByForJoin, hall, hL] at h
        | panic => simp [planOrderByForJoin, hall, hL] at h
      | false =>
        simp only [planOrderByForJoin, hall, Outcome.ok.injEq] at h ⊢
        rw [← h]
        exact ⟨.underSort _ _ _ _ (AppendOnly_refl _), AppendOnly_refl _⟩

/-- C4. Append-only offsets: whatever its result, `pushProjection` leaves a
plan in which every route has its select list extended at the end and every
join its `Cols` extended at the end; the same holds for the plan returned by
(and the plan left in place by) a successful `planAggregations` and a
successful `planOrderBy`, where the old plan may sit under the new aggregation
or sort node. -/
theorem C4_append_only (e : AliasedExpr) (st : SemTable) (p : logicalPlan) (inner : Bool)
    (qp : queryProjection) (os : List Order) :
    AppendOnly p (pushProjection e st p inner).1 ∧
    (∀ p', (planAggregations qp p st).2 = .ok p' →
      AppendOnly p p' ∧ AppendOnly p (planAggregations qp p st).1) ∧
    (∀ p', (planOrderBy qp os st p).2 = .ok p' →
      AppendOnly p p' ∧ AppendOnly p (planOrderBy qp os st p).1) := by
  refine ⟨pushProjection_appendOnly e st p inner, ?_, planOrderBy_appendOnly qp os st p⟩
  intro p' h
  have hloop := planAggregationsLoop_appendOnly st qp.aggrExprs p []
  unfold planAggregations at h ⊢
  split at h
  · rename_i plan' aggs heq
    rw [heq] at hloop
    simp only [Outcome.ok.injEq] at h
    simp only [heq]
    rw [← h]
    exact ⟨.underAggregate _ _ _ hloop, hloop⟩
  · simp at h
  · simp at h

/-- C4, on the inner join of a route over table 1 that selects `a` and a
route over table 2: placing `b`, aggregating `count(a)` and ordering by `a`. -/
theorem C4_append_only_witness :
    AppendOnly joinOfA (pushProjection (unaliased colB) semTableAB joinOfA true).1 ∧
    (∃ p', (planAggregations qpCountA joinOfA semTableAB).2 = .ok p' ∧ AppendOnly joinOfA p') ∧
    (∃ p', (planOrderBy qpCountA [orderByA] semTableAB joinOfA).2 = .ok p' ∧
      AppendOnly joinOfA p') :=
  ⟨(C4_append_only (unaliased colB) semTableAB joinOfA true qpCountA [orderByA]).1,
   ⟨_, rfl,
    ((C4_append_only (unaliased colB) semTableAB joinOfA true qpCountA [orderByA]).2.1 _ rfl).1⟩,
   ⟨_, rfl,
    ((C4_append_only (unaliased colB) semTableAB joinOfA true qpCountA [orderByA]).2.2 _ rfl).1⟩⟩

/-- On a route, `planOrderBy` is `planOrderByForRoute`. -/
theorem planOrderBy_route_ok (qp : queryProjection) (os : List Order) (st : SemTable)
    (r r' : route) (p : logicalPlan)
    (h : planOrderBy qp os st (.route r) = (.route r', .ok p)) :
    planOrderByForRoute qp os r st = (r', .ok p) := by
  simp only [planOrderBy, Prod.mk.injEq, logicalPlan.route.injEq] at h
  exact Prod.ext h.1 h.2

/-- What a successful `planOrderBy` does to the truncation of a route: with
no column appended the select list and `TruncateColumnCount` are unchanged,
otherwise `TruncateColumnCount` is the column count at entry. -/
theorem planOrderBy_route_truncate (qp : queryProjection) (os : List Order) (st : SemTable)
    (r r' : route) (p : logicalPlan)
    (h : planOrderBy qp os st (.route r) = (.route r', .ok p)) :
    p = .route r' ∧
    r.Select.SelectExprs <+: r'.Select.SelectExprs ∧
    (r'.Select.SelectExprs.length = r.Select.SelectExprs.length →
      r'.Select.SelectExprs = r.Select.SelectExprs ∧
      r'.eroute.TruncateColumnCount = r.eroute.TruncateColumnCount) ∧
    (r'.Select.SelectExprs.length ≠ r.Select.SelectExprs.length →
      r'.eroute.TruncateColumnCount = r.Select.SelectExprs.length ∧
      r.Select.SelectExprs.length < r'.Select.SelectExprs.length) ∧
    ((∃ o ∈ os, lacksColumn qp st r.Select.SelectExprs o) →
      r.Select.SelectExprs.length < r'.Select.SelectExprs.length) ∧
    ((∀ o ∈ os, ¬ lacksColumn qp st r.Select.SelectExprs o) →
      r'.Select.SelectExprs.length = r.Select.SelectExprs.length) := by
  have h' := planOrderBy_route_ok qp os st r r' p h
  obtain ⟨hp, r1, hloop, hr'⟩ := planOrderByForRoute_ok qp os r r' st p h'
  have hext := planOrderByForRouteLoop_extends qp st os r r1 hloop
  have hsel : r'.Select.SelectExprs = r1.Select.SelectExprs := by
    rw [hr']; split <;> rfl
  refine ⟨hp, hsel ▸ hext.1, ?_, ?_, ?_, ?_⟩
  · intro hlen
    rw [hsel] at hlen
    have hcnt : ¬ ((r.Select.GetColumnCount != r1.Select.GetColumnCount) = true) := by
      simp [Select.GetColumnCount, hlen]
    rw [if_neg hcnt] at hr'
    subst hr'
    exact ⟨(hext.1.eq_of_length_le (le_of_eq hlen)).symm, hext.2.1⟩
  · intro hlen
    rw [hsel] at hlen
    have hcnt : (r.Select.GetColumnCount != r1.Select.GetColumnCount) = true := by
      simp only [Select.GetColumnCount, bne_iff_ne, ne_eq, Nat.cast_inj]
      exact fun hc => hlen hc.symm
    rw [if_pos hcnt] at hr'
    subst hr'
    exact ⟨rfl, lt_of_le_of_ne hext.1.length_le (fun hc => hlen hc.symm)⟩
  · intro hlack
    rw [hsel]
    exact planOrderByForRouteLoop_grows qp st os r r1 hloop hlack
  · intro hno
    rw [hsel, planOrderByForRouteLoop_same qp st os r r1 hloop hno]

/-- C5 (counterexample). The route selects `a` and `weight_string(a)`, so it
has 2 select expressions, and the only ORDER BY key is the VARCHAR column `a`:
`planOrderBy` succeeds, records the sort key with offsets 0 and 1, appends
nothing and leaves `TruncateColumnCount` at 0, so it is not 2 and the select
list is not longer than 2. -/
theorem C5_counterexample :
    routeAWs.Select.SelectExprs.length = 2 ∧
    needsWeightString ⟨[⟨"a", .VARCHAR⟩, ⟨"n", .INT64⟩], none⟩ ⟨"a"⟩ = true ∧
    planOrderBy qpEmpty [orderByA] (semTableOf 1) (.route routeAWs)
      = (.route routeAWsOrdered, .ok (.route routeAWsOrdered)) ∧
    ¬ (routeAWsOrdered.eroute.TruncateColumnCount = 2 ∧
        2 < routeAWsOrdered.Select.SelectExprs.length) :=
  ⟨by decide, by decide, rfl, by decide⟩

/-- C5 (amended). After a successful `planOrderBy` on a route with `n` select
expressions: when some ORDER BY entry asks for a column the select list lacks
(its own expression, for an entry without recorded offset, or the
weight_string helper of the non-numeric column it resolves to), columns are
appended, `TruncateColumnCount` equals `n` and the select list is strictly
longer than `n`; when no entry does, as for a route that already selects the
sort column and its weight_string helper, the select list and
`TruncateColumnCount` are unchanged. In every case `TruncateColumnCount`
equals `n` as soon as the select list has grown. -/
theorem C5_truncate_count_amended (qp : queryProjection) (os : List Order) (st : SemTable)
    (r r' : route) (p : logicalPlan)
    (h : planOrderBy qp os st (.route r) = (.route r', .ok p)) :
    ((∃ o ∈ os, lacksColumn qp st r.Select.SelectExprs o) →
      r'.eroute.TruncateColumnCount = r.Select.SelectExprs.length ∧
      r.Select.SelectExprs.length < r'.Select.SelectExprs.length) ∧
    ((∀ o ∈ os, ¬ lacksColumn qp st r.Select.SelectExprs o) →
      r'.Select.SelectExprs = r.Select.SelectExprs ∧
      r'.eroute.TruncateColumnCount = r.eroute.TruncateColumnCount) ∧
    (r'.Select.SelectExprs.length ≠ r.Select.SelectExprs.length →
      r'.eroute.TruncateColumnCount = r.Select.SelectExprs.length ∧
      r.Select.SelectExprs.length < r'.Select.SelectExprs.length) := by
  obtain ⟨_, _, hsame, hdiff, hlack, hno⟩ := planOrderBy_route_truncate qp os st r r' p h
  refine ⟨?_, fun hn => hsame (hno hn), hdiff⟩
  intro hl
  have hlt := hlack hl
  exact hdiff (by omega)

/-- C5 (amended), on a route that selects `a` only: ordering by the VARCHAR
column `a` appends the helper, so `TruncateColumnCount` becomes 1. -/
theorem C5_truncate_count_amended_witness :
    ∃ r' p, planOrderBy qpEmpty [orderByA] (semTableOf 1)
        (.route (routeOf [.AliasedExpr colA ⟨""⟩] 1)) = (.route r', .ok p) ∧
      r'.eroute.TruncateColumnCount = 1 ∧ 1 < r'.Select.SelectExprs.length :=
  ⟨_, _, rfl,
    (C5_truncate_count_amended qpEmpty [orderByA] (semTableOf 1)
      (routeOf [.AliasedExpr colA ⟨""⟩] 1) _ _ rfl).1
      ⟨orderByA, by simp, Or.inr ⟨⟨"a"⟩, noTable, ⟨[⟨"a", .VARCHAR⟩, ⟨"n", .INT64⟩], none⟩,
        rfl, rfl, by decide, by decide⟩⟩⟩

/-- One successful `planOrderBy` on a route whose `TruncateColumnCount` does
not exceed its column count: the result is a route, `TruncateColumnCount` has
not decreased and still does not exceed the column count. -/
theorem planOrderBy_route_step (qp : queryProjection) (os : List Order) (st : SemTable)
    (r : route) (p : logicalPlan) (h : (planOrderBy qp os st (.route r)).2 = .ok p) :
    ∃ r', p = .route r' ∧ planOrderBy qp os st (.route r) = (.route r', .ok p) ∧
      (r.eroute.TruncateColumnCount ≤ r.Select.SelectExprs.length →
        r.eroute.TruncateColumnCount ≤ r'.eroute.TruncateColumnCount ∧
        r'.eroute.TruncateColumnCount ≤ r'.Select.SelectExprs.length) := by
  have hpair : planOrderBy qp os st (.route r)
      = (.route (planOrderByForRoute qp os r st).1, .ok p) := by
    rw [← h]; rfl
  obtain ⟨hp, hpre, hsame, hdiff, _, _⟩ := planOrderBy_route_truncate qp os st r _ p hpair
  refine ⟨_, hp, hpair, ?_⟩
  intro hinv
  by_cases hlen : (planOrderByForRoute qp os r st).1.Select.SelectExprs.length
      = r.Select.SelectExprs.length
  · obtain ⟨_, hT⟩ := hsame hlen
    rw [hT, hlen]; exact ⟨le_refl _, hinv⟩
  · obtain ⟨hT, hlt⟩ := hdiff hlen
    rw [hT]
    exact ⟨hinv, by exact_mod_cast hlt.le⟩

/-- Over successive successful `planOrderBy` calls on a route whose
`TruncateColumnCount` does not exceed its column count, the result is a route,
`TruncateColumnCount` never decreases and never exceeds the column count. -/
theorem planOrderBySeq_route (st : SemTable) (calls : List (queryProjection × List Order)) :
    ∀ (r : route) (p : logicalPlan), planOrderBySeq st calls (.route r) = some p →
      ∃ r1, p = .route r1 ∧
        (r.eroute.TruncateColumnCount ≤ r.Select.SelectExprs.length →
          r.eroute.TruncateColumnCount ≤ r1.eroute.TruncateColumnCount ∧
          r1.eroute.TruncateColumnCount ≤ r1.Select.SelectExprs.length) := by
  induction calls with
  | nil =>
    intro r p h
    simp only [planOrderBySeq, Option.some.injEq] at h
    exact ⟨r, h.symm, fun hinv => ⟨le_refl _, hinv⟩⟩
  | cons call rest ih =>
    intro r p h
    obtain ⟨qp, os⟩ := call
    cases hstep : (planOrderBy qp os st (.route r)).2 with
    | error err => simp [planOrderBySeq, hstep] at h
    | panic => simp [planOrderBySeq, hstep] at h
    | ok p1 =>
      simp only [planOrderBySeq, hstep] at h
      obtain ⟨r', hp1, _, hmono⟩ := planOrderBy_route_step qp os st r p1 hstep
      subst hp1
      obtain ⟨r1, hp, hmono'⟩ := ih r' p h
      refine ⟨r1, hp, fun hinv => ?_⟩
      obtain ⟨h1, h2⟩ := hmono hinv
      obtain ⟨h3, h4⟩ := hmono' h2
      exact ⟨le_trans h1 h3, h4⟩

/-- C6 (counterexample). A route that selects `a` has 1 visible column. A
first `planOrderBy` by the VARCHAR column `a` appends `weight_string(a)` at
index 1 and sets `TruncateColumnCount` to 1; a second `planOrderBy` by `b`
appends `b` and `weight_string(b)` and sets `TruncateColumnCount` to 2: it no
longer equals the original visible-column count 1, and the helper column at
index 1, appended by the first call, lies below it. -/
theorem C6_counterexample :
    (routeOf [.AliasedExpr colA ⟨""⟩] 1).Select.GetColumnCount = 1 ∧
    planOrderBy qpEmpty [orderByA] (semTableOf 1) (.route (routeOf [.AliasedExpr colA ⟨""⟩] 1))
      = (.route routeAOrdered, .ok (.route routeAOrdered)) ∧
    planOrderBy qpEmpty [orderByB] (semTableOf 1) (.route routeAOrdered)
      = (.route routeABOrdered, .ok (.route routeABOrdered)) ∧
    routeAOrdered.eroute.TruncateColumnCount = 1 ∧
    routeAOrdered.Select.SelectExprs.length = 2 ∧
    routeABOrdered.eroute.TruncateColumnCount = 2 ∧
    ¬ (routeABOrdered.eroute.TruncateColumnCount
        = (routeOf [.AliasedExpr colA ⟨""⟩] 1).Select.GetColumnCount) ∧
    ¬ ((1 : Int) ≥ routeABOrdered.eroute.TruncateColumnCount) :=
  ⟨by decide, rfl, rfl, by decide, by decide, by decide, by decide, by decide⟩

/-- C6 (amended). After any sequence of successful `planOrderBy` calls on a
route `r`, one more successful call leaves `TruncateColumnCount` unchanged
when it appends no column and otherwise sets it to the column count at the
start of that call, so that exactly the columns below `TruncateColumnCount`
are those present before that call; and when `TruncateColumnCount` did not
exceed the column count of `r` at the start, it never decreases and never
exceeds the column count along the sequence. -/
theorem C6_truncate_invariant_amended (st : SemTable)
    (calls : List (queryProjection × List Order)) (r r1 r2 : route)
    (qp : queryProjection) (os : List Order) (p : logicalPlan)
    (hseq : planOrderBySeq st calls (.route r) = some (.route r1))
    (h : planOrderBy qp os st (.route r1) = (.route r2, .ok p)) :
    (r2.Select.SelectExprs.length = r1.Select.SelectExprs.length →
      r2.eroute.TruncateColumnCount = r1.eroute.TruncateColumnCount) ∧
    (r2.Select.SelectExprs.length ≠ r1.Select.SelectExprs.length →
      r2.eroute.TruncateColumnCount = r1.Select.SelectExprs.length ∧
      r2.Select.SelectExprs.take r2.eroute.TruncateColumnCount.toNat = r1.Select.SelectExprs) ∧
    (r.eroute.TruncateColumnCount ≤ r.Select.SelectExprs.length →
      r.eroute.TruncateColumnCount ≤ r1.eroute.TruncateColumnCount ∧
      r1.eroute.TruncateColumnCount ≤ r2.eroute.TruncateColumnCount ∧
      r2.eroute.TruncateColumnCount ≤ r2.Select.SelectExprs.length) := by
  obtain ⟨_, hpre, hsame, hdiff, _, _⟩ := planOrderBy_route_truncate qp os st r1 r2 p h
  obtain ⟨r1', hr1, hmono⟩ := planOrderBySeq_route st calls r _ hseq
  simp only [logicalPlan.route.injEq] at hr1
  subst hr1
  refine ⟨fun hl => (hsame hl).2, ?_, ?_⟩
  · intro hl
    obtain ⟨hT, _⟩ := hdiff hl
    refine ⟨hT, ?_⟩
    rw [hT]
    obtain ⟨t, ht⟩ := hpre
    rw [← ht]
    simp
  · intro hinv
    obtain ⟨h1, h2⟩ := hmono hinv
    obtain ⟨_, _, _, hstep⟩ := planOrderBy_route_step qp os st r1 p (by rw [h])
    rename_i r2' hp2 hpair
    rw [h] at hpair
    simp only [Prod.mk.injEq, logicalPlan.route.injEq, and_true] at hpair
    subst hpair
    obtain ⟨h3, h4⟩ := hstep h2
    exact ⟨h1, h3, h4⟩

/-- C6 (amended), on a route that selects `a`, ordered by `a` and then by `b`. -/
theorem C6_truncate_invariant_amended_witness :
    ∃ r1 r2 p,
      planOrderBySeq (semTableOf 1) [(qpEmpty, [orderByA])]
        (.route (routeOf [.AliasedExpr colA ⟨""⟩] 1)) = some (.route r1) ∧
      planOrderBy qpEmpty [orderByB] (semTableOf 1) (.route r1) = (.route r2, .ok p) ∧
      (routeOf [.AliasedExpr colA ⟨""⟩] 1).eroute.TruncateColumnCount
        ≤ (routeOf [.AliasedExpr colA ⟨""⟩] 1).Select.SelectExprs.length ∧
      r1.eroute.TruncateColumnCount ≤ r2.eroute.TruncateColumnCount ∧
      r2.eroute.TruncateColumnCount ≤ r2.Select.SelectExprs.length :=
  ⟨_, _, _, rfl, rfl, by decide,
    ((C6_truncate_invariant_amended (semTableOf 1) [(qpEmpty, [orderByA])]
      (routeOf [.AliasedExpr colA ⟨""⟩] 1) _ _ qpEmpty [orderByB] _ rfl rfl).2.2
      (by decide)).2⟩

@[simp] theorem Select.Having_setHaving (s : Select) (h : Option Expr) :
    (s.setHaving h).Having = h := by
  cases s; rfl

@[simp] theorem Select.Where_setHaving (s : Select) (h : Option Expr) :
    (s.setHaving h).Where = s.Where := by
  cases s; rfl

@[simp] theorem Select.Where_setWhere (s : Select) (w : Option Expr) :
    (s.setWhere w).Where = w := by
  cases s; rfl

@[simp] theorem Select.Having_setWhere (s : Select) (w : Option Expr) :
    (s.setWhere w).Having = s.Having := by
  cases s; rfl

/-- Adding conditions one by one: the first is added as `AddWhere` and
`AddHaving` add it, the others follow. -/
theorem addAll_cons (clause : Option Expr) (c : Expr) (cs : List Expr) :
    addAll clause (c :: cs)
      = addAll (some (match clause with | none => c | some w => .AndExpr w c)) cs := by
  cases clause <;> simp [addAll, andAll]

/-- The last loop of `rewriteHavingClause` adds the conjuncts with an
aggregate to HAVING and the others to WHERE, in their order, and changes
nothing else. -/
theorem distributeHaving_spec (cs : List Expr) :
    ∀ (ses : List SelectExpr) (f : List TableExpr) (w : Option Expr) (g : List Expr)
      (h : Option Expr) (o : List Order),
      distributeHaving cs (.mk ses f w g h o)
        = .mk ses f (addAll w (cs.filter fun c => !ContainsAggregation c)) g
            (addAll h (cs.filter ContainsAggregation)) o := by
  induction cs with
  | nil => intro ses f w g h o; cases w <;> cases h <;> simp [distributeHaving, addAll, andAll]
  | cons c rest ih =>
    intro ses f w g h o
    unfold distributeHaving
    by_cases hc : ContainsAggregation c = true
    · rw [if_pos hc]
      have e1 : (Select.mk ses f w g h o).AddHaving c
          = .mk ses f w g (some (match h with | none => c | some x => .AndExpr x c)) o := by
        cases h <;> rfl
      rw [e1, ih]
      simp [List.filter_cons, hc, addAll_cons]
    · rw [if_neg hc]
      have e1 : (Select.mk ses f w g h o).AddWhere c
          = .mk ses f (some (match w with | none => c | some x => .AndExpr x c)) g h o := by
        cases w <;> rfl
      rw [e1, ih]
      simp [List.filter_cons, hc, addAll_cons]

/-- `SplitAndExpression` appends to the conditions it is given. -/
theorem SplitAndExpression_acc : ∀ (e : Expr) (acc : List Expr),
    SplitAndExpression acc e = acc ++ SplitAndExpression [] e
  | .AndExpr l r, acc => by
      simp only [SplitAndExpression]
      rw [SplitAndExpression_acc r, SplitAndExpression_acc l,
        SplitAndExpression_acc r (SplitAndExpression [] l), List.append_assoc]
  | .nilExpr, acc => by simp [SplitAndExpression]
  | .ColName _ _, acc => by simp [SplitAndExpression]
  | .Literal _ _, acc => by simp [SplitAndExpression]
  | .Argument _, acc => by simp [SplitAndExpression]
  | .OrExpr _ _, acc => by simp [SplitAndExpression]
  | .NotExpr _, acc => by simp [SplitAndExpression]
  | .ComparisonExpr _ _ _ _, acc => by simp [SplitAndExpression]
  | .FuncExpr _ _ _ _, acc => by simp [SplitAndExpression]
  | .Subquery _ _, acc => by simp [SplitAndExpression]
  | .ExistsExpr _, acc => by simp [SplitAndExpression]
  | .ExtractedSubquery _, acc => by simp [SplitAndExpression]

/-- A conjunct splits into itself. -/
theorem SplitAndExpression_conjunct (c : Expr) (hc : isConjunct c = true) (acc : List Expr) :
    SplitAndExpression acc c = acc ++ [c] := by
  cases c <;> simp [isConjunct] at hc <;> simp [SplitAndExpression]

/-- `SplitAndExpression` returns conjuncts. -/
theorem SplitAndExpression_isConjunct : ∀ (e : Expr) (c : Expr),
    c ∈ SplitAndExpression [] e → isConjunct c = true
  | .AndExpr l r, c, h => by
      simp only [SplitAndExpression] at h
      rw [SplitAndExpression_acc r] at h
      rcases List.mem_append.mp h with h1 | h1
      · exact SplitAndExpression_isConjunct l c h1
      · exact SplitAndExpression_isConjunct r c h1
  | .nilExpr, c, h => by simp [SplitAndExpression] at h
  | .ColName _ _, c, h => by simp [SplitAndExpression] at h; subst h; rfl
  | .Literal _ _, c, h => by simp [SplitAndExpression] at h; subst h; rfl
  | .Argument _, c, h => by simp [SplitAndExpression] at h; subst h; rfl
  | .OrExpr _ _, c, h => by simp [SplitAndExpression] at h; subst h; rfl
  | .NotExpr _, c, h => by simp [SplitAndExpression] at h; subst h; rfl
  | .ComparisonExpr _ _ _ _, c, h => by simp [SplitAndExpression] at h; subst h; rfl
  | .FuncExpr _ _ _ _, c, h => by simp [SplitAndExpression] at h; subst h; rfl
  | .Subquery _ _, c, h => by simp [SplitAndExpression] at h; subst h; rfl
  | .ExistsExpr _, c, h => by simp [SplitAndExpression] at h; subst h; rfl
  | .ExtractedSubquery _, c, h => by simp [SplitAndExpression] at h; subst h; rfl

/-- Splitting a condition to which conjuncts were ANDed one by one gives the
conjuncts of the condition followed by the added ones. -/
theorem SplitAndExpression_andAll (cs : List Expr) (hcs : ∀ c ∈ cs, isConjunct c = true) :
    ∀ w, SplitAndExpression [] (andAll w cs) = SplitAndExpression [] w ++ cs := by
  induction cs with
  | nil => intro w; simp [andAll]
  | cons c rest ih =>
    intro w
    have hc := hcs c (List.mem_cons_self _ _)
    have hrest : ∀ x ∈ rest, isConjunct x = true := fun x hx => hcs x (List.mem_cons_of_mem _ hx)
    have e1 : andAll w (c :: rest) = andAll (.AndExpr w c) rest := rfl
    rw [e1, ih hrest]
    simp only [SplitAndExpression]
    rw [SplitAndExpression_conjunct c hc]
    simp

/-- The conjuncts of a clause to which conjuncts were added one by one. -/
theorem conjunctsOf_addAll (clause : Option Expr) (cs : List Expr)
    (hcs : ∀ c ∈ cs, isConjunct c = true) :
    conjunctsOf (addAll clause cs) = conjunctsOf clause ++ cs := by
  cases clause with
  | some w => simp [addAll, conjunctsOf, SplitAndExpression_andAll cs hcs]
  | none =>
    cases cs with
    | nil => simp [addAll, conjunctsOf]
    | cons c rest =>
      have hc := hcs c (List.mem_cons_self _ _)
      have hrest : ∀ x ∈ rest, isConjunct x = true := fun x hx => hcs x (List.mem_cons_of_mem _ hx)
      simp [addAll, conjunctsOf, SplitAndExpression_andAll rest hrest,
        SplitAndExpression_conjunct c hc]

/-- The object `rewriteHavingClause` holds after its alias substitution is the
substituted expression, except when the HAVING expression is itself an
unqualified column reference that matches an alias. -/
theorem havingAfterRewrite_eq (node : Select) (h : Expr)
    (hroot : (havingPre (buildSelectExprMap node.SelectExprs []) h).replaced = none) :
    havingAfterRewrite node h = RewriteExpr (havingPre (buildSelectExprMap node.SelectExprs [])) h := by
  unfold havingAfterRewrite
  cases h with
  | ColName n q =>
    have e1 : RewriteInPlace (havingPre (buildSelectExprMap node.SelectExprs [])) (.ColName n q)
        = .ColName n q := by
      unfold RewriteInPlace; split <;> rfl
    have e2 : RewriteExpr (havingPre (buildSelectExprMap node.SelectExprs [])) (.ColName n q)
        = .ColName n q := by
      simp only [RewriteExpr, visitExpr, hroot]; split <;> rfl
    rw [e1, e2]
  | nilExpr => simp [RewriteInPlace, RewriteExpr]
  | Literal t v => simp [RewriteInPlace, RewriteExpr, visitExpr, havingPre]
  | Argument a => simp [RewriteInPlace, RewriteExpr, visitExpr, havingPre]
  | AndExpr l r => simp [RewriteInPlace, RewriteExpr, visitExpr, havingPre]
  | OrExpr l r => simp [RewriteInPlace, RewriteExpr, visitExpr, havingPre]
  | NotExpr e => simp [RewriteInPlace, RewriteExpr, visitExpr, havingPre]
  | ComparisonExpr o l r x => simp [RewriteInPlace, RewriteExpr, visitExpr, havingPre]
  | FuncExpr q n d es => simp [RewriteInPlace, RewriteExpr, visitExpr, havingPre]
  | Subquery p s => simp [RewriteInPlace, RewriteExpr, visitExpr, havingPre]
  | ExistsExpr sq => simp [RewriteInPlace, RewriteExpr, visitExpr, havingPre]
  | ExtractedSubquery ref => simp [RewriteInPlace, RewriteExpr, visitExpr, havingPre]

/-- C8 (the code at the failing input). For
`select count(*) as c from t group by t.a having c`, whose whole HAVING
expression is the unqualified reference to the alias `c`: the node that
`sqlparser.Rewrite` returns is `count(*)`, but `rewriteHavingClause` drops it;
the HAVING reference `c` is not replaced, and as it holds no aggregate it is
moved to WHERE, leaving no HAVING. For `... having c > 5` the reference is
replaced and `count(*) > 5` stays in HAVING, with no WHERE. -/
theorem C8_whole_having_alias_not_substituted :
    RewriteExpr (havingPre (buildSelectExprMap selectHavingAlias.SelectExprs [])) colC = countStar ∧
    havingAfterRewrite selectHavingAlias colC = colC ∧
    rewriteHavingClause selectHavingAlias
      = .mk [.AliasedExpr countStar ⟨"c"⟩] [tableT] (some colC) [colTA] none [] ∧
    rewriteHavingClause selectHavingAliasGtFive
      = .mk [.AliasedExpr countStar ⟨"c"⟩] [tableT] none [colTA]
          (some (.ComparisonExpr .GreaterThanOp countStar (.Literal .IntVal "5") .nilExpr)) [] :=
  ⟨rfl, rfl, rfl, rfl⟩

/-- Reading a binding that was just written. -/
theorem mapLookup_setBinding_same (ptr : Nat) (b b0 : SubqueryBinding) :
    ∀ (l : List (Nat × SubqueryBinding)), mapLookup ptr l = some b0 →
      mapLookup ptr (setBinding ptr b l) = some b := by
  intro l
  induction l with
  | nil => intro h; simp [mapLookup] at h
  | cons kv rest ih =>
    intro h
    obtain ⟨k, v⟩ := kv
    by_cases hk : k = ptr
    · simp [setBinding, mapLookup, hk]
    · simp only [mapLookup, hk, if_false] at h
      simp [setBinding, mapLookup, hk, ih h]

/-- Writing a binding leaves the bindings of the other subqueries as they were. -/
theorem mapLookup_setBinding_other (ptr k : Nat) (b : SubqueryBinding) (hk : k ≠ ptr) :
    ∀ (l : List (Nat × SubqueryBinding)),
      mapLookup k (setBinding ptr b l) = mapLookup k l := by
  intro l
  induction l with
  | nil => rfl
  | cons kv rest ih =>
    obtain ⟨k', v⟩ := kv
    by_cases hk' : k' = ptr
    · have : ¬ k' = k := fun h => hk (h ▸ hk')
      simp [setBinding, mapLookup, hk', this, hk.symm]
    · by_cases hkk : k' = k
      · subst hkk
        simp [setBinding, mapLookup, hk']
      · simp [setBinding, mapLookup, hk', hkk, ih]

/-- C9. Subquery-to-bind-variable: for a comparison with operator `=`, `!=`,
`IN` or `NOT IN` whose left operand is a subquery (the other side `x` being
the right operand), or whose left operand is no subquery and whose right
operand is one (the other side `x` being the left operand), with `x` not nil
and the subquery bound to `b` in `SubqueryRef`: `rewriteInSubquery` returns
no error, leaves the name service as after exactly one
`ReserveSubQueryWithHasValues`, stores the two names that reservation returned
and `x` in the binding, keeps its opcode, replaces the comparison by the
binding, and changes no other binding and nothing else in the rewriter. -/
theorem C9_rewriteInSubquery_binds (r : rewriter) (op : ComparisonExprOperator)
    (Left Right x : Expr) (subq : Nat) (b : SubqueryBinding)
    (hop : op = .EqualOp ∨ op = .NotEqualOp ∨ op = .InOp ∨ op = .NotInOp)
    (hside : (∃ s, Left = .Subquery subq s ∧ Right = x) ∨
      (Left.isSubquery = false ∧ ∃ s, Right = .Subquery subq s ∧ Left = x))
    (hx : x.isNil = false)
    (hb : mapLookup subq r.semTable.SubqueryRef = some b) :
    (rewriteInSubquery r op Left Right).err = none ∧
    (rewriteInSubquery r op Left Right).r.reservedVars
      = r.reservedVars.ReserveSubQueryWithHasValues.2.2 ∧
    mapLookup subq (rewriteInSubquery r op Left Right).r.semTable.SubqueryRef
      = some { ArgName := r.reservedVars.ReserveSubQueryWithHasValues.1,
               HasValuesArg := r.reservedVars.ReserveSubQueryWithHasValues.2.1,
               OpCode := b.OpCode,
               OtherSide := x } ∧
    (rewriteInSubquery r op Left Right).replaced = some (.ExtractedSubquery subq) ∧
    (∀ k, k ≠ subq →
      mapLookup k (rewriteInSubquery r op Left Right).r.semTable.SubqueryRef
        = mapLookup k r.semTable.SubqueryRef) ∧
    (rewriteInSubquery r op Left Right).r.isInSubquery = r.isInSubquery ∧
    (rewriteInSubquery r op Left Right).r.err = r.err := by
  have hg : getSubqueryAndOtherSide Left Right = (some subq, x) := by
    rcases hside with ⟨s, hl, hr⟩ | ⟨hl, s, hr, hx'⟩
    · subst hl; subst hr; rfl
    · subst hr; subst hx'
      cases Left <;> first | rfl | (simp [Expr.isSubquery] at hl)
  have hopb : (op != ComparisonExprOperator.InOp && op != ComparisonExprOperator.NotInOp &&
      op != ComparisonExprOperator.EqualOp && op != ComparisonExprOperator.NotEqualOp) = false := by
    rcases hop with h | h | h | h <;> subst h <;> rfl
  have hdef : rewriteInSubquery r op Left Right
      = ⟨{ r.withBinding subq
            { b with ArgName := r.reservedVars.ReserveSubQueryWithHasValues.1,
                     HasValuesArg := r.reservedVars.ReserveSubQueryWithHasValues.2.1,
                     OtherSide := x } with
            reservedVars := r.reservedVars.ReserveSubQueryWithHasValues.2.2 },
          some (.ExtractedSubquery subq), none⟩ := by
    unfold rewriteInSubquery
    simp [hopb, hg, hx, hb]
  rw [hdef]
  refine ⟨rfl, rfl, ?_, rfl, ?_, rfl, rfl⟩
  · exact mapLookup_setBinding_same subq _ b _ hb
  · intro k hk
    exact mapLookup_setBinding_other subq k _ hk _

/-- C9, on `x in (select y from t2)` with the subquery bound: the names
`__sq1` and `__sq_has_values1` are reserved and stored, with `x`. -/
theorem C9_rewriteInSubquery_binds_witness :
    mapLookup 7 rewriterSq7.semTable.SubqueryRef = some (freshBinding 1) ∧
    (rewriteInSubquery rewriterSq7 .InOp colX (.Subquery 7 selectYFromT2)).err = none ∧
    (rewriteInSubquery rewriterSq7 .InOp colX (.Subquery 7 selectYFromT2)).r.reservedVars
      = ⟨["__sq_has_values1", "__sq1"], 1⟩ ∧
    mapLookup 7
      (rewriteInSubquery rewriterSq7 .InOp colX (.Subquery 7 selectYFromT2)).r.semTable.SubqueryRef
      = some ⟨"__sq1", "__sq_has_values1", 1, colX⟩ ∧
    (rewriteInSubquery rewriterSq7 .InOp colX (.Subquery 7 selectYFromT2)).replaced
      = some (.ExtractedSubquery 7) :=
  ⟨rfl,
    (C9_rewriteInSubquery_binds rewriterSq7 .InOp colX (.Subquery 7 selectYFromT2) colX 7
      (freshBinding 1) (Or.inr (Or.inr (Or.inl rfl))) (Or.inr ⟨rfl, selectYFromT2, rfl, rfl⟩)
      rfl rfl).1,
    (C9_rewriteInSubquery_binds rewriterSq7 .InOp colX (.Subquery 7 selectYFromT2) colX 7
      (freshBinding 1) (Or.inr (Or.inr (Or.inl rfl))) (Or.inr ⟨rfl, selectYFromT2, rfl, rfl⟩)
      rfl rfl).2.1,
    (C9_rewriteInSubquery_binds rewriterSq7 .InOp colX (.Subquery 7 selectYFromT2) colX 7
      (freshBinding 1) (Or.inr (Or.inr (Or.inl rfl))) (Or.inr ⟨rfl, selectYFromT2, rfl, rfl⟩)
      rfl rfl).2.2.1,
    (C9_rewriteInSubquery_binds rewriterSq7 .InOp colX (.Subquery 7 selectYFromT2) colX 7
      (freshBinding 1) (Or.inr (Or.inr (Or.inl rfl))) (Or.inr ⟨rfl, selectYFromT2, rfl, rfl⟩)
      rfl rfl).2.2.2.1⟩

/-- Whatever the walk recorded, `queryRewrite` returns nil. -/
theorem queryRewrite_returns_nil (fuel : Nat) (st : SemTable) (rv : ReservedVars)
    (statement : Select) (res : QueryRewriteResult)
    (h : queryRewrite fuel st rv statement = some res) : res.returned = none := by
  unfold queryRewrite at h
  simp only at h
  split at h
  · simp at h
  · simp only [Option.some.injEq] at h
    rw [← h]

/-- C10 (the code at the failing input). For
`select a from t where exists (select y from t2)` and a semantic table whose
`SubqueryRef` is empty, the walk records the internal error "subquery that was
not in the subq map" in `r.err`, reserves no name, and `queryRewrite` returns
nil. -/
theorem C10_missing_binding_error_dropped :
    ∃ res, queryRewrite 20 (semTableOf 1) ⟨[], 0⟩ selectWhereExists = some res ∧
      res.r.err = some errNotInSubqMap ∧
      errNotInSubqMap.code = Code.INTERNAL ∧
      res.r.reservedVars = ⟨[], 0⟩ ∧
      res.returned = none :=
  ⟨_, rfl, rfl, rfl, rfl, rfl⟩

/-- C11 (the code at the failing input). For
`select a from t join t2 on x < (select y from t3), t4`, every table being a
routed table of the original table `orig`: `rewriteDown` has no case that
increments `isInSubquery`, so the counter is 0 at `t3`, which lies inside
the subquery and is left as written, it is -1 once `rewriteUp` has left the
subquery, so `t4`, which lies outside every subquery, is rewritten to
`orig as t4`, and the walk ends with the counter at -1. With the counter at 1
the step would rewrite `t3` to `orig as t3`. -/
theorem C11_counter_never_incremented :
    (∃ res, queryRewrite 30 semTableRouted ⟨[], 0⟩ selectJoinOnSubquery = some res ∧
      res.statement = .mk [.AliasedExpr colA ⟨""⟩]
        [.JoinTableExpr tableT tableT2 xLtSubquery, tableT4Rewritten] none [] none [] ∧
      res.r.isInSubquery = -1 ∧ res.r.err = none) ∧
    (rewriteDown ⟨semTableRouted, ⟨[], 0⟩, 0, none⟩ (.TableExpr tableT3)).node = .TableExpr tableT3 ∧
    (rewriteDown ⟨semTableRouted, ⟨[], 0⟩, 1, none⟩ (.TableExpr tableT3)).node
      = .TableExpr tableT3Rewritten ∧
    (rewriteDown ⟨semTableRouted, ⟨[], 0⟩, -1, none⟩ (.TableExpr tableT4)).node
      = .TableExpr tableT4Rewritten :=
  ⟨⟨_, rfl, rfl, rfl, rfl⟩, rfl, rfl, rfl⟩

/-- C12. A table reference that is not a derived table, visited by
`rewriteDown` while `isInSubquery` is non-zero, whose table info gives the
original table `o`: the step changes neither the rewriter nor the cursor and
returns true; if the name of `o` is the written name the reference is
unchanged, otherwise the table name is the name of `o` with the written
qualifier and the alias is the given alias, or the written name if none was
given. Derived tables, references whose lookup fails and references without
an original table are unchanged. The step on its own result changes nothing. -/
theorem C12_routed_table_aliasing (r : rewriter) (ptr : Nat) (As : TableIdent) :
    (∀ sel, (rewriteDown r (.TableExpr (.AliasedTableExpr ptr (.DerivedTable sel) As))).node
        = .TableExpr (.AliasedTableExpr ptr (.DerivedTable sel) As)) ∧
    (∀ tableName : TableName,
      ((∃ e, r.semTable.TableInfoFor (r.semTable.TableSetFor ptr) = .error e) ∨
        (∃ tableInfo, r.semTable.TableInfoFor (r.semTable.TableSetFor ptr) = .ok tableInfo ∧
          tableInfo.GetVindexTable = none)) →
      (rewriteDown r (.TableExpr (.AliasedTableExpr ptr (.TableName tableName) As))).node
        = .TableExpr (.AliasedTableExpr ptr (.TableName tableName) As)) ∧
    (∀ (tableName : TableName) (tableInfo : TableInfo) (o : vindexesTable),
      r.isInSubquery ≠ 0 →
      r.semTable.TableInfoFor (r.semTable.TableSetFor ptr) = .ok tableInfo →
      tableInfo.GetVindexTable = some o →
      (rewriteDown r (.TableExpr (.AliasedTableExpr ptr (.TableName tableName) As))).node
        = (if o.Name = tableName.Name then
            .TableExpr (.AliasedTableExpr ptr (.TableName tableName) As)
          else
            .TableExpr (.AliasedTableExpr ptr (.TableName ⟨o.Name, tableName.Qualifier⟩)
              (if As.IsEmpty then tableName.Name else As)))) ∧
    (∀ t : SimpleTableExpr,
      (rewriteDown r (.TableExpr (.AliasedTableExpr ptr t As))).r = r ∧
      (rewriteDown r (.TableExpr (.AliasedTableExpr ptr t As))).replaced = none ∧
      (rewriteDown r (.TableExpr (.AliasedTableExpr ptr t As))).kontinue = true ∧
      rewriteDown r (rewriteDown r (.TableExpr (.AliasedTableExpr ptr t As))).node
        = rewriteDown r (.TableExpr (.AliasedTableExpr ptr t As))) := by
  refine ⟨fun sel => rfl, ?_, ?_, ?_⟩
  · rintro tableName (⟨e, he⟩ | ⟨ti, hti, hv⟩)
    · simp only [rewriteDown, he]
      split <;> rfl
    · simp only [rewriteDown, hti, hv]
      split <;> rfl
  · intro tableName ti o hsub hti hv
    have h0 : (r.isInSubquery == 0) = false := by simpa using hsub
    simp only [rewriteDown, h0, hti, hv]
    by_cases hn : o.Name = tableName.Name
    · simp [hn]
    · simp [hn]
  · intro t
    cases t with
    | DerivedTable sel => exact ⟨rfl, rfl, rfl, rfl⟩
    | TableName tableName =>
      by_cases h0 : (r.isInSubquery == 0) = true
      · simp only [rewriteDown, h0, if_true, and_self]
      · have h0 : (r.isInSubquery == 0) = false := by simpa using h0
        cases hti : r.semTable.TableInfoFor (r.semTable.TableSetFor ptr) with
        | error e => simp [rewriteDown, h0, hti]
        | ok ti =>
          cases hv : ti.GetVindexTable with
          | none => simp [rewriteDown, h0, hti, hv]
          | some o =>
            by_cases hn : o.Name = tableName.Name
            · simp [rewriteDown, h0, hti, hv, hn]
            · simp [rewriteDown, h0, hti, hv, hn]

/-- C12 at `t3` inside a subquery, every table being routed from `orig`. -/
theorem C12_routed_table_aliasing_witness :
    (rewriteDown ⟨semTableRouted, ⟨[], 0⟩, 1, none⟩ (.TableExpr tableT3)).node
      = .TableExpr tableT3Rewritten :=
  (C12_routed_table_aliasing ⟨semTableRouted, ⟨[], 0⟩, 1, none⟩ 102 ⟨""⟩).2.2.1
    ⟨⟨"t3"⟩, ⟨""⟩⟩ ⟨[], some ⟨⟨"orig"⟩⟩⟩ ⟨⟨"orig"⟩⟩ (by decide) rfl rfl

/-- For a subquery with binding `b`, `rewriteExistsSubquery` stores the
reserved has-values name in the binding and hands the binding to the cursor. -/
theorem rewriteExistsSubquery_found (r : rewriter) (ptr : Nat) (sel : Select)
    (b : SubqueryBinding) (hb : mapLookup ptr r.semTable.SubqueryRef = some b) :
    rewriteExistsSubquery r (.Subquery ptr sel)
      = ⟨{ r.withBinding ptr { b with ArgName := r.reservedVars.ReserveHasValuesSubQuery.1 } with
            reservedVars := r.reservedVars.ReserveHasValuesSubQuery.2 },
          some (.ExtractedSubquery ptr), none⟩ := by
  unfold rewriteExistsSubquery
  simp [hb]

/-- For a subquery without binding, `rewriteExistsSubquery` only returns the internal error. -/
theorem rewriteExistsSubquery_missing (r : rewriter) (ptr : Nat) (sel : Select)
    (hb : mapLookup ptr r.semTable.SubqueryRef = none) :
    rewriteExistsSubquery r (.Subquery ptr sel) = ⟨r, none, some errNotInSubqMap⟩ := by
  unfold rewriteExistsSubquery
  simp [hb]

/-- C13. For an EXISTS node whose subquery has the binding `b`,
`rewriteExistsSubquery` returns no error, makes one has-values reservation,
stores the reserved name as `ArgName` of the binding and keeps its
`HasValuesArg`, `OpCode` and `OtherSide`, changes no other binding, and
replaces the node by the binding. Without a binding it returns the internal
error, which `rewriteDown` records, reserves nothing and replaces nothing.
`rewriteDown` returns false on every EXISTS node, and the walk of an EXISTS
node consists of that one call: the callbacks run on no node beneath it. -/
theorem C13_exists_rewrite (r : rewriter) :
    (∀ (ptr : Nat) (sel : Select) (b : SubqueryBinding),
      mapLookup ptr r.semTable.SubqueryRef = some b →
      (rewriteExistsSubquery r (.Subquery ptr sel)).err = none ∧
      (rewriteExistsSubquery r (.Subquery ptr sel)).r.reservedVars
        = r.reservedVars.ReserveHasValuesSubQuery.2 ∧
      mapLookup ptr (rewriteExistsSubquery r (.Subquery ptr sel)).r.semTable.SubqueryRef
        = some { ArgName := r.reservedVars.ReserveHasValuesSubQuery.1,
                 HasValuesArg := b.HasValuesArg,
                 OpCode := b.OpCode,
                 OtherSide := b.OtherSide } ∧
      (∀ k, k ≠ ptr →
        mapLookup k (rewriteExistsSubquery r (.Subquery ptr sel)).r.semTable.SubqueryRef
          = mapLookup k r.semTable.SubqueryRef) ∧
      (rewriteExistsSubquery r (.Subquery ptr sel)).replaced = some (.ExtractedSubquery ptr) ∧
      (rewriteExistsSubquery r (.Subquery ptr sel)).r.isInSubquery = r.isInSubquery ∧
      (rewriteExistsSubquery r (.Subquery ptr sel)).r.err = r.err ∧
      (rewriteDown r (.Expr (.ExistsExpr (.Subquery ptr sel)))).r
        = (rewriteExistsSubquery r (.Subquery ptr sel)).r ∧
      (rewriteDown r (.Expr (.ExistsExpr (.Subquery ptr sel)))).replaced
        = some (.ExtractedSubquery ptr)) ∧
    (∀ (ptr : Nat) (sel : Select), mapLookup ptr r.semTable.SubqueryRef = none →
      rewriteExistsSubquery r (.Subquery ptr sel) = ⟨r, none, some errNotInSubqMap⟩ ∧
      (rewriteDown r (.Expr (.ExistsExpr (.Subquery ptr sel)))).r
        = { r with err := some errNotInSubqMap } ∧
      (rewriteDown r (.Expr (.ExistsExpr (.Subquery ptr sel)))).replaced = none) ∧
    (∀ sq : Expr, (rewriteDown r (.Expr (.ExistsExpr sq))).kontinue = false) ∧
    (∀ (fuel : Nat) (sq : Expr), walkExpr (fuel + 1) r (.ExistsExpr sq)
      = some ((rewriteDown r (.Expr (.ExistsExpr sq))).r,
          (match (rewriteDown r (.Expr (.ExistsExpr sq))).replaced with
            | some e => e
            | none => .ExistsExpr sq), true)) := by
  refine ⟨?_, ?_, fun sq => rfl, fun fuel sq => rfl⟩
  · intro ptr sel b hb
    have hd : (rewriteDown r (.Expr (.ExistsExpr (.Subquery ptr sel))))
        = ⟨(rewriteExistsSubquery r (.Subquery ptr sel)).r.recordErr
            (rewriteExistsSubquery r (.Subquery ptr sel)).err,
          .Expr (.ExistsExpr (.Subquery ptr sel)),
          (rewriteExistsSubquery r (.Subquery ptr sel)).replaced, false⟩ := rfl
    rw [hd, rewriteExistsSubquery_found r ptr sel b hb]
    refine ⟨rfl, rfl, ?_, ?_, rfl, rfl, rfl, rfl, rfl⟩
    · exact mapLookup_setBinding_same ptr _ b _ hb
    · intro k hk
      exact mapLookup_setBinding_other ptr k _ hk _
  · intro ptr sel hb
    have hd : (rewriteDown r (.Expr (.ExistsExpr (.Subquery ptr sel))))
        = ⟨(rewriteExistsSubquery r (.Subquery ptr sel)).r.recordErr
            (rewriteExistsSubquery r (.Subquery ptr sel)).err,
          .Expr (.ExistsExpr (.Subquery ptr sel)),
          (rewriteExistsSubquery r (.Subquery ptr sel)).replaced, false⟩ := rfl
    rw [hd, rewriteExistsSubquery_missing r ptr sel hb]
    exact ⟨rfl, rfl, rfl⟩

/-- C13 at `exists (select y from t2)` with the subquery bound under address 7. -/
theorem C13_exists_rewrite_witness :
    (rewriteExistsSubquery rewriterSq7 (.Subquery 7 selectYFromT2)).err = none ∧
    (rewriteExistsSubquery rewriterSq7 (.Subquery 7 selectYFromT2)).replaced
      = some (.ExtractedSubquery 7) ∧
    mapLookup 7 (rewriteExistsSubquery rewriterSq7 (.Subquery 7 selectYFromT2)).r.semTable.SubqueryRef
      = some ⟨"__sq_has_values1", "", 1, .nilExpr⟩ :=
  ⟨((C13_exists_rewrite rewriterSq7).1 7 selectYFromT2 (freshBinding 1) rfl).1,
    ((C13_exists_rewrite rewriterSq7).1 7 selectYFromT2 (freshBinding 1) rfl).2.2.2.2.1,
    rfl⟩

/-- C14 (counterexample). In `(select y from t2) = (select y from t3)` both
operands are subqueries, bound under the addresses 7 and 8:
`rewriteInSubquery` takes the left one, reserves the names `__sq1` and
`__sq_has_values1`, stores them and the right operand in the binding under 7,
and replaces the comparison by that binding. -/
theorem C14_counterexample :
    (rewriteInSubquery ⟨semTableSq78, ⟨[], 0⟩, 0, none⟩ .EqualOp
      (.Subquery 7 selectYFromT2) (.Subquery 8 selectYFromT3)).replaced
      = some (.ExtractedSubquery 7) ∧
    (rewriteInSubquery ⟨semTableSq78, ⟨[], 0⟩, 0, none⟩ .EqualOp
      (.Subquery 7 selectYFromT2) (.Subquery 8 selectYFromT3)).r.reservedVars
      = ⟨["__sq_has_values1", "__sq1"], 1⟩ ∧
    (rewriteInSubquery ⟨semTableSq78, ⟨[], 0⟩, 0, none⟩ .EqualOp
      (.Subquery 7 selectYFromT2) (.Subquery 8 selectYFromT3)).r.semTable.SubqueryRef
      = [(7, ⟨"__sq1", "__sq_has_values1", 1, .Subquery 8 selectYFromT3⟩), (8, freshBinding 1)] :=
  ⟨rfl, by decide, rfl⟩

/-- C14 (amended). `rewriteInSubquery` returns nil, with the rewriter, hence
the reserved names and every binding, unchanged and the node not replaced,
for every comparison whose operator is none of `=`, `!=`, `IN`, `NOT IN` and
for every comparison neither of whose operands is a subquery. A comparison
with one of the four operators whose two operands are both subqueries is
rewritten as one whose left operand alone is: the left subquery, bound to
`b`, gets the two reserved names and the right operand as the other side, and
the comparison is replaced by that binding. -/
theorem C14_applicability_amended (r : rewriter) (op : ComparisonExprOperator)
    (Left Right : Expr) :
    (((op ≠ .EqualOp ∧ op ≠ .NotEqualOp ∧ op ≠ .InOp ∧ op ≠ .NotInOp) ∨
        (Left.isSubquery = false ∧ Right.isSubquery = false)) →
      rewriteInSubquery r op Left Right = ⟨r, none, none⟩) ∧
    (∀ (pl pr : Nat) (sl sr : Select) (b : SubqueryBinding),
      (op = .EqualOp ∨ op = .NotEqualOp ∨ op = .InOp ∨ op = .NotInOp) →
      Left = .Subquery pl sl → Right = .Subquery pr sr →
      mapLookup pl r.semTable.SubqueryRef = some b →
      rewriteInSubquery r op Left Right
        = ⟨{ r.withBinding pl
              { b with ArgName := r.reservedVars.ReserveSubQueryWithHasValues.1,
                       HasValuesArg := r.reservedVars.ReserveSubQueryWithHasValues.2.1,
                       OtherSide := Right } with
              reservedVars := r.reservedVars.ReserveSubQueryWithHasValues.2.2 },
            some (.ExtractedSubquery pl), none⟩) := by
  constructor
  · rintro (⟨h1, h2, h3, h4⟩ | ⟨hl, hr⟩)
    · have hopb : (op != ComparisonExprOperator.InOp && op != ComparisonExprOperator.NotInOp &&
          op != ComparisonExprOperator.EqualOp && op != ComparisonExprOperator.NotEqualOp) = true := by
        revert h1 h2 h3 h4
        cases op <;> decide
      unfold rewriteInSubquery
      simp [hopb]
    · have hg : getSubqueryAndOtherSide Left Right = (none, .nilExpr) := by
        unfold getSubqueryAndOtherSide
        split
        · simp [Expr.isSubquery] at hl
        · split
          · simp [Expr.isSubquery] at hr
          · rfl
      unfold rewriteInSubquery
      rw [hg]
      split <;> rfl
  · intro pl pr sl sr b hop hl hr hb
    subst hl; subst hr
    have hopb : (op != ComparisonExprOperator.InOp && op != ComparisonExprOperator.NotInOp &&
        op != ComparisonExprOperator.EqualOp && op != ComparisonExprOperator.NotEqualOp) = false := by
      rcases hop with h | h | h | h <;> subst h <;> rfl
    have hg : getSubqueryAndOtherSide (.Subquery pl sl) (.Subquery pr sr)
        = (some pl, .Subquery pr sr) := rfl
    unfold rewriteInSubquery
    simp [hopb, hg, hb, Expr.isNil]

/-- C14 (amended) at `x < (select y from t3)`, whose operator is not one of the four. -/
theorem C14_applicability_amended_witness :
    rewriteInSubquery rewriterSq7 .LessThanOp colX (.Subquery 7 selectYFromT3)
      = ⟨rewriterSq7, none, none⟩ :=
  (C14_applicability_amended rewriterSq7 .LessThanOp colX (.Subquery 7 selectYFromT3)).1
    (Or.inl ⟨by decide, by decide, by decide, by decide⟩)

/-- A function call whose dependencies only the right route of a left join
solves is rejected by `pushProjection`, whatever `inner` the caller passes:
the join hands `inner && Opcode != LeftJoin`, which is false, to its right
child. The join is left as it was. -/
theorem pushProjection_leftJoin_right_funcExpr (a : AliasedExpr) (st : SemTable)
    (l r : route) (cols : List Int) (inner : Bool)
    (ha : a.Expr.isFuncExpr = true)
    (hl : TableSet.IsSolvedBy (st.Dependencies a.Expr) l.tables = false)
    (hr : TableSet.IsSolvedBy (st.Dependencies a.Expr) r.tables = true) :
    pushProjection a st (.joinGen4 (.route l) (.route r) .LeftJoin cols) inner
      = (.joinGen4 (.route l) (.route r) .LeftJoin cols, .error errCrossShardLeftJoin) := by
  have hright : pushProjection a st (.route r) (inner && JoinOpcode.LeftJoin != JoinOpcode.LeftJoin)
      = (.route r, .error errCrossShardLeftJoin) := by
    obtain ⟨e, As⟩ := a
    cases e <;> first | (simp [Expr.isFuncExpr] at ha; done) | skip
    simp [pushProjection, makePlanValue, Expr.isColName, errCrossShardLeftJoin]
  unfold pushProjection
  simp only [logicalPlan.ContainsTables, hl, hr, hright]
  simp

/-- A successful `pushProjection` on a join of two routes gives a join of two
routes with the same join kind and the same tables on each side. -/
theorem pushProjection_join_routes_tables (e : AliasedExpr) (st : SemTable) (l r : route)
    (op : JoinOpcode) (cols : List Int) (inner : Bool) (p' : logicalPlan) (k : Int)
    (h : pushProjection e st (.joinGen4 (.route l) (.route r) op cols) inner = (p', .ok k)) :
    ∃ l' r' cols', p' = .joinGen4 (.route l') (.route r') op cols' ∧
      l'.tables = l.tables ∧ r'.tables = r.tables := by
  obtain ⟨_, hcase⟩ := pushProjection_joinGen4_ok e st _ _ op cols inner p' k h
  rcases hcase with ⟨L', off, hpush, hp⟩ | ⟨R', off, hpush, hp⟩
  · obtain ⟨l', hl', _, _, ht, _⟩ := pushProjection_route_ok e st l inner L' off hpush
    exact ⟨l', r, _, by rw [hp, hl'], ht, rfl⟩
  · obtain ⟨r', hr', _, _, ht, _⟩ := pushProjection_route_ok e st r _ R' off hpush
    exact ⟨l, r', _, by rw [hp, hr'], rfl, ht⟩

/-- The loop of `planAggregations` over a left join of two routes does not
succeed when the list holds a function call that only the right route solves. -/
theorem planAggregationsLoop_leftJoin_right (st : SemTable) (a : AliasedExpr)
    (ha : a.Expr.isFuncExpr = true) (cl cr : TableSet)
    (hl : TableSet.IsSolvedBy (st.Dependencies a.Expr) cl = false)
    (hr : TableSet.IsSolvedBy (st.Dependencies a.Expr) cr = true) :
    ∀ (es : List AliasedExpr) (l r : route) (cols : List Int) (aggs : List AggregateParams),
      a ∈ es → l.tables = cl → r.tables = cr →
      (planAggregationsLoop st es (.joinGen4 (.route l) (.route r) .LeftJoin cols) aggs).2.isOk
        = false
  | [], _, _, _, _, hmem, _, _ => by simp at hmem
  | e :: rest, l, r, cols, aggs, hmem, htl, htr => by
    unfold planAggregationsLoop
    cases hpush : pushProjection e st (.joinGen4 (.route l) (.route r) .LeftJoin cols) true with
    | mk p' out =>
      cases out with
      | error err => rfl
      | panic => rfl
      | ok off =>
        have hne : e ≠ a := by
          intro he
          subst he
          rw [pushProjection_leftJoin_right_funcExpr e st l r cols true ha (htl ▸ hl) (htr ▸ hr)]
            at hpush
          cases hpush
        have hmem' : a ∈ rest := by
          rcases List.mem_cons.mp hmem with h | h
          · exact absurd h.symm hne
          · exact h
        obtain ⟨l', r', cols', hp', htl', htr'⟩ :=
          pushProjection_join_routes_tables e st l r .LeftJoin cols true p' off hpush
        subst hp'
        simp only
        split
        · exact planAggregationsLoop_leftJoin_right st a ha cl cr hl hr rest l' r' cols' _ hmem'
            (htl'.trans htl) (htr'.trans htr)
        · rfl

/-- C15 (counterexample). The left join of a route over table 1 and a route
over table 2, and the aggregate `sum(b)`, whose column only table 2 solves:
`planAggregations` fails with the unsupported error of the column-only
restriction and the right route's select list stays empty. -/
theorem C15_counterexample :
    TableSet.IsSolvedBy (semTableAB.Dependencies sumOfB) 2 = true ∧
    TableSet.IsSolvedBy (semTableAB.Dependencies sumOfB) 1 = false ∧
    planAggregations qpSumB leftJoinOfA semTableAB
      = (leftJoinOfA,
          .error ⟨.UNIMPLEMENTED, "unsupported: cross-shard left join and column expressions"⟩) :=
  ⟨by decide, by decide, rfl⟩

/-- C15 (amended). For a left join of two routes and an aggregate expression
`a`, a function call whose dependencies the right route's tables cover and
the left route's do not: `planAggregations` over the join does not succeed
when `a` is among the aggregate expressions, and when `a` is the first of
them it returns the unsupported error of the column-only restriction and
leaves the join, with both routes, as it was. -/
theorem C15_aggregate_on_outer_side_rejected (qp : queryProjection) (st : SemTable)
    (l r : route) (cols : List Int) (a : AliasedExpr)
    (ha : a.Expr.isFuncExpr = true)
    (hl : TableSet.IsSolvedBy (st.Dependencies a.Expr) l.tables = false)
    (hr : TableSet.IsSolvedBy (st.Dependencies a.Expr) r.tables = true)
    (hmem : a ∈ qp.aggrExprs) :
    (planAggregations qp (.joinGen4 (.route l) (.route r) .LeftJoin cols) st).2.isOk = false ∧
    (qp.aggrExprs.head? = some a →
      planAggregations qp (.joinGen4 (.route l) (.route r) .LeftJoin cols) st
        = (.joinGen4 (.route l) (.route r) .LeftJoin cols, .error errCrossShardLeftJoin)) := by
  constructor
  · have h := planAggregationsLoop_leftJoin_right st a ha l.tables r.tables hl hr
      qp.aggrExprs l r cols [] hmem rfl rfl
    unfold planAggregations
    cases hloop : planAggregationsLoop st qp.aggrExprs
        (.joinGen4 (.route l) (.route r) .LeftJoin cols) [] with
    | mk p' out =>
      rw [hloop] at h
      cases out with
      | ok aggs => simp [Outcome.isOk] at h
      | error err => rfl
      | panic => rfl
  · intro hhead
    cases hes : qp.aggrExprs with
    | nil => rw [hes] at hhead; simp at hhead
    | cons e rest =>
      rw [hes] at hhead
      simp only [List.head?_cons, Option.some.injEq] at hhead
      subst hhead
      unfold planAggregations
      rw [hes]
      unfold planAggregationsLoop
      rw [pushProjection_leftJoin_right_funcExpr e st l r cols true ha hl hr]

/-- C15 (amended) at `sum(b)` over the left join of the routes over tables 1 and 2. -/
theorem C15_aggregate_on_outer_side_rejected_witness :
    (planAggregations qpSumB leftJoinOfA semTableAB).2.isOk = false :=
  (C15_aggregate_on_outer_side_rejected qpSumB semTableAB (routeOf [.AliasedExpr colA ⟨""⟩] 1)
    (routeOf [] 2) [] (unaliased sumOfB) rfl (by decide) (by decide)
    (List.mem_singleton.mpr rfl)).1

/-- When every placement of the loop of `planAggregations` succeeds, the loop
returns the plan after the placements and one aggregate per expression. -/
theorem planAggregationsLoop_seq (st : SemTable) :
    ∀ (es : List AliasedExpr) (p : logicalPlan) (aggs : List AggregateParams) (p' : logicalPlan)
      (offs : List Int),
      (∀ a ∈ es, a.Expr.isFuncExpr = true) →
      pushProjectionSeq st (aggregatePushes es) p = (p', some offs) →
      planAggregationsLoop st es p aggs = (p', .ok (aggs ++ aggregateParamsOf es offs)) ∧
      (aggregateParamsOf es offs).length = es.length
  | [], p, aggs, p', offs, _, h => by
    simp only [aggregatePushes, List.map_nil, pushProjectionSeq, Prod.mk.injEq,
      Option.some.injEq] at h
    obtain ⟨hp, ho⟩ := h
    subst hp; subst ho
    simp [planAggregationsLoop, aggregateParamsOf]
  | e :: rest, p, aggs, p', offs, hfun, h => by
    simp only [aggregatePushes, List.map_cons, pushProjectionSeq] at h
    cases hpush : pushProjection e st p true with
    | mk p1 out =>
      rw [hpush] at h
      cases out with
      | error err => simp at h
      | panic => simp at h
      | ok off =>
        simp only at h
        cases hseq : pushProjectionSeq st (rest.map fun e => (e, true)) p1 with
        | mk p2 o =>
          rw [hseq] at h
          cases o with
          | none => simp at h
          | some offs' =>
            simp only [Prod.mk.injEq, Option.some.injEq] at h
            obtain ⟨hp, ho⟩ := h
            subst hp; subst ho
            have ih := planAggregationsLoop_seq st rest p1
              (aggs ++ [⟨SupportedAggregates e.Expr.funcName.Lowered, off⟩]) p2 offs'
              (fun a ha => hfun a (List.mem_cons_of_mem _ ha)) hseq
            have hf := hfun e (List.mem_cons_self _ _)
            obtain ⟨ex, As⟩ := e
            cases ex <;> first | (simp [Expr.isFuncExpr] at hf; done) | skip
            unfold planAggregationsLoop
            rw [hpush]
            simp only [aggregateParamsOf, Expr.funcName, List.length_cons] at ih ⊢
            rw [ih.1, ih.2]
            simp

/-- When the placements of a first part of the aggregate expressions succeed
and the next one fails, the loop of `planAggregations` returns that error
with the plan as the failing call left it. -/
theorem planAggregationsLoop_fail (st : SemTable) (a : AliasedExpr) (rest : List AliasedExpr)
    (p1 p2 : logicalPlan) (err : vtError)
    (hfail : pushProjection a st p1 true = (p2, .error err)) :
    ∀ (pre : List AliasedExpr) (p : logicalPlan) (aggs : List AggregateParams) (offs : List Int),
      (∀ e ∈ pre, e.Expr.isFuncExpr = true) →
      pushProjectionSeq st (aggregatePushes pre) p = (p1, some offs) →
      planAggregationsLoop st (pre ++ a :: rest) p aggs = (p2, .error err)
  | [], p, aggs, offs, _, h => by
    simp only [aggregatePushes, List.map_nil, pushProjectionSeq, Prod.mk.injEq] at h
    obtain ⟨hp, _⟩ := h
    subst hp
    simp only [List.nil_append]
    unfold planAggregationsLoop
    rw [hfail]
  | e :: pre, p, aggs, offs, hfun, h => by
    simp only [aggregatePushes, List.map_cons, pushProjectionSeq] at h
    cases hpush : pushProjection e st p true with
    | mk q out =>
      rw [hpush] at h
      cases out with
      | error err => simp at h
      | panic => simp at h
      | ok off =>
        simp only at h
        cases hseq : pushProjectionSeq st (pre.map fun e => (e, true)) q with
        | mk q2 o =>
          rw [hseq] at h
          cases o with
          | none => simp at h
          | some offs' =>
            simp only [Prod.mk.injEq, Option.some.injEq] at h
            obtain ⟨hp, _⟩ := h
            subst hp
            have hf := hfun e (List.mem_cons_self _ _)
            have ih := fun aggs' => planAggregationsLoop_fail st a rest q2 p2 err hfail pre q aggs'
              offs' (fun x hx => hfun x (List.mem_cons_of_mem _ hx)) hseq
            obtain ⟨ex, As⟩ := e
            cases ex <;> first | (simp [Expr.isFuncExpr] at hf; done) | skip
            simp only [List.cons_append]
            unfold planAggregationsLoop
            rw [hpush]
            exact ih _

/-- C16. For aggregate expressions that are all function calls: when every
call `pushProjection(a_i, p, true)`, made in order on the child plan,
succeeds, `planAggregations` returns the ordered aggregate over the child
plan as those calls left it, with exactly one aggregate per expression, in
order, the i-th made of the opcode `SupportedAggregates` holds for the
lower-cased function name of `a_i` and of the offset the i-th call returned;
the opcode depends on the function name only through its lower-cased form.
When the calls for a first part of the list succeed and the next call fails,
`planAggregations` returns that error and no node, and the plan is as the
failing call left it, no later expression being placed. -/
theorem C16_aggregation_node (qp : queryProjection) (p : logicalPlan) (st : SemTable)
    (hfun : ∀ a ∈ qp.aggrExprs, a.Expr.isFuncExpr = true) :
    (∀ (p' : logicalPlan) (offs : List Int),
      pushProjectionSeq st (aggregatePushes qp.aggrExprs) p = (p', some offs) →
      planAggregations qp p st
        = (p', .ok (.orderedAggregate p' (aggregateParamsOf qp.aggrExprs offs))) ∧
      (aggregateParamsOf qp.aggrExprs offs).length = qp.aggrExprs.length) ∧
    (∀ (pre : List AliasedExpr) (a : AliasedExpr) (rest : List AliasedExpr)
        (p1 p2 : logicalPlan) (offs : List Int) (err : vtError),
      qp.aggrExprs = pre ++ a :: rest →
      pushProjectionSeq st (aggregatePushes pre) p = (p1, some offs) →
      pushProjection a st p1 true = (p2, .error err) →
      planAggregations qp p st = (p2, .error err)) ∧
    (∀ (e1 e2 : AliasedExpr) (off : Int),
      e1.Expr.funcName.Lowered = e2.Expr.funcName.Lowered →
      aggregateParamsOf [e1] [off] = aggregateParamsOf [e2] [off]) := by
  refine ⟨?_, ?_, ?_⟩
  · intro p' offs hseq
    obtain ⟨hloop, hlen⟩ := planAggregationsLoop_seq st qp.aggrExprs p [] p' offs hfun hseq
    refine ⟨?_, hlen⟩
    unfold planAggregations
    rw [hloop]
    rfl
  · intro pre a rest p1 p2 offs err hes hseq hfail
    have hloop := planAggregationsLoop_fail st a rest p1 p2 err hfail pre p [] offs
      (fun e he => hfun e (by rw [hes]; exact List.mem_append_left _ he)) hseq
    unfold planAggregations
    rw [hes, hloop]
  · intro e1 e2 off h
    simp only [aggregateParamsOf, h]

/-- C16 at `count(a)` and `SUM(b)` over the inner join of the routes over
tables 1 and 2: the aggregates are count at offset 0 and sum at offset 1. -/
theorem C16_aggregation_node_witness :
    ∃ p', planAggregations qpCountASumB joinOfA semTableAB
      = (p', .ok (.orderedAggregate p' [⟨.AggregateCount, 0⟩, ⟨.AggregateSum, 1⟩])) :=
  ⟨_, ((C16_aggregation_node qpCountASumB joinOfA semTableAB (by decide)).1
    (.joinGen4 (.route (routeOf [.AliasedExpr colA ⟨""⟩, .AliasedExpr countOfA ⟨""⟩] 1))
      (.route (routeOf [.AliasedExpr upperSumOfB ⟨""⟩] 2)) .NormalJoin [-2, 1])
    [0, 1] rfl).1⟩

/-- The loop that computes `isAllLeft` ends with true when the left side's
tables solve the dependencies of every ORDER BY key. -/
theorem isAllLeftLoop_all (st : SemTable) (Left : logicalPlan) :
    ∀ (os : List Order),
      (∀ o ∈ os, ∃ lhs, Left.ContainsTables = some lhs ∧
        TableSet.IsSolvedBy (st.Dependencies o.Expr) lhs = true) →
      isAllLeftLoop st Left os = some true
  | [], _ => rfl
  | o :: rest, h => by
    obtain ⟨lhs, hc, hs⟩ := h o (List.mem_cons_self _ _)
    unfold isAllLeftLoop
    simp only [hc, hs]
    exact isAllLeftLoop_all st Left rest (fun x hx => h x (List.mem_cons_of_mem _ hx))

/-- The loop that computes `isAllLeft` ends with false when the left side's
tables do not solve the dependencies of some ORDER BY key. -/
theorem isAllLeftLoop_some (st : SemTable) (Left : logicalPlan) (lhs : TableSet)
    (hc : Left.ContainsTables = some lhs) :
    ∀ (os : List Order),
      (∃ o ∈ os, TableSet.IsSolvedBy (st.Dependencies o.Expr) lhs = false) →
      isAllLeftLoop st Left os = some false
  | [], h => by
    obtain ⟨o, ho, _⟩ := h
    simp at ho
  | o :: rest, h => by
    unfold isAllLeftLoop
    simp only [hc]
    cases hs : TableSet.IsSolvedBy (st.Dependencies o.Expr) lhs with
    | false => rfl
    | true =>
      obtain ⟨x, hx, hxs⟩ := h
      rcases List.mem_cons.mp hx with hxo | hxr
      · subst hxo
        rw [hs] at hxs
        cases hxs
      · exact isAllLeftLoop_some st Left lhs hc rest ⟨x, hxr, hxs⟩

/-- C17. A join, of either kind, and an ORDER BY list every key of which has
its dependencies solved by the tables of the join's left child: when
`planOrderBy` on the left child succeeds with the plan `L'`, `planOrderBy` on
the join returns the join itself, not a memory sort, with `L'` as its left
child and its right child, `Opcode` and `Cols` as they were. -/
theorem C17_join_order_by_pushed_left (qp : queryProjection) (os : List Order) (st : SemTable)
    (Left Right : logicalPlan) (Opcode : JoinOpcode) (Cols : List Int) (L' : logicalPlan)
    (hall : ∀ o ∈ os, ∃ lhs, Left.ContainsTables = some lhs ∧
      TableSet.IsSolvedBy (st.Dependencies o.Expr) lhs = true)
    (hrec : (planOrderBy qp os st Left).2 = .ok L') :
    planOrderBy qp os st (.joinGen4 Left Right Opcode Cols)
      = (.joinGen4 L' Right Opcode Cols, .ok (.joinGen4 L' Right Opcode Cols)) := by
  rw [planOrderBy]
  unfold planOrderByForJoin
  rw [isAllLeftLoop_all st Left os hall]
  simp only [hrec]

/-- C17 at `ORDER BY a` over the inner join whose left route selects `a`
from table 1, the table that solves `a`. -/
theorem C17_join_order_by_pushed_left_witness :
    planOrderBy qpEmpty [orderByA] semTableAB joinOfA
      = (.joinGen4 (.route routeAOrdered) (.route (routeOf [] 2)) .NormalJoin [],
          .ok (.joinGen4 (.route routeAOrdered) (.route (routeOf [] 2)) .NormalJoin [])) :=
  C17_join_order_by_pushed_left qpEmpty [orderByA] semTableAB
    (.route (routeOf [.AliasedExpr colA ⟨""⟩] 1)) (.route (routeOf [] 2)) .NormalJoin []
    (.route routeAOrdered)
    (fun o ho => ⟨1, rfl, by rw [List.mem_singleton.mp ho]; decide⟩) rfl

/-- C18. A join whose left child has tables, and an ORDER BY list with at
least one key whose dependencies those tables do not solve: `planOrderBy`
returns, without error, a memory sort with an empty ordering, the join as
input and `truncateColumnCount` 0, and the join with its whole subtree is as
it was: nothing is pushed down, also for the keys the left side solves. -/
theorem C18_join_order_by_fallback (qp : queryProjection) (os : List Order) (st : SemTable)
    (Left Right : logicalPlan) (Opcode : JoinOpcode) (Cols : List Int) (lhs : TableSet)
    (hc : Left.ContainsTables = some lhs)
    (hsome : ∃ o ∈ os, TableSet.IsSolvedBy (st.Dependencies o.Expr) lhs = false) :
    planOrderBy qp os st (.joinGen4 Left Right Opcode Cols)
      = (.joinGen4 Left Right Opcode Cols,
          .ok (.memorySortGen4 [] (.joinGen4 Left Right Opcode Cols) 0)) := by
  rw [planOrderBy]
  unfold planOrderByForJoin
  rw [isAllLeftLoop_some st Left lhs hc os hsome]

/-- C18 at `ORDER BY a, b DESC` over the left join of the routes over tables
1 and 2: `a` is solved by the left route, `b` is not. -/
theorem C18_join_order_by_fallback_witness :
    planOrderBy qpEmpty [orderByA, orderByB] semTableAB leftJoinOfA
      = (leftJoinOfA, .ok (.memorySortGen4 [] leftJoinOfA 0)) :=
  C18_join_order_by_fallback qpEmpty [orderByA, orderByB] semTableAB
    (.route (routeOf [.AliasedExpr colA ⟨""⟩] 1)) (.route (routeOf [] 2)) .LeftJoin [] 1 rfl
    ⟨orderByB, by simp, by decide⟩

@[simp] theorem Select.OrderBy_setSelectExprs (s : Select) (ses : List SelectExpr) :
    (s.setSelectExprs ses).OrderBy = s.OrderBy := by
  cases s; rfl

@[simp] theorem Select.OrderBy_AddOrder (s : Select) (o : Order) :
    (s.AddOrder o).OrderBy = s.OrderBy ++ [o] := by
  cases s; rfl

@[simp] theorem route.appended_OrderBy (r : route) (e : AliasedExpr) :
    (r.appended e).Select.OrderBy = r.Select.OrderBy := by
  simp [route.appended]

/-- The offset a successful `getOrProjectExpr` returns: the recorded one, with
the route untouched, for an entry in `qp.orderExprColMap`; the one
`pushProjection` returns for the entry's expression otherwise. -/
theorem getOrProjectExpr_offset (qp : queryProjection) (plan plan1 : route) (st : SemTable)
    (order : Order) (off : Int) (expr : Expr)
    (h : getOrProjectExpr qp plan st order = (plan1, .ok (off, expr))) :
    (∀ offset, mapLookup order.ptr qp.orderExprColMap = some offset →
      off = offset ∧ plan1 = plan) ∧
    (mapLookup order.ptr qp.orderExprColMap = none →
      pushProjection { Expr := order.Expr, As := NewColIdent "" } st (.route plan) true
        = (.route plan1, .ok off)) := by
  unfold getOrProjectExpr at h
  cases hm : mapLookup order.ptr qp.orderExprColMap with
  | some offset =>
    simp only [hm] at h
    cases hs : sliceAt qp.selectExprs offset with
    | none => simp [hs] at h
    | some se =>
      simp only [hs, Prod.mk.injEq, Outcome.ok.injEq] at h
      refine ⟨?_, by simp⟩
      intro offset' ho
      simp only [Option.some.injEq] at ho
      exact ⟨by rw [← ho, h.2.1], h.1.symm⟩
  | none =>
    simp only [hm] at h
    refine ⟨by simp, fun _ => ?_⟩
    rcases pushProjection_route_cases { Expr := order.Expr, As := NewColIdent "" } st plan true with
      ⟨err, h1⟩ | ⟨_, h1⟩ | ⟨_, h1⟩
    · rw [h1] at h; simp at h
    · rw [h1] at h
      simp only [logicalPlan.asRoute, Prod.mk.injEq, Outcome.ok.injEq] at h
      rw [h1, ← h.1, ← h.2.1]
    · rw [h1] at h
      simp only [logicalPlan.asRoute, Prod.mk.injEq, Outcome.ok.injEq] at h
      rw [h1, ← h.1, ← h.2.1]

/-- A successful `getOrProjectExpr` leaves the sort keys and the ORDER BY clause as they were. -/
theorem getOrProjectExpr_keeps_order (qp : queryProjection) (plan plan1 : route) (st : SemTable)
    (order : Order) (off : Int) (expr : Expr)
    (h : getOrProjectExpr qp plan st order = (plan1, .ok (off, expr))) :
    plan1.eroute = plan.eroute ∧ plan1.Select.OrderBy = plan.Select.OrderBy ∧
    plan.Select.SelectExprs <+: plan1.Select.SelectExprs := by
  rcases (getOrProjectExpr_ok qp plan plan1 st order off expr h).2 with ⟨h1, _⟩ | ⟨h1, _⟩
  · rw [h1]; exact ⟨rfl, rfl, List.prefix_refl _⟩
  · rw [h1]; exact ⟨by simp, by simp, by simp⟩

/-- The helper projection of a round leaves the sort keys and the ORDER BY clause as they were. -/
theorem weightString_step_keeps_order (st : SemTable) (plan1 plan2 : route) (tbl : TableInfo)
    (name : ColIdent) (q : TableName) (wsoff : Int)
    (h : (if needsWeightString tbl name then pushExpression plan1 (.ColName name q) st
        else (plan1, .ok (-1))) = (plan2, .ok wsoff)) :
    plan2.eroute = plan1.eroute ∧ plan2.Select.OrderBy = plan1.Select.OrderBy := by
  split at h
  · rcases pushExpression_ok _ _ _ _ _ h with ⟨h1, _⟩ | ⟨h1, _⟩
    · rw [h1]; exact ⟨rfl, rfl⟩
    · rw [h1]; exact ⟨by simp, by simp⟩
  · simp only [Prod.mk.injEq] at h
    rw [← h.1]; exact ⟨rfl, rfl⟩

/-- A successful loop of `planOrderByForRoute` appends one sort key per ORDER
BY entry, in order, and the entries themselves to the ORDER BY clause. -/
theorem planOrderByForRouteLoop_keys (qp : queryProjection) (st : SemTable) :
    ∀ (os : List Order) (plan r1 : route),
      planOrderByForRouteLoop qp st os plan = (r1, .ok ()) →
      ∃ ps, r1.eroute.OrderBy = plan.eroute.OrderBy ++ ps ∧
        r1.Select.OrderBy = plan.Select.OrderBy ++ os ∧
        List.Forall₂ (recordsKey qp st plan r1) ps os
  | [], plan, r1, h => by
    simp only [planOrderByForRouteLoop, Prod.mk.injEq] at h
    rw [← h.1]
    exact ⟨[], by simp, by simp, List.Forall₂.nil⟩
  | order :: rest, plan, r1, h => by
    obtain ⟨plan1, off, name, q, tbl, plan2, wsoff, hg, _, hws, hrest⟩ :=
      planOrderByForRouteLoop_cons_ok qp st order rest plan r1 h
    obtain ⟨ps, hob, hsob, hall⟩ :=
      planOrderByForRouteLoop_keys qp st rest (plan2.ordered off wsoff order) r1 hrest
    obtain ⟨he1, hs1, hp1⟩ := getOrProjectExpr_keeps_order qp plan plan1 st order off _ hg
    obtain ⟨he2, hs2⟩ := weightString_step_keeps_order st plan1 plan2 tbl name q wsoff hws
    have hp2 := (weightString_step_extends st plan1 plan2 tbl name q wsoff hws).1
    have hp3 := (planOrderByForRouteLoop_extends qp st rest _ r1 hrest).1
    rw [route.ordered_SelectExprs] at hp3
    obtain ⟨hin, hout⟩ := getOrProjectExpr_offset qp plan plan1 st order off _ hg
    refine ⟨⟨off, wsoff, order.Direction == OrderDirection.DescOrder⟩ :: ps, ?_, ?_, ?_⟩
    · rw [hob]
      simp [route.ordered, he2, he1]
    · rw [hsob]
      simp [route.ordered, hs2, hs1]
    · refine List.Forall₂.cons ⟨rfl, fun offset ho => (hin offset ho).1, fun hn => ?_⟩ ?_
      · exact ⟨plan, plan1, List.prefix_refl _, hp2.trans hp3, hout hn⟩
      · refine hall.imp ?_
        intro p o hrec
        refine ⟨hrec.1, hrec.2.1, fun hn => ?_⟩
        obtain ⟨ri, ri', hri, hri', hpush⟩ := hrec.2.2 hn
        refine ⟨ri, ri', ?_, hri', hpush⟩
        rw [route.ordered_SelectExprs] at hri
        exact (hp1.trans hp2).trans hri

/-- With `inner = true`, `pushProjection` accepts on a route every expression
whose plan-value conversion reports no error. -/
theorem pushProjection_route_inner_ok (e : AliasedExpr) (st : SemTable) (node : route)
    (v : Option PlanValue) (hv : makePlanValue e.Expr = .ok v) :
    ∃ node' off, pushProjection e st (.route node) true = (.route node', .ok off) := by
  have hacc : acceptedOnRoute e true = true := by simp [acceptedOnRoute, hv]
  rcases pushProjection_route_accepted e st node true hacc with ⟨_, h⟩ | ⟨_, h⟩
  · exact ⟨_, _, h⟩
  · exact ⟨_, _, h⟩

/-- `getOrProjectExpr` returns the expression the entry resolves to, when the
plan-value conversion of an entry without recorded offset reports no error. -/
theorem getOrProjectExpr_resolved (qp : queryProjection) (plan : route) (st : SemTable)
    (order : Order) (e : Expr) (hres : resolvedExpr qp order = some e)
    (hconv : mapLookup order.ptr qp.orderExprColMap = none → ∃ v, makePlanValue order.Expr = .ok v) :
    ∃ plan1 off, getOrProjectExpr qp plan st order = (plan1, .ok (off, e)) := by
  unfold resolvedExpr at hres
  unfold getOrProjectExpr
  cases hm : mapLookup order.ptr qp.orderExprColMap with
  | some offset =>
    simp only [hm] at hres ⊢
    cases hs : sliceAt qp.selectExprs offset with
    | none => simp [hs] at hres
    | some se =>
      simp only [hs, Option.map_some', Option.some.injEq] at hres
      exact ⟨plan, offset, by simp only [hres]⟩
  | none =>
    simp only [hm, Option.some.injEq] at hres ⊢
    obtain ⟨v, hv⟩ := hconv hm
    obtain ⟨node', off, hpush⟩ :=
      pushProjection_route_inner_ok { Expr := order.Expr, As := NewColIdent "" } st plan v hv
    rw [hpush]
    exact ⟨node', off, by simp only [logicalPlan.asRoute, hres]⟩

/-- The weight_string helper is always accepted by `pushExpression`. -/
theorem pushExpression_succeeds (plan : route) (expr : Expr) (st : SemTable) :
    ∃ plan2 off, pushExpression plan expr st = (plan2, .ok off) := by
  have hdef : pushExpression plan expr st
      = ((pushProjection (weightStringOf expr) st (.route plan) true).1.asRoute plan,
         (pushProjection (weightStringOf expr) st (.route plan) true).2) := rfl
  obtain ⟨node', off, hpush⟩ :=
    pushProjection_route_inner_ok (weightStringOf expr) st plan none rfl
  rw [hdef, hpush]
  exact ⟨node', off, rfl⟩

/-- A round of the loop of `planOrderByForRoute` whose entry resolves to a
column reference with a successful table lookup goes on to the next entry. -/
theorem planOrderByForRouteLoop_cons_column (qp : queryProjection) (st : SemTable) (order : Order)
    (rest : List Order) (plan : route) (name : ColIdent) (q : TableName) (tbl : TableInfo)
    (hres : resolvedExpr qp order = some (.ColName name q))
    (htbl : st.TableInfoFor (st.Dependencies (.ColName name q)) = .ok tbl) :
    ∃ plan', planOrderByForRouteLoop qp st (order :: rest) plan
      = planOrderByForRouteLoop qp st rest plan' := by
  have hconv : mapLookup order.ptr qp.orderExprColMap = none →
      ∃ v, makePlanValue order.Expr = .ok v := by
    intro hm
    unfold resolvedExpr at hres
    simp only [hm, Option.some.injEq] at hres
    exact ⟨none, by rw [hres]; rfl⟩
  obtain ⟨plan1, off, hg⟩ := getOrProjectExpr_resolved qp plan st order _ hres hconv
  have hws : ∃ plan2 wsoff,
      (if needsWeightString tbl name then pushExpression plan1 (.ColName name q) st
        else (plan1, .ok (-1))) = (plan2, .ok wsoff) := by
    split
    · exact pushExpression_succeeds plan1 _ st
    · exact ⟨plan1, -1, rfl⟩
  obtain ⟨plan2, wsoff, hws⟩ := hws
  refine ⟨plan2.ordered off wsoff order, ?_⟩
  rw [planOrderByForRouteLoop, hg]
  simp only [htbl, hws]
  rfl

/-- The loop of `planOrderByForRoute` passes the entries that resolve to
column references with successful table lookups. -/
theorem planOrderByForRouteLoop_columns (qp : queryProjection) (st : SemTable)
    (tail : List Order) :
    ∀ (pre : List Order) (plan : route), (∀ x ∈ pre, resolvesToColumn qp st x) →
      ∃ plan', planOrderByForRouteLoop qp st (pre ++ tail) plan
        = planOrderByForRouteLoop qp st tail plan'
  | [], plan, _ => ⟨plan, rfl⟩
  | o :: pre, plan, h => by
    obtain ⟨name, q, tbl, hres, htbl⟩ := h o (List.mem_cons_self _ _)
    obtain ⟨plan1, h1⟩ :=
      planOrderByForRouteLoop_cons_column qp st o (pre ++ tail) plan name q tbl hres htbl
    obtain ⟨plan2, h2⟩ := planOrderByForRouteLoop_columns qp st tail pre plan1
      (fun x hx => h x (List.mem_cons_of_mem _ hx))
    exact ⟨plan2, by rw [List.cons_append, h1, h2]⟩

/-- A round of the loop of `planOrderByForRoute` whose entry resolves to
something else than a column reference ends with the unsupported error. -/
theorem planOrderByForRouteLoop_cons_non_column (qp : queryProjection) (st : SemTable)
    (order : Order) (rest : List Order) (plan : route) (e : Expr)
    (hres : resolvedExpr qp order = some e) (hcol : e.isColName = false)
    (hconv : mapLookup order.ptr qp.orderExprColMap = none →
      ∃ v, makePlanValue order.Expr = .ok v) :
    ∃ plan1, planOrderByForRouteLoop qp st (order :: rest) plan
      = (plan1, .error (Gen4NotSupportedF "order by non-column expression")) := by
  obtain ⟨plan1, off, hg⟩ := getOrProjectExpr_resolved qp plan st order e hres hconv
  refine ⟨plan1, ?_⟩
  rw [planOrderByForRouteLoop, hg]
  cases e <;> first | rfl | (simp [Expr.isColName] at hcol)

/-- In a successful loop of `planOrderByForRoute` every entry resolved to a column reference. -/
theorem planOrderByForRouteLoop_ok_columns (qp : queryProjection) (st : SemTable) :
    ∀ (os : List Order) (plan r1 : route),
      planOrderByForRouteLoop qp st os plan = (r1, .ok ()) →
      ∀ o ∈ os, ∃ name q, resolvedExpr qp o = some (.ColName name q)
  | [], _, _, _, o, ho => by simp at ho
  | order :: rest, plan, r1, h, o, ho => by
    obtain ⟨plan1, off, name, q, tbl, plan2, wsoff, hg, _, _, hrest⟩ :=
      planOrderByForRouteLoop_cons_ok qp st order rest plan r1 h
    rcases List.mem_cons.mp ho with h1 | h1
    · subst h1
      exact ⟨name, q, (getOrProjectExpr_ok qp plan plan1 st o off _ hg).1⟩
    · exact planOrderByForRouteLoop_ok_columns qp st rest _ r1 hrest o h1

/-- The result of `planOrderBy` on a route, from the result of the loop. -/
theorem planOrderBy_route_result (qp : queryProjection) (os : List Order) (st : SemTable)
    (r : route) :
    (∀ r1 err, planOrderByForRouteLoop qp st os r = (r1, .error err) →
      planOrderBy qp os st (.route r) = (.route r1, .error err)) ∧
    (∀ r1, planOrderByForRouteLoop qp st os r = (r1, .ok ()) →
      (planOrderBy qp os st (.route r)).2.isOk = true) ∧
    ((planOrderBy qp os st (.route r)).2.isOk = true →
      ∃ r1, planOrderByForRouteLoop qp st os r = (r1, .ok ())) := by
  refine ⟨?_, ?_, ?_⟩
  · intro r1 err h
    simp only [planOrderBy, planOrderByForRoute, h]
  · intro r1 h
    simp only [planOrderBy, planOrderByForRoute, h]
    rfl
  · intro h
    simp only [planOrderBy, planOrderByForRoute] at h
    cases hloop : planOrderByForRouteLoop qp st os r with
    | mk r1 out =>
      rw [hloop] at h
      cases out with
      | ok u => exact ⟨r1, rfl⟩
      | error err => simp [Outcome.isOk] at h
      | panic => simp [Outcome.isOk] at h

/-- C20 (counterexample). `ORDER BY a, count(a)` on a route, with a semantic
table whose table-information lookup fails: the second entry resolves to the
function call `count(a)`, not a column reference, yet `planOrderBy` returns
the internal error of the lookup made for `a`, not an unsupported error. -/
theorem C20_counterexample :
    resolvedExpr qpEmpty orderByCountA = some countOfA ∧
    countOfA.isColName = false ∧
    planOrderBy qpEmpty [orderByA, orderByCountA] semTableNoInfo
        (.route (routeOf [.AliasedExpr colA ⟨""⟩] 1))
      = (.route (routeOf [.AliasedExpr colA ⟨""⟩] 1),
          .error ⟨.INTERNAL, "[BUG] should only be used for single tables"⟩) ∧
    (⟨.INTERNAL, "[BUG] should only be used for single tables"⟩ : vtError).code
      ≠ (Gen4NotSupportedF "order by non-column expression").code :=
  ⟨rfl, rfl, rfl, by decide⟩

/-- C20 (amended). On a route, `planOrderBy` does not succeed when some ORDER
BY entry resolves to something else than a bare column reference. It returns
the unsupported error "order by non-column expression" when every entry
before the first such entry resolves to a bare column reference whose table
information is found, and the plan-value conversion of that entry's
expression, if the entry has no recorded offset, reports no error. When
every entry resolves to a bare column reference whose table information is
found, `planOrderBy` succeeds. -/
theorem C20_non_column_order_by_amended (qp : queryProjection) (os : List Order) (st : SemTable)
    (r : route) :
    ((∃ o ∈ os, ∃ e, resolvedExpr qp o = some e ∧ e.isColName = false) →
      (planOrderBy qp os st (.route r)).2.isOk = false) ∧
    (∀ (pre : List Order) (o : Order) (rest : List Order) (e : Expr),
      os = pre ++ o :: rest →
      (∀ x ∈ pre, resolvesToColumn qp st x) →
      resolvedExpr qp o = some e → e.isColName = false →
      (mapLookup o.ptr qp.orderExprColMap = none → ∃ v, makePlanValue o.Expr = .ok v) →
      (planOrderBy qp os st (.route r)).2
        = .error (Gen4NotSupportedF "order by non-column expression")) ∧
    ((∀ x ∈ os, resolvesToColumn qp st x) →
      (planOrderBy qp os st (.route r)).2.isOk = true) := by
  obtain ⟨herr, hok, hback⟩ := planOrderBy_route_result qp os st r
  refine ⟨?_, ?_, ?_⟩
  · rintro ⟨o, ho, e, hres, hcol⟩
    cases hb : (planOrderBy qp os st (.route r)).2.isOk with
    | false => rfl
    | true =>
      obtain ⟨r1, hloop⟩ := hback hb
      obtain ⟨name, q, hres'⟩ := planOrderByForRouteLoop_ok_columns qp st os r r1 hloop o ho
      rw [hres] at hres'
      simp only [Option.some.injEq] at hres'
      rw [hres'] at hcol
      simp [Expr.isColName] at hcol
  · intro pre o rest e hos hpre hres hcol hconv
    obtain ⟨plan', hpass⟩ := planOrderByForRouteLoop_columns qp st (o :: rest) pre r hpre
    obtain ⟨plan1, hstep⟩ :=
      planOrderByForRouteLoop_cons_non_column qp st o rest plan' e hres hcol hconv
    rw [herr plan1 _ (by rw [hos, hpass, hstep])]
  · intro hall
    obtain ⟨plan', hpass⟩ := planOrderByForRouteLoop_columns qp st [] os r hall
    rw [List.append_nil] at hpass
    exact hok plan' (by rw [hpass]; rfl)

/-- C20 (amended) at `ORDER BY a, count(a)` on the route that selects `a`,
every table having its information: the unsupported error is returned. -/
theorem C20_non_column_order_by_amended_witness :
    (planOrderBy qpEmpty [orderByA, orderByCountA] (semTableOf 1)
        (.route (routeOf [.AliasedExpr colA ⟨""⟩] 1))).2
      = .error (Gen4NotSupportedF "order by non-column expression") :=
  (C20_non_column_order_by_amended qpEmpty [orderByA, orderByCountA] (semTableOf 1)
    (routeOf [.AliasedExpr colA ⟨""⟩] 1)).2.1 [orderByA] orderByCountA [] countOfA rfl
    (fun x hx => by
      rw [List.mem_singleton.mp hx]
      exact ⟨⟨"a"⟩, noTable, ⟨[⟨"a", .VARCHAR⟩, ⟨"n", .INT64⟩], none⟩, rfl, rfl⟩)
    rfl rfl (fun _ => ⟨none, rfl⟩)

/-- A successful `planAggregations` returns an ordered aggregate. -/
theorem planAggregations_ok_shape (qp : queryProjection) (p p' : logicalPlan) (st : SemTable)
    (h : (planAggregations qp p st).2 = .ok p') :
    ∃ aggs, p' = .orderedAggregate (planAggregations qp p st).1 aggs := by
  unfold planAggregations at h ⊢
  cases hloop : planAggregationsLoop st qp.aggrExprs p [] with
  | mk q out =>
    rw [hloop] at h
    cases out with
    | ok aggs =>
      simp only [Outcome.ok.injEq] at h
      exact ⟨aggs, h.symm⟩
    | error err => simp at h
    | panic => simp at h

/-- C21. On a plan whose root is an ordered aggregate or a memory sort,
`planOrderBy` returns the unsupported error "ordering on complex query" and
no plan, for every ORDER BY list, the empty one included, and leaves the plan
as it was. So it fails on the plan returned by a successful
`planAggregations` and on a memory sort returned by an earlier `planOrderBy`
on a join. -/
theorem C21_ordering_on_other_nodes_rejected (qp : queryProjection) (os : List Order)
    (st : SemTable) :
    (∀ (input : logicalPlan) (aggs : List AggregateParams),
      planOrderBy qp os st (.orderedAggregate input aggs)
        = (.orderedAggregate input aggs,
            .error (Gen4NotSupportedF "ordering on complex query"))) ∧
    (∀ (ob : List OrderbyParams) (input : logicalPlan) (t : Int),
      planOrderBy qp os st (.memorySortGen4 ob input t)
        = (.memorySortGen4 ob input t,
            .error (Gen4NotSupportedF "ordering on complex query"))) ∧
    (∀ (qp0 : queryProjection) (st0 : SemTable) (p p' : logicalPlan),
      (planAggregations qp0 p st0).2 = .ok p' →
      planOrderBy qp os st p' = (p', .error (Gen4NotSupportedF "ordering on complex query"))) ∧
    (∀ (qp0 : queryProjection) (os0 : List Order) (st0 : SemTable) (L R : logicalPlan)
        (op : JoinOpcode) (cols : List Int) (ob : List OrderbyParams) (input : logicalPlan)
        (t : Int),
      (planOrderBy qp0 os0 st0 (.joinGen4 L R op cols)).2 = .ok (.memorySortGen4 ob input t) →
      planOrderBy qp os st (.memorySortGen4 ob input t)
        = (.memorySortGen4 ob input t,
            .error (Gen4NotSupportedF "ordering on complex query"))) := by
  refine ⟨fun _ _ => rfl, fun _ _ _ => rfl, ?_, fun _ _ _ _ _ _ _ _ _ _ _ => rfl⟩
  intro qp0 st0 p p' h
  obtain ⟨aggs, hp'⟩ := planAggregations_ok_shape qp0 p p' st0 h
  rw [hp']
  rfl

/-- C21 at the ordered aggregate that `planAggregations` returns for
`count(a)` and `SUM(b)` over the inner join, ordered by `a`. -/
theorem C21_ordering_on_other_nodes_rejected_witness :
    ∃ p', (planAggregations qpCountASumB joinOfA semTableAB).2 = .ok p' ∧
      planOrderBy qpEmpty [orderByA] semTableAB p'
        = (p', .error (Gen4NotSupportedF "ordering on complex query")) :=
  ⟨_, rfl, (C21_ordering_on_other_nodes_rejected qpEmpty [orderByA] semTableAB).2.2.1
    qpCountASumB semTableAB joinOfA _ rfl⟩

/-- C22. On a route, when the plan-value conversion of `e` reports no error,
`pushProjection(e, r, inner)` returns an error if and only if `inner` is false
and `e` is neither a bare column reference nor converted to a plan value.
Nothing is asked of the select list: the call fails also when `e` is already
in it. The error is the unsupported one and the route is as it was. -/
theorem C22_route_rejection_rule (e : AliasedExpr) (st : SemTable) (node : route) (inner : Bool)
    (v : Option PlanValue) (hv : makePlanValue e.Expr = .ok v) :
    ((pushProjection e st (.route node) inner).2.isError = true ↔
      (inner = false ∧ e.Expr.isColName = false ∧ v = none)) ∧
    ((pushProjection e st (.route node) inner).2.isError = true →
      pushProjection e st (.route node) inner = (.route node, .error errCrossShardLeftJoin)) := by
  have hrej : (inner = false ∧ e.Expr.isColName = false ∧ v = none) →
      pushProjection e st (.route node) inner = (.route node, .error errCrossShardLeftJoin) := by
    rintro ⟨hi, hc, hn⟩
    subst hi; subst hn
    unfold pushProjection
    simp [hv, hc, errCrossShardLeftJoin]
  have hacc : ¬ (inner = false ∧ e.Expr.isColName = false ∧ v = none) →
      (pushProjection e st (.route node) inner).2.isError = false := by
    intro hn
    have ha : acceptedOnRoute e inner = true := by
      simp only [acceptedOnRoute, hv]
      cases inner <;> cases v <;> cases hc : e.Expr.isColName <;> simp_all
    rcases pushProjection_route_accepted e st node inner ha with ⟨_, h⟩ | ⟨_, h⟩ <;> rw [h] <;> rfl
  by_cases hcond : inner = false ∧ e.Expr.isColName = false ∧ v = none
  · rw [hrej hcond]
    exact ⟨⟨fun _ => hcond, fun _ => rfl⟩, fun _ => rfl⟩
  · rw [hacc hcond]
    exact ⟨⟨fun h => (by cases h), fun h => absurd h hcond⟩, fun h => (by cases h)⟩

/-- C22 at `count(a)` pushed with `inner = false` into a route that already selects `count(a)`. -/
theorem C22_route_rejection_rule_witness :
    pushProjection (unaliased countOfA) semTableAB
        (.route (routeOf [.AliasedExpr countOfA ⟨""⟩] 1)) false
      = (.route (routeOf [.AliasedExpr countOfA ⟨""⟩] 1), .error errCrossShardLeftJoin) :=
  (C22_route_rejection_rule (unaliased countOfA) semTableAB
    (routeOf [.AliasedExpr countOfA ⟨""⟩] 1) false none rfl).2 rfl

/-- The loop of `checkIfAlreadyExists` finds nothing in a list none of whose
aliased expressions is structurally equal to the expression. -/
theorem checkIfAlreadyExistsFrom_none (e : AliasedExpr) :
    ∀ (ses : List SelectExpr) (i : Int),
      (∀ x As, SelectExpr.AliasedExpr x As ∈ ses → EqualsExpr x e.Expr = false) →
      checkIfAlreadyExistsFrom e ses i = -1
  | [], _, _ => rfl
  | .AliasedExpr x As :: rest, i, h => by
    have hx := h x As (List.mem_cons_self _ _)
    simp only [checkIfAlreadyExistsFrom, hx]
    exact checkIfAlreadyExistsFrom_none e rest (i + 1)
      (fun y Bs hy => h y Bs (List.mem_cons_of_mem _ hy))
  | .StarExpr t :: rest, i, h => by
    simp only [checkIfAlreadyExistsFrom]
    exact checkIfAlreadyExistsFrom_none e rest (i + 1)
      (fun y Bs hy => h y Bs (List.mem_cons_of_mem _ hy))
  | .Nextval x :: rest, i, h => by
    simp only [checkIfAlreadyExistsFrom]
    exact checkIfAlreadyExistsFrom_none e rest (i + 1)
      (fun y Bs hy => h y Bs (List.mem_cons_of_mem _ hy))

/-- C23 (counterexample). The column `t.a`, pushed into a route with an empty
select list: the appended entry is `t.a`, with its table qualifier, and not
the unqualified column `a`. -/
theorem C23_counterexample :
    pushProjection (unaliased colTA) semTableAB (.route (routeOf [] 1)) true
      = (.route (routeOf [.AliasedExpr colTA ⟨""⟩] 1), .ok 0) ∧
    colTA = .ColName ⟨"a"⟩ ⟨⟨"t"⟩, ⟨""⟩⟩ ∧
    EqualsExpr colTA (.ColName ⟨"a"⟩ ⟨⟨""⟩, ⟨""⟩⟩) = false :=
  ⟨rfl, rfl, by decide⟩

/-- C23 (amended). For a route and an accepted expression `e` to which no
entry of the select list is structurally equal, `pushProjection` returns the
length `n` of the select list before the call, and afterwards the select list
is the old one followed by exactly one entry `e'`, the rest of the route
being as it was: for a bare column reference `e'` is `e` with the keyspace
part of its table qualifier cleared and the table name kept, otherwise `e'`
is `e` itself, qualifiers inside it included. -/
theorem C23_fresh_placement_amended (e : AliasedExpr) (st : SemTable) (node : route)
    (inner : Bool) (hacc : acceptedOnRoute e inner = true)
    (hnew : ∀ x As, SelectExpr.AliasedExpr x As ∈ node.Select.SelectExprs →
      EqualsExpr x e.Expr = false) :
    ∃ e' : AliasedExpr,
      pushProjection e st (.route node) inner
        = (.route { node with
              Select := node.Select.setSelectExprs (node.Select.SelectExprs ++ [e'.toSelectExpr]) },
            .ok (node.Select.SelectExprs.length : Int)) ∧
      (∀ name q, e.Expr = .ColName name q →
        e' = { Expr := .ColName name ⟨q.Name, ⟨""⟩⟩, As := e.As }) ∧
      (e.Expr.isColName = false → e' = e) := by
  have hmiss : checkIfAlreadyExists e node.Select = -1 :=
    checkIfAlreadyExistsFrom_none e node.Select.SelectExprs 0 hnew
  refine ⟨removeQualifierFromColName e, ?_, ?_, ?_⟩
  · rcases pushProjection_route_accepted e st node inner hacc with ⟨hne, _⟩ | ⟨_, h⟩
    · exact absurd hmiss hne
    · rw [h]; rfl
  · intro name q he
    obtain ⟨ex, As⟩ := e
    simp only at he
    subst he
    rfl
  · intro hc
    obtain ⟨ex, As⟩ := e
    cases ex <;> first | rfl | (simp [Expr.isColName] at hc)

/-- C23 (amended) at `ks.t.a` pushed into a route with an empty select list:
the appended entry is `t.a`. -/
theorem C23_fresh_placement_amended_witness :
    ∃ e' : AliasedExpr,
      pushProjection (unaliased colKsTA) semTableAB (.route (routeOf [] 1)) true
        = (.route { routeOf [] 1 with
              Select := (routeOf [] 1).Select.setSelectExprs
                ((routeOf [] 1).Select.SelectExprs ++ [e'.toSelectExpr]) },
            .ok ((routeOf [] 1).Select.SelectExprs.length : Int)) ∧
      (∀ name q, (unaliased colKsTA).Expr = .ColName name q →
        e' = { Expr := .ColName name ⟨q.Name, ⟨""⟩⟩, As := (unaliased colKsTA).As }) ∧
      ((unaliased colKsTA).Expr.isColName = false → e' = unaliased colKsTA) :=
  C23_fresh_placement_amended (unaliased colKsTA) semTableAB (routeOf [] 1) true rfl
    (fun x As hx => by simp [routeOf, selectOf, Select.SelectExprs] at hx)

/-- C24. A successful `pushProjection` on a join returns the length the
`Cols` of the join had before the call. When the left child's tables solve
the dependencies of `e`, whether or not the right child's do, `e` is pushed
into the left child with the same `inner`, and the join afterwards has the
new left child, the old right child, and `Cols` with the one entry
`-(k+1)` appended, `k` being the offset the left child returned. Otherwise
the right child's tables solve them, `e` is pushed into the right child with
`inner && Opcode != LeftJoin`, and the join afterwards has the old left child,
the new right child, and `Cols` with the one entry `k+1` appended. -/
theorem C24_join_column_step (e : AliasedExpr) (st : SemTable) (L R : logicalPlan)
    (op : JoinOpcode) (cols : List Int) (inner : Bool) (p' : logicalPlan) (k : Int)
    (h : pushProjection e st (.joinGen4 L R op cols) inner = (p', .ok k)) :
    k = cols.length ∧
    ∃ lhs rhs, L.ContainsTables = some lhs ∧ R.ContainsTables = some rhs ∧
      (TableSet.IsSolvedBy (st.Dependencies e.Expr) lhs = true →
        ∃ L' off, pushProjection e st L inner = (L', .ok off) ∧
          p' = .joinGen4 L' R op (cols ++ [-(off + 1)])) ∧
      (TableSet.IsSolvedBy (st.Dependencies e.Expr) lhs = false →
        TableSet.IsSolvedBy (st.Dependencies e.Expr) rhs = true ∧
        ∃ R' off, pushProjection e st R (inner && op != JoinOpcode.LeftJoin) = (R', .ok off) ∧
          p' = .joinGen4 L R' op (cols ++ [off + 1])) := by
  unfold pushProjection at h
  split at h
  · rename_i lhs rhs hl hr
    simp only at h
    split at h
    · rename_i hs
      split at h
      · rename_i L' off hL
        simp only [Prod.mk.injEq, Outcome.ok.injEq] at h
        refine ⟨by rw [← h.2]; simp, lhs, rhs, hl, hr, fun _ => ⟨L', off, hL, h.1.symm⟩, ?_⟩
        intro hn
        rw [hs] at hn
        cases hn
      · simp at h
      · simp at h
    · rename_i hs
      split at h
      · rename_i hs2
        split at h
        · rename_i R' off hR
          simp only [Prod.mk.injEq, Outcome.ok.injEq] at h
          refine ⟨by rw [← h.2]; simp, lhs, rhs, hl, hr, fun hp => absurd hp hs,
            fun _ => ⟨hs2, R', off, hR, h.1.symm⟩⟩
        · simp at h
        · simp at h
      · simp at h
  · simp at h

/-- C24 at the literal `1`, which has no dependencies, pushed into the left
join of the routes over tables 1 and 2: both sides solve it and it goes left. -/
theorem C24_join_column_step_witness :
    TableSet.IsSolvedBy (semTableAB.Dependencies literalOne) 2 = true ∧
    pushProjection (unaliased literalOne) semTableAB leftJoinOfA true
      = (.joinGen4 (.route (routeOf [.AliasedExpr colA ⟨""⟩, .AliasedExpr literalOne ⟨""⟩] 1))
          (.route (routeOf [] 2)) .LeftJoin [-2], .ok 0) ∧
    (0 : Int) = ([] : List Int).length :=
  ⟨by decide, rfl,
    (C24_join_column_step (unaliased literalOne) semTableAB
      (.route (routeOf [.AliasedExpr colA ⟨""⟩] 1)) (.route (routeOf [] 2)) .LeftJoin [] true
      _ 0 rfl).1⟩

/-- C25. A join whose children have tables, and an expression whose
dependencies neither the left child's nor the right child's tables solve:
`pushProjection` returns the internal error "unknown dependencies" and the
join is as it was, `Cols` and both subtrees; no child is called. -/
theorem C25_unresolvable_dependencies (e : AliasedExpr) (st : SemTable) (L R : logicalPlan)
    (op : JoinOpcode) (cols : List Int) (inner : Bool) (lhs rhs : TableSet)
    (hl : L.ContainsTables = some lhs) (hr : R.ContainsTables = some rhs)
    (hnl : TableSet.IsSolvedBy (st.Dependencies e.Expr) lhs = false)
    (hnr : TableSet.IsSolvedBy (st.Dependencies e.Expr) rhs = false) :
    pushProjection e st (.joinGen4 L R op cols) inner
      = (.joinGen4 L R op cols, .error ⟨.INTERNAL, "unknown dependencies for %s"⟩) := by
  unfold pushProjection
  simp only [hl, hr, hnl, hnr]
  simp

/-- C25 at the column `a`, depending on table 4, pushed into the inner join
of the routes over tables 1 and 2. -/
theorem C25_unresolvable_dependencies_witness :
    pushProjection (unaliased colA) semTableFour joinOfA true
      = (joinOfA, .error ⟨.INTERNAL, "unknown dependencies for %s"⟩) :=
  C25_unresolvable_dependencies (unaliased colA) semTableFour
    (.route (routeOf [.AliasedExpr colA ⟨""⟩] 1)) (.route (routeOf [] 2)) .NormalJoin [] true
    1 2 rfl rfl (by decide) (by decide)

/-- C27. If `pushProjection` returns an error, the plan is as it was before
the call, whatever its shape and depth: no select list of a route and no
`Cols` of a join in the tree has changed. -/
theorem C27_placement_atomic_on_failure (e : AliasedExpr) (st : SemTable) :
    ∀ (p : logicalPlan) (inner : Bool) (err : vtError),
      (pushProjection e st p inner).2 = .error err → (pushProjection e st p inner).1 = p
  | .nilPlan, _, _, _ => by unfold pushProjection; rfl
  | .orderedAggregate i a, _, _, _ => by unfold pushProjection; rfl
  | .memorySortGen4 ob i t, _, _, _ => by unfold pushProjection; rfl
  | .route node, inner, err, h => by
    rcases pushProjection_route_cases e st node inner with ⟨err', h1⟩ | ⟨_, h1⟩ | ⟨_, h1⟩
    · rw [h1]
    · rw [h1] at h; cases h
    · rw [h1] at h; cases h
  | .joinGen4 L R op cols, inner, err, h => by
    have ihL := C27_placement_atomic_on_failure e st L inner
    have ihR := C27_placement_atomic_on_failure e st R (inner && op != JoinOpcode.LeftJoin)
    cases hres : pushProjection e st (.joinGen4 L R op cols) inner with
    | mk p' out =>
      rw [hres] at h
      simp only at h ⊢
      subst h
      unfold pushProjection at hres
      split at hres
      · simp only at hres
        split at hres
        · split at hres
          · simp at hres
          · rename_i L' err' hL
            have hih := ihL err' (by rw [hL])
            rw [hL] at hih
            simp only at hih
            simp only [Prod.mk.injEq] at hres
            rw [← hres.1, hih]
          · simp at hres
        · split at hres
          · split at hres
            · simp at hres
            · rename_i R' err' hR
              have hih := ihR err' (by rw [hR])
              rw [hR] at hih
              simp only at hih
              simp only [Prod.mk.injEq] at hres
              rw [← hres.1, hih]
            · simp at hres
          · simp only [Prod.mk.injEq] at hres
            exact hres.1.symm
      · simp at hres

/-- C27 at `sum(b)` pushed into the left join of the routes over tables 1
and 2, where the right route rejects it. -/
theorem C27_placement_atomic_on_failure_witness :
    (pushProjection (unaliased sumOfB) semTableAB leftJoinOfA true).2
      = .error errCrossShardLeftJoin ∧
    (pushProjection (unaliased sumOfB) semTableAB leftJoinOfA true).1 = leftJoinOfA :=
  ⟨rfl, C27_placement_atomic_on_failure (unaliased sumOfB) semTableAB leftJoinOfA true
    errCrossShardLeftJoin rfl⟩

/-- C29. A join and an ORDER BY list every key of which has its dependencies
solved by the tables of the join's left child: when `planOrderBy` on the left
child fails, `planOrderBy` on the join returns that error and no plan, and
the join is left with the nil plan as its left child, its right child,
`Opcode` and `Cols` being as they were. -/
theorem C29_failed_ordering_overwrites_left (qp : queryProjection) (os : List Order)
    (st : SemTable) (Left Right : logicalPlan) (Opcode : JoinOpcode) (Cols : List Int)
    (err : vtError)
    (hall : ∀ o ∈ os, ∃ lhs, Left.ContainsTables = some lhs ∧
      TableSet.IsSolvedBy (st.Dependencies o.Expr) lhs = true)
    (hrec : (planOrderBy qp os st Left).2 = .error err) :
    planOrderBy qp os st (.joinGen4 Left Right Opcode Cols)
      = (.joinGen4 .nilPlan Right Opcode Cols, .error err) := by
  rw [planOrderBy]
  unfold planOrderByForJoin
  rw [isAllLeftLoop_all st Left os hall]
  simp only [hrec]

/-- C29 at `ORDER BY count(a)` over the inner join whose left route, over
table 1, solves `a`: the left route rejects the key and is replaced by nil. -/
theorem C29_failed_ordering_overwrites_left_witness :
    planOrderBy qpEmpty [orderByCountA] semTableAB joinOfA
      = (.joinGen4 .nilPlan (.route (routeOf [] 2)) .NormalJoin [],
          .error (Gen4NotSupportedF "order by non-column expression")) :=
  C29_failed_ordering_overwrites_left qpEmpty [orderByCountA] semTableAB
    (.route (routeOf [.AliasedExpr colA ⟨""⟩] 1)) (.route (routeOf [] 2)) .NormalJoin []
    (Gen4NotSupportedF "order by non-column expression")
    (fun o ho => ⟨1, rfl, by rw [List.mem_singleton.mp ho]; decide⟩) rfl

/-- A name that is no key of `SupportedAggregates` reads the zero opcode. -/
theorem SupportedAggregates_missing (name : String) (h : name ∉ supportedAggregateNames) :
    SupportedAggregates name = .AggregateCount := by
  simp only [supportedAggregateNames, List.mem_cons, List.mem_singleton, not_or,
    List.not_mem_nil, or_false] at h
  obtain ⟨h1, h2, h3, h4, h5, h6⟩ := h
  simp [SupportedAggregates, h1, h2, h3, h4, h5, h6]

/-- The aggregate at position `i` pairs the opcode read for the i-th name with the i-th offset. -/
theorem aggregateParamsOf_get? :
    ∀ (es : List AliasedExpr) (offs : List Int) (i : Nat) (a : AliasedExpr) (off : Int),
      es.get? i = some a → offs.get? i = some off →
      (aggregateParamsOf es offs).get? i
        = some ⟨SupportedAggregates a.Expr.funcName.Lowered, off⟩
  | [], _, _, _, _, h, _ => by simp at h
  | _ :: _, [], _, _, _, _, h => by simp at h
  | e :: es, o :: offs, 0, a, off, h1, h2 => by
    simp only [List.get?_cons_zero, Option.some.injEq] at h1 h2
    subst h1; subst h2
    rfl
  | e :: es, o :: offs, i + 1, a, off, h1, h2 => by
    simp only [List.get?_cons_succ] at h1 h2
    simp only [aggregateParamsOf, List.get?_cons_succ]
    exact aggregateParamsOf_get? es offs i a off h1 h2

/-- C30. For aggregate expressions that are all function calls and whose
placements all succeed, `planAggregations` returns no error but an ordered
aggregate with one aggregate per expression, and for an expression whose
lower-cased function name is no key of `SupportedAggregates` the aggregate
at its position carries the zero opcode, `AggregateCount`, and the offset
its placement returned. -/
theorem C30_unknown_aggregate_name (qp : queryProjection) (p p' : logicalPlan) (st : SemTable)
    (offs : List Int)
    (hfun : ∀ a ∈ qp.aggrExprs, a.Expr.isFuncExpr = true)
    (hseq : pushProjectionSeq st (aggregatePushes qp.aggrExprs) p = (p', some offs)) :
    ∃ aggs, planAggregations qp p st = (p', .ok (.orderedAggregate p' aggs)) ∧
      aggs.length = qp.aggrExprs.length ∧
      ∀ (i : Nat) (a : AliasedExpr) (off : Int),
        qp.aggrExprs.get? i = some a → offs.get? i = some off →
        a.Expr.funcName.Lowered ∉ supportedAggregateNames →
        aggs.get? i = some ⟨.AggregateCount, off⟩ := by
  obtain ⟨hloop, hlen⟩ := planAggregationsLoop_seq st qp.aggrExprs p [] p' offs hfun hseq
  refine ⟨aggregateParamsOf qp.aggrExprs offs, ?_, hlen, ?_⟩
  · unfold planAggregations
    rw [hloop]
    rfl
  · intro i a off ha hoff hname
    rw [aggregateParamsOf_get? qp.aggrExprs offs i a off ha hoff,
      SupportedAggregates_missing _ hname]

/-- C30 at `avg(a)` over the inner join: the aggregate is the zero opcode at offset 0. -/
theorem C30_unknown_aggregate_name_witness :
    ∃ p' aggs, planAggregations qpAvgA joinOfA semTableAB
        = (p', .ok (.orderedAggregate p' aggs)) ∧
      aggs.get? 0 = some ⟨.AggregateCount, 0⟩ :=
  match C30_unknown_aggregate_name qpAvgA joinOfA
      (.joinGen4 (.route (routeOf [.AliasedExpr colA ⟨""⟩, .AliasedExpr avgOfA ⟨""⟩] 1))
        (.route (routeOf [] 2)) .NormalJoin [-2])
      semTableAB [0] (by decide) rfl with
  | ⟨aggs, h, _, hz⟩ => ⟨_, aggs, h, hz 0 (unaliased avgOfA) 0 rfl rfl (by decide)⟩

/-- The loop of `needsWeightString` answers false exactly when the first
column with the given name is numeric. -/
theorem needsWeightStringIn_false (col : ColIdent) :
    ∀ (cols : List ColumnInfo),
      needsWeightStringIn col cols = false ↔
        ∃ pre c post, cols = pre ++ c :: post ∧ (∀ x ∈ pre, x.Name ≠ col.val) ∧
          c.Name = col.val ∧ IsNumber c.Typ = true
  | [] => by simp [needsWeightStringIn]
  | c :: rest => by
    unfold needsWeightStringIn
    by_cases hc : col.val = c.Name
    · simp only [hc, if_true, Bool.not_eq_false']
      constructor
      · intro hnum
        exact ⟨[], c, rest, rfl, by simp, rfl, hnum⟩
      · rintro ⟨pre, c', post, heq, hpre, hname, hnum⟩
        cases pre with
        | nil =>
          simp only [List.nil_append, List.cons.injEq] at heq
          rw [heq.1]; exact hnum
        | cons x pre' =>
          simp only [List.cons_append, List.cons.injEq] at heq
          exact absurd (heq.1 ▸ rfl) (hpre x (List.mem_cons_self _ _))
    · simp only [hc, if_false]
      rw [needsWeightStringIn_false col rest]
      constructor
      · rintro ⟨pre, c', post, heq, hpre, hname, hnum⟩
        refine ⟨c :: pre, c', post, by rw [heq]; rfl, ?_, hname, hnum⟩
        intro x hx
        rcases List.mem_cons.mp hx with h | h
        · rw [h]; exact fun h' => hc h'.symm
        · exact hpre x h
      · rintro ⟨pre, c', post, heq, hpre, hname, hnum⟩
        cases pre with
        | nil =>
          simp only [List.nil_append, List.cons.injEq] at heq
          exact absurd (heq.1 ▸ hname.symm) hc
        | cons x pre' =>
          simp only [List.cons_append, List.cons.injEq] at heq
          exact ⟨pre', c', post, heq.2, fun y hy => hpre y (List.mem_cons_of_mem _ hy),
            hname, hnum⟩

/-- The loop of `needsWeightString` answers true when no column has the given name. -/
theorem needsWeightStringIn_missing (col : ColIdent) :
    ∀ (cols : List ColumnInfo), (∀ c ∈ cols, c.Name ≠ col.val) →
      needsWeightStringIn col cols = true
  | [], _ => rfl
  | c :: rest, h => by
    have hc : ¬ col.val = c.Name := fun h' => h c (List.mem_cons_self _ _) h'.symm
    simp only [needsWeightStringIn, hc, if_false]
    exact needsWeightStringIn_missing col rest (fun x hx => h x (List.mem_cons_of_mem _ hx))

/-- A round of the loop of `planOrderByForRoute` whose three calls succeed
continues on the route with the sort key recorded. -/
theorem planOrderByForRouteLoop_cons_eq (qp : queryProjection) (st : SemTable) (order : Order)
    (rest : List Order) (plan plan1 plan2 : route) (off wsoff : Int) (name : ColIdent)
    (q : TableName) (tbl : TableInfo)
    (hg : getOrProjectExpr qp plan st order = (plan1, .ok (off, .ColName name q)))
    (htbl : st.TableInfoFor (st.Dependencies (.ColName name q)) = .ok tbl)
    (hws : (if needsWeightString tbl name then pushExpression plan1 (.ColName name q) st
        else (plan1, .ok (-1))) = (plan2, .ok wsoff)) :
    planOrderByForRouteLoop qp st (order :: rest) plan
      = planOrderByForRouteLoop qp st rest (plan2.ordered off wsoff order) := by
  rw [planOrderByForRouteLoop, hg]
  simp only [htbl, hws]
  rfl

/-- A successful loop of `planOrderByForRoute` over a list of two parts is a
successful loop over the first part followed by one over the second. -/
theorem planOrderByForRouteLoop_split (qp : queryProjection) (st : SemTable)
    (tail : List Order) :
    ∀ (pre : List Order) (r r' : route),
      planOrderByForRouteLoop qp st (pre ++ tail) r = (r', .ok ()) →
      ∃ r0, planOrderByForRouteLoop qp st pre r = (r0, .ok ()) ∧
        planOrderByForRouteLoop qp st tail r0 = (r', .ok ())
  | [], r, r', h => ⟨r, rfl, h⟩
  | o :: pre, r, r', h => by
    rw [List.cons_append] at h
    obtain ⟨plan1, off, name, q, tbl, plan2, wsoff, hg, htbl, hws, hrest⟩ :=
      planOrderByForRouteLoop_cons_ok qp st o (pre ++ tail) r r' h
    obtain ⟨r0, h1, h2⟩ := planOrderByForRouteLoop_split qp st tail pre _ r' hrest
    refine ⟨r0, ?_, h2⟩
    rw [planOrderByForRouteLoop_cons_eq qp st o pre r plan1 plan2 off wsoff name q tbl hg htbl hws]
    exact h1

/-- A successful `pushExpression` returns an offset of the route afterwards
at which the weight_string helper of the expression sits. -/
theorem pushExpression_position (plan plan2 : route) (expr : Expr) (st : SemTable) (off : Int)
    (h : pushExpression plan expr st = (plan2, .ok off)) :
    0 ≤ off ∧ ∃ se, plan2.Select.SelectExprs.get? off.toNat = some se ∧
      answers se (weightStringOf expr) = true := by
  have hdef : pushExpression plan expr st
      = ((pushProjection (weightStringOf expr) st (.route plan) true).1.asRoute plan,
         (pushProjection (weightStringOf expr) st (.route plan) true).2) := rfl
  rw [hdef] at h
  simp only [Prod.mk.injEq] at h
  obtain ⟨node', hp', _, _, _, h0, se, hse, hans⟩ :=
    pushProjection_route_ok (weightStringOf expr) st plan true
      (pushProjection (weightStringOf expr) st (.route plan) true).1 off
      (by rw [← h.2])
  rw [hp'] at h
  simp only [logicalPlan.asRoute] at h
  rw [← h.1]
  exact ⟨h0, se, hse, hans⟩

/-- C26. `needsWeightString` returns false if and only if the table has a
column with exactly the name of the sort column and the first such column is
numeric; it returns true when no column has that name. In a successful
`planOrderBy` on a route, the round of an ORDER BY entry `o` runs on the
route `r0` that the rounds of the entries before it produced:
`getOrProjectExpr` resolves `o` to a column and gives the route `r1`; when
`needsWeightString` is false for that column the recorded `WeightStringCol`
is -1 and no helper is projected, the route staying `r1`; when it is true
`pushExpression` is called on `r1` and the recorded `WeightStringCol` is the
offset it returned, which is not negative and at which
`weight_string(column)` sits in the final select list. The sort key of `o`
is the entry of the route's `OrderBy` at the position of `o`. -/
theorem C26_weight_string_decision (qp : queryProjection) (st : SemTable) :
    (∀ (tbl : TableInfo) (col : ColIdent),
      needsWeightString tbl col = false ↔
        ∃ pre c post, tbl.GetColumns = pre ++ c :: post ∧ (∀ x ∈ pre, x.Name ≠ col.val) ∧
          c.Name = col.val ∧ IsNumber c.Typ = true) ∧
    (∀ (tbl : TableInfo) (col : ColIdent),
      (∀ c ∈ tbl.GetColumns, c.Name ≠ col.val) → needsWeightString tbl col = true) ∧
    (∀ (pre : List Order) (o : Order) (rest : List Order) (r r' : route) (p : logicalPlan),
      planOrderBy qp (pre ++ o :: rest) st (.route r) = (.route r', .ok p) →
      ∃ (r0 r1 r2 rl : route) (off wsoff : Int) (name : ColIdent) (q : TableName)
          (tbl : TableInfo) (ps0 ps1 : List OrderbyParams),
        planOrderByForRouteLoop qp st pre r = (r0, .ok ()) ∧
        getOrProjectExpr qp r0 st o = (r1, .ok (off, .ColName name q)) ∧
        st.TableInfoFor (st.Dependencies (.ColName name q)) = .ok tbl ∧
        (needsWeightString tbl name = false → wsoff = -1 ∧ r2 = r1) ∧
        (needsWeightString tbl name = true →
          pushExpression r1 (.ColName name q) st = (r2, .ok wsoff) ∧ 0 ≤ wsoff ∧
          ∃ se, r'.Select.SelectExprs.get? wsoff.toNat = some se ∧
            answers se (weightStringOf (.ColName name q)) = true) ∧
        planOrderByForRouteLoop qp st rest (r2.ordered off wsoff o) = (rl, .ok ()) ∧
        r'.Select = rl.Select ∧
        ps0.length = pre.length ∧
        r'.eroute.OrderBy = r.eroute.OrderBy ++ ps0 ++
          ⟨off, wsoff, o.Direction == OrderDirection.DescOrder⟩ :: ps1) := by
  refine ⟨fun tbl col => needsWeightStringIn_false col tbl.GetColumns,
    fun tbl col h => needsWeightStringIn_missing col tbl.GetColumns h, ?_⟩
  intro pre o rest r r' p h
  obtain ⟨_, rl, hloop, hr'⟩ :=
    planOrderByForRoute_ok qp _ r r' st p (planOrderBy_route_ok qp _ st r r' p h)
  have hsel : r'.Select = rl.Select := by rw [hr']; split <;> rfl
  have hob : r'.eroute.OrderBy = rl.eroute.OrderBy := by rw [hr']; split <;> rfl
  obtain ⟨r0, hpre, htail⟩ := planOrderByForRouteLoop_split qp st (o :: rest) pre r rl hloop
  obtain ⟨r1, off, name, q, tbl, r2, wsoff, hg, htbl, hws, hrest⟩ :=
    planOrderByForRouteLoop_cons_ok qp st o rest r0 rl htail
  obtain ⟨ps0, hk0, _, hall0⟩ := planOrderByForRouteLoop_keys qp st pre r r0 hpre
  obtain ⟨ps1, hk1, _, _⟩ :=
    planOrderByForRouteLoop_keys qp st rest (r2.ordered off wsoff o) rl hrest
  obtain ⟨he1, _, _⟩ := getOrProjectExpr_keeps_order qp r0 r1 st o off _ hg
  obtain ⟨he2, _⟩ := weightString_step_keeps_order st r1 r2 tbl name q wsoff hws
  have hext := (planOrderByForRouteLoop_extends qp st rest _ rl hrest).1
  rw [route.ordered_SelectExprs] at hext
  refine ⟨r0, r1, r2, rl, off, wsoff, name, q, tbl, ps0, ps1, hpre, hg, htbl, ?_, ?_, hrest,
    hsel, hall0.length_eq, ?_⟩
  · intro hn
    simp only [hn, Bool.false_eq_true, if_false, Prod.mk.injEq, Outcome.ok.injEq] at hws
    exact ⟨hws.2.symm, hws.1.symm⟩
  · intro hn
    simp only [hn, if_true] at hws
    obtain ⟨h0, se, hse, hans⟩ := pushExpression_position r1 r2 _ st wsoff hws
    refine ⟨hws, h0, se, ?_, hans⟩
    obtain ⟨tl, htl⟩ := hext
    rw [hsel, ← htl]
    exact get?_append_some hse
  · rw [hob, hk1]
    simp [route.ordered, he2, he1, hk0]

/-- C26 at `ORDER BY a` on the route that selects the VARCHAR column `a`. -/
theorem C26_weight_string_decision_witness :
    ∃ (r0 r1 r2 rl : route) (off wsoff : Int) (name : ColIdent) (q : TableName)
        (tbl : TableInfo) (ps0 ps1 : List OrderbyParams),
      planOrderByForRouteLoop qpEmpty (semTableOf 1) [] (routeOf [.AliasedExpr colA ⟨""⟩] 1)
        = (r0, .ok ()) ∧
      getOrProjectExpr qpEmpty r0 (semTableOf 1) orderByA = (r1, .ok (off, .ColName name q)) ∧
      (semTableOf 1).TableInfoFor ((semTableOf 1).Dependencies (.ColName name q)) = .ok tbl ∧
      (needsWeightString tbl name = false → wsoff = -1 ∧ r2 = r1) ∧
      (needsWeightString tbl name = true →
        pushExpression r1 (.ColName name q) (semTableOf 1) = (r2, .ok wsoff) ∧ 0 ≤ wsoff ∧
        ∃ se, routeAOrdered.Select.SelectExprs.get? wsoff.toNat = some se ∧
          answers se (weightStringOf (.ColName name q)) = true) ∧
      planOrderByForRouteLoop qpEmpty (semTableOf 1) [] (r2.ordered off wsoff orderByA)
        = (rl, .ok ()) ∧
      routeAOrdered.Select = rl.Select ∧
      ps0.length = ([] : List Order).length ∧
      routeAOrdered.eroute.OrderBy = (routeOf [.AliasedExpr colA ⟨""⟩] 1).eroute.OrderBy ++ ps0 ++
        ⟨off, wsoff, orderByA.Direction == OrderDirection.DescOrder⟩ :: ps1 :=
  (C26_weight_string_decision qpEmpty (semTableOf 1)).2.2 [] orderByA []
    (routeOf [.AliasedExpr colA ⟨""⟩] 1) routeAOrdered (.route routeAOrdered) rfl

/-- A plan that only had columns appended offers at least as many columns. -/
theorem AppendOnly_width {p q : logicalPlan} (h : AppendOnly p q) : p.width ≤ q.width := by
  induction h with
  | nilPlan => exact Nat.le_refl _
  | route r r' hp => exact hp.length_le
  | joinGen4 l l' r r' op cols cols' _ _ hc _ _ => exact hc.length_le
  | orderedAggregate i i' a a' _ ih => exact ih
  | memorySortGen4 i i' ob ob' t t' _ ih => exact ih
  | underAggregate p p' a _ ih => exact ih
  | underSort p p' ob t _ ih => exact ih

/-- A valid reference stays valid when the children offer more columns. -/
theorem validCol_mono (l r l' r' : logicalPlan) (c : Int)
    (hl : l.width ≤ l'.width) (hr : r.width ≤ r'.width) (h : validCol l r c = true) :
    validCol l' r' c = true := by
  unfold validCol at h ⊢
  split
  · rename_i hc
    simp only [hc, if_true, decide_eq_true_eq] at h ⊢
    omega
  · rename_i hc
    simp only [hc, if_false] at h
    split
    · rename_i hc2
      simp only [hc2, if_true, decide_eq_true_eq] at h ⊢
      omega
    · rename_i hc2
      simp [hc2] at h

/-- What `ColsValid` says of a join. -/
theorem ColsValid_join (l r : logicalPlan) (op : JoinOpcode) (cols : List Int) :
    ColsValid (.joinGen4 l r op cols) = true ↔
      ColsValid l = true ∧ ColsValid r = true ∧ ∀ c ∈ cols, validCol l r c = true := by
  simp [ColsValid, List.all_eq_true, and_assoc]

/-- A join stays valid when its children are replaced by valid plans that
offer at least as many columns. -/
theorem ColsValid_join_mono (l r l' r' : logicalPlan) (op : JoinOpcode) (cols : List Int)
    (h : ColsValid (.joinGen4 l r op cols) = true)
    (hl : ColsValid l' = true) (hr : ColsValid r' = true)
    (hwl : l.width ≤ l'.width) (hwr : r.width ≤ r'.width) :
    ColsValid (.joinGen4 l' r' op cols) = true := by
  rw [ColsValid_join] at h ⊢
  exact ⟨hl, hr, fun c hc => validCol_mono l r l' r' c hwl hwr (h.2.2 c hc)⟩

/-- A plan of routes and joins with empty `Cols` has only valid references. -/
theorem emptyCols_ColsValid : ∀ (p : logicalPlan), emptyCols p = true → ColsValid p = true
  | .nilPlan, h => by simp [emptyCols] at h
  | .orderedAggregate _ _, h => by simp [emptyCols] at h
  | .memorySortGen4 _ _ _, h => by simp [emptyCols] at h
  | .route _, _ => rfl
  | .joinGen4 l r op cols, h => by
    simp only [emptyCols, Bool.and_eq_true, List.isEmpty_iff] at h
    rw [ColsValid_join]
    refine ⟨emptyCols_ColsValid l h.1.1, emptyCols_ColsValid r h.1.2, ?_⟩
    rw [h.2]
    simp

/-- A successful `pushProjection` returns a column index of the plan afterwards. -/
theorem pushProjection_offset_valid (e : AliasedExpr) (st : SemTable) (p : logicalPlan)
    (inner : Bool) (p' : logicalPlan) (off : Int)
    (h : pushProjection e st p inner = (p', .ok off)) :
    0 ≤ off ∧ off.toNat < p'.width := by
  cases p with
  | nilPlan => simp [pushProjection] at h
  | orderedAggregate i a => simp [pushProjection] at h
  | memorySortGen4 ob i t => simp [pushProjection] at h
  | route node =>
    obtain ⟨node', hp', _, _, _, h0, se, hse, _⟩ := pushProjection_route_ok e st node inner p' off h
    refine ⟨h0, ?_⟩
    rw [hp']
    by_contra hc
    rw [List.get?_eq_none.mpr (by simpa [logicalPlan.width] using hc)] at hse
    cases hse
  | joinGen4 L R op cols =>
    obtain ⟨hk, hcase⟩ := pushProjection_joinGen4_ok e st L R op cols inner p' off h
    rcases hcase with ⟨L', o, _, hp'⟩ | ⟨R', o, _, hp'⟩ <;>
      (rw [hp', hk]; simp [logicalPlan.width])

/-- The entry a join appends for a column of its left child is a valid reference. -/
theorem validCol_left_new (l r : logicalPlan) (off : Int) (h0 : 0 ≤ off)
    (hlt : off.toNat < l.width) : validCol l r (-(off + 1)) = true := by
  unfold validCol
  have hneg : -(off + 1) < 0 := by omega
  simp only [hneg, if_true, decide_eq_true_eq]
  have : (- -(off + 1) - 1).toNat = off.toNat := by congr 1; omega
  rw [this]; exact hlt

/-- The entry a join appends for a column of its right child is a valid reference. -/
theorem validCol_right_new (l r : logicalPlan) (off : Int) (h0 : 0 ≤ off)
    (hlt : off.toNat < r.width) : validCol l r (off + 1) = true := by
  unfold validCol
  have hneg : ¬ off + 1 < 0 := by omega
  have hpos : 0 < off + 1 := by omega
  simp only [hneg, hpos, if_true, if_false, decide_eq_true_eq]
  have : (off + 1 - 1).toNat = off.toNat := by congr 1; omega
  rw [this]; exact hlt

/-- Whatever its result, `pushProjection` leaves a plan with valid references valid. -/
theorem pushProjection_ColsValid (e : AliasedExpr) (st : SemTable) :
    ∀ (p : logicalPlan) (inner : Bool), ColsValid p = true →
      ColsValid (pushProjection e st p inner).1 = true
  | .nilPlan, _, _ => by unfold pushProjection; rfl
  | .orderedAggregate i a, _, h => by unfold pushProjection; exact h
  | .memorySortGen4 ob i t, _, h => by unfold pushProjection; exact h
  | .route node, inner, _ => by
    rcases pushProjection_route_cases e st node inner with ⟨err, h⟩ | ⟨_, h⟩ | ⟨_, h⟩ <;>
      (rw [h]; rfl)
  | .joinGen4 L R op cols, inner, hv => by
    obtain ⟨hL, hR, hcols⟩ := (ColsValid_join L R op cols).mp hv
    have ihL := pushProjection_ColsValid e st L inner hL
    have ihR := pushProjection_ColsValid e st R (inner && op != JoinOpcode.LeftJoin) hR
    have wL := AppendOnly_width (pushProjection_appendOnly e st L inner)
    have wR := AppendOnly_width
      (pushProjection_appendOnly e st R (inner && op != JoinOpcode.LeftJoin))
    unfold pushProjection
    split
    · simp only
      split
      · split
        · rename_i L' off heq
          rw [heq] at ihL wL
          obtain ⟨h0, hlt⟩ := pushProjection_offset_valid e st L inner L' off heq
          rw [ColsValid_join]
          refine ⟨ihL, hR, fun c hc => ?_⟩
          rcases List.mem_append.mp hc with h | h
          · exact validCol_mono L R L' R c wL (Nat.le_refl _) (hcols c h)
          · rw [List.mem_singleton.mp h]
            exact validCol_left_new L' R off h0 hlt
        · rename_i L' err heq
          rw [heq] at ihL wL
          exact ColsValid_join_mono L R L' R op cols hv ihL hR wL (Nat.le_refl _)
        · rename_i L' heq
          rw [heq] at ihL wL
          exact ColsValid_join_mono L R L' R op cols hv ihL hR wL (Nat.le_refl _)
      · split
        · split
          · rename_i R' off heq
            rw [heq] at ihR wR
            obtain ⟨h0, hlt⟩ := pushProjection_offset_valid e st R _ R' off heq
            rw [ColsValid_join]
            refine ⟨hL, ihR, fun c hc => ?_⟩
            rcases List.mem_append.mp hc with h | h
            · exact validCol_mono L R L R' c (Nat.le_refl _) wR (hcols c h)
            · rw [List.mem_singleton.mp h]
              exact validCol_right_new L R' off h0 hlt
          · rename_i R' err heq
            rw [heq] at ihR wR
            exact ColsValid_join_mono L R L R' op cols hv hL ihR (Nat.le_refl _) wR
          · rename_i R' heq
            rw [heq] at ihR wR
            exact ColsValid_join_mono L R L R' op cols hv hL ihR (Nat.le_refl _) wR
        · exact hv
    · exact hv

/-- Whatever its result, the loop of `planAggregations` leaves a plan with valid references valid. -/
theorem planAggregationsLoop_ColsValid (st : SemTable) :
    ∀ (es : List AliasedExpr) (p : logicalPlan) (aggs : List AggregateParams),
      ColsValid p = true → ColsValid (planAggregationsLoop st es p aggs).1 = true
  | [], _, _, h => h
  | e :: rest, p, aggs, h => by
    have hpush := pushProjection_ColsValid e st p true h
    unfold planAggregationsLoop
    split
    · rename_i p' err heq
      rw [heq] at hpush; exact hpush
    · rename_i p' heq
      rw [heq] at hpush; exact hpush
    · rename_i p' off heq
      rw [heq] at hpush
      split
      · exact planAggregationsLoop_ColsValid st rest p' _ hpush
      · exact hpush

/-- A successful `planOrderBy` leaves a plan with valid references valid,
both the returned plan and the plan left in place. -/
theorem planOrderBy_ColsValid (qp : queryProjection) (os : List Order) (st : SemTable) :
    ∀ (p p' : logicalPlan), (planOrderBy qp os st p).2 = .ok p' → ColsValid p = true →
      ColsValid p' = true ∧ ColsValid (planOrderBy qp os st p).1 = true
  | .nilPlan, p', h, _ => by simp [planOrderBy] at h
  | .orderedAggregate i a, p', h, _ => by simp [planOrderBy] at h
  | .memorySortGen4 ob i t, p', h, _ => by simp [planOrderBy] at h
  | .route plan, p', h, _ => by
    simp only [planOrderBy] at h ⊢
    have hpair : planOrderByForRoute qp os plan st
        = ((planOrderByForRoute qp os plan st).1, .ok p') := by
      rw [← h]
    obtain ⟨hp, _⟩ := planOrderByForRoute_ok qp os plan _ st p' hpair
    rw [hp]
    exact ⟨rfl, rfl⟩
  | .joinGen4 L R op cols, p', h, hv => by
    have ih := planOrderBy_ColsValid qp os st L
    obtain ⟨hL, hR, _⟩ := (ColsValid_join L R op cols).mp hv
    simp only [planOrderBy] at h ⊢
    cases hall : isAllLeftLoop st L os with
    | none => simp [planOrderByForJoin, hall] at h
    | some b =>
      cases b with
      | true =>
        cases hrec : (planOrderBy qp os st L).2 with
        | ok L' =>
          simp only [planOrderByForJoin, hall, hrec, Outcome.ok.injEq] at h ⊢
          have hw := AppendOnly_width (planOrderBy_appendOnly qp os st L L' hrec).1
          have hvalid := ColsValid_join_mono L R L' R op cols hv (ih L' hrec hL).1 hR hw
            (Nat.le_refl _)
          rw [← h]
          exact ⟨hvalid, hvalid⟩
        | error err => simp [planOrderByForJoin, hall, hrec] at h
        | panic => simp [planOrderByForJoin, hall, hrec] at h
      | false =>
        simp only [planOrderByForJoin, hall, Outcome.ok.injEq] at h ⊢
        rw [← h]
        exact ⟨hv, hv⟩

/-- C28. In a plan built from routes and joins whose `Cols` are all empty,
every entry of every `Cols` is a valid reference, and validity is kept by
`pushProjection`, whatever its result, by `planAggregations`, for the plan
left in place and for the returned plan, and by a successful `planOrderBy`,
for the returned plan and the plan left in place; none of the three lowers
the number of columns the plan offers, so validity is also kept in a join
whose child was handed to one of them. Valid means: the entry `c` is not 0,
and `|c| - 1` is less than the length of the select list of the child when
it is a route, and of its `Cols` when it is a join, the child being the left
one when `c < 0` and the right one when `c > 0`. -/
theorem C28_join_columns_stay_valid :
    (∀ p : logicalPlan, emptyCols p = true → ColsValid p = true) ∧
    (∀ p : logicalPlan, ColsValid p = true →
      (∀ (e : AliasedExpr) (st : SemTable) (inner : Bool),
        ColsValid (pushProjection e st p inner).1 = true ∧
        p.width ≤ (pushProjection e st p inner).1.width) ∧
      (∀ (qp : queryProjection) (st : SemTable),
        ColsValid (planAggregations qp p st).1 = true ∧
        p.width ≤ (planAggregations qp p st).1.width ∧
        ∀ p', (planAggregations qp p st).2 = .ok p' →
          ColsValid p' = true ∧ p.width ≤ p'.width) ∧
      (∀ (qp : queryProjection) (os : List Order) (st : SemTable) (p' : logicalPlan),
        (planOrderBy qp os st p).2 = .ok p' →
        ColsValid p' = true ∧ ColsValid (planOrderBy qp os st p).1 = true ∧
        p.width ≤ p'.width)) ∧
    (∀ (l r l' r' : logicalPlan) (op : JoinOpcode) (cols : List Int),
      ColsValid (.joinGen4 l r op cols) = true → ColsValid l' = true → ColsValid r' = true →
      l.width ≤ l'.width → r.width ≤ r'.width →
      ColsValid (.joinGen4 l' r' op cols) = true) ∧
    (∀ (l r : logicalPlan) (op : JoinOpcode) (cols : List Int),
      ColsValid (.joinGen4 l r op cols) = true →
      ColsValid l = true ∧ ColsValid r = true ∧
      ∀ c ∈ cols, c ≠ 0 ∧ (c < 0 → (-c - 1).toNat < l.width) ∧
        (0 < c → (c - 1).toNat < r.width)) ∧
    (∀ (r : route) (L R : logicalPlan) (op : JoinOpcode) (cols : List Int),
      (logicalPlan.route r).width = r.Select.SelectExprs.length ∧
      (logicalPlan.joinGen4 L R op cols).width = cols.length) := by
  refine ⟨emptyCols_ColsValid, ?_, ?_, ?_, fun _ _ _ _ _ => ⟨rfl, rfl⟩⟩
  · intro p hv
    refine ⟨fun e st inner => ⟨pushProjection_ColsValid e st p inner hv,
      AppendOnly_width (pushProjection_appendOnly e st p inner)⟩, ?_, ?_⟩
    · intro qp st
      have hloop := planAggregationsLoop_ColsValid st qp.aggrExprs p [] hv
      have hw := AppendOnly_width (planAggregationsLoop_appendOnly st qp.aggrExprs p [])
      have hstate : (planAggregations qp p st).1 = (planAggregationsLoop st qp.aggrExprs p []).1 := by
        unfold planAggregations
        split <;> (rename_i heq; rw [heq])
      refine ⟨by rw [hstate]; exact hloop, by rw [hstate]; exact hw, ?_⟩
      intro p' h
      obtain ⟨aggs, hp'⟩ := planAggregations_ok_shape qp p p' st h
      rw [hp', hstate]
      exact ⟨hloop, hw⟩
    · intro qp os st p' h
      obtain ⟨h1, h2⟩ := planOrderBy_ColsValid qp os st p p' h hv
      exact ⟨h1, h2, AppendOnly_width (planOrderBy_appendOnly qp os st p p' h).1⟩
  · intro l r l' r' op cols h hl hr hwl hwr
    exact ColsValid_join_mono l r l' r' op cols h hl hr hwl hwr
  · intro l r op cols h
    obtain ⟨hl, hr, hcols⟩ := (ColsValid_join l r op cols).mp h
    refine ⟨hl, hr, fun c hc => ?_⟩
    have hvc := hcols c hc
    unfold validCol at hvc
    by_cases hneg : c < 0
    · simp only [hneg, if_true, decide_eq_true_eq] at hvc
      exact ⟨by omega, fun _ => hvc, fun hp => by omega⟩
    · by_cases hpos : 0 < c
      · simp only [hneg, hpos, if_true, if_false, decide_eq_true_eq] at hvc
        exact ⟨by omega, fun hn => absurd hn hneg, fun _ => hvc⟩
      · simp [hneg, hpos] at hvc

/-- C28 at the inner join of two routes with empty `Cols`, after
`planAggregations` placed `count(a)` and `SUM(b)`: its `Cols` are valid. -/
theorem C28_join_columns_stay_valid_witness :
    emptyCols joinOfA = true ∧
    ColsValid (planAggregations qpCountASumB joinOfA semTableAB).1 = true :=
  ⟨rfl, ((C28_join_columns_stay_valid.2.1 joinOfA
    (C28_join_columns_stay_valid.1 joinOfA rfl)).2.1 qpCountASumB semTableAB).1⟩

/-- C19. After a successful `planOrderBy` on a route with the ORDER BY
entries `o_1..o_m`: the route's sort keys are the old ones followed by exactly
`m` new ones `p_1..p_m`, and the ORDER BY clause of its statement is the old
one followed by `o_1..o_m`. The round of the entry `o_i` runs on the route
`r0` that the rounds of `o_1..o_(i-1)` produced from the route given:
`p_i.Desc` tells whether `o_i` is descending; when `o_i` has an offset
recorded in `qp.orderExprColMap`, `p_i.Col` is that offset and the round
pushes nothing for the entry's expression, the route staying `r0`; otherwise
`p_i.Col` is the offset that `pushProjection` returns for the expression of
`o_i`, called with `inner = true` on `r0`. -/
theorem C19_route_order_by_params (qp : queryProjection) (os : List Order) (st : SemTable)
    (r r' : route) (p : logicalPlan)
    (h : planOrderBy qp os st (.route r) = (.route r', .ok p)) :
    ∃ ps : List OrderbyParams,
      r'.eroute.OrderBy = r.eroute.OrderBy ++ ps ∧
      r'.Select.OrderBy = r.Select.OrderBy ++ os ∧
      ps.length = os.length ∧
      ∀ (pre : List Order) (o : Order) (rest : List Order), os = pre ++ o :: rest →
        ∃ (r0 r1 : route) (off : Int) (name : ColIdent) (q : TableName) (k : OrderbyParams),
          planOrderByForRouteLoop qp st pre r = (r0, .ok ()) ∧
          getOrProjectExpr qp r0 st o = (r1, .ok (off, .ColName name q)) ∧
          (∀ offset, mapLookup o.ptr qp.orderExprColMap = some offset →
            off = offset ∧ r1 = r0) ∧
          (mapLookup o.ptr qp.orderExprColMap = none →
            pushProjection { Expr := o.Expr, As := NewColIdent "" } st (.route r0) true
              = (.route r1, .ok off)) ∧
          ps.get? pre.length = some k ∧ k.Col = off ∧
          k.Desc = (o.Direction == OrderDirection.DescOrder) := by
  obtain ⟨_, rl, hloop, hr'⟩ :=
    planOrderByForRoute_ok qp os r r' st p (planOrderBy_route_ok qp os st r r' p h)
  have hsel : r'.Select = rl.Select := by rw [hr']; split <;> rfl
  have hob : r'.eroute.OrderBy = rl.eroute.OrderBy := by rw [hr']; split <;> rfl
  obtain ⟨ps, h1, h2, hall⟩ := planOrderByForRouteLoop_keys qp st os r rl hloop
  refine ⟨ps, by rw [hob, h1], by rw [hsel, h2], hall.length_eq, ?_⟩
  intro pre o rest hos
  subst hos
  obtain ⟨r0, hpre, htail⟩ := planOrderByForRouteLoop_split qp st (o :: rest) pre r rl hloop
  obtain ⟨r1, off, name, q, tbl, r2, wsoff, hg, htbl, hws, hrest⟩ :=
    planOrderByForRouteLoop_cons_ok qp st o rest r0 rl htail
  obtain ⟨ps0, hk0, _, hall0⟩ := planOrderByForRouteLoop_keys qp st pre r r0 hpre
  obtain ⟨ps1, hk1, _, _⟩ :=
    planOrderByForRouteLoop_keys qp st rest (r2.ordered off wsoff o) rl hrest
  obtain ⟨he1, _, _⟩ := getOrProjectExpr_keeps_order qp r0 r1 st o off _ hg
  obtain ⟨he2, _⟩ := weightString_step_keeps_order st r1 r2 tbl name q wsoff hws
  obtain ⟨hin, hout⟩ := getOrProjectExpr_offset qp r0 r1 st o off _ hg
  have hps : ps = ps0 ++ ⟨off, wsoff, o.Direction == OrderDirection.DescOrder⟩ :: ps1 := by
    have hcat : r.eroute.OrderBy ++ ps = r.eroute.OrderBy ++
        (ps0 ++ ⟨off, wsoff, o.Direction == OrderDirection.DescOrder⟩ :: ps1) := by
      rw [← h1, hk1]
      simp [route.ordered, he2, he1, hk0]
    exact List.append_cancel_left hcat
  refine ⟨r0, r1, off, name, q, ⟨off, wsoff, o.Direction == OrderDirection.DescOrder⟩,
    hpre, hg, hin, hout, ?_, rfl, rfl⟩
  rw [hps, ← hall0.length_eq, List.get?_eq_getElem?,
    List.getElem?_append_right (Nat.le_refl _)]
  simp

/-- C19 at `ORDER BY ks.t.a, ks.t.a DESC` on a route with an empty select
list: the sort keys have the columns 0 and 2. -/
theorem C19_route_order_by_params_witness :
    routeKsTAOrdered.eroute.OrderBy = [⟨0, 1, false⟩, ⟨2, 1, true⟩] ∧
    ∃ ps : List OrderbyParams,
      routeKsTAOrdered.eroute.OrderBy = (routeOf [] 1).eroute.OrderBy ++ ps ∧
      routeKsTAOrdered.Select.OrderBy
        = (routeOf [] 1).Select.OrderBy ++ [orderByKsTA, orderByKsTADesc] ∧
      ps.length = [orderByKsTA, orderByKsTADesc].length ∧
      ∀ (pre : List Order) (o : Order) (rest : List Order),
        [orderByKsTA, orderByKsTADesc] = pre ++ o :: rest →
        ∃ (r0 r1 : route) (off : Int) (name : ColIdent) (q : TableName) (k : OrderbyParams),
          planOrderByForRouteLoop qpEmpty (semTableOf 1) pre (routeOf [] 1) = (r0, .ok ()) ∧
          getOrProjectExpr qpEmpty r0 (semTableOf 1) o = (r1, .ok (off, .ColName name q)) ∧
          (∀ offset, mapLookup o.ptr qpEmpty.orderExprColMap = some offset →
            off = offset ∧ r1 = r0) ∧
          (mapLookup o.ptr qpEmpty.orderExprColMap = none →
            pushProjection { Expr := o.Expr, As := NewColIdent "" } (semTableOf 1) (.route r0) true
              = (.route r1, .ok off)) ∧
          ps.get? pre.length = some k ∧ k.Col = off ∧
          k.Desc = (o.Direction == OrderDirection.DescOrder) :=
  ⟨rfl, C19_route_order_by_params qpEmpty [orderByKsTA, orderByKsTADesc] (semTableOf 1)
    (routeOf [] 1) routeKsTAOrdered (.route routeKsTAOrdered) rfl⟩

/-- Only a column reference with the same name and qualifier is structurally
equal to a column reference. -/
theorem EqualsExpr_ColName_right (x : Expr) (n : ColIdent) (q : TableName)
    (h : EqualsExpr x (.ColName n q) = true) : x = .ColName n q := by
  cases x with
  | ColName n' q' =>
    have h' : (decide (n' = n) && decide (q' = q)) = true := h
    simp only [Bool.and_eq_true, decide_eq_true_eq] at h'
    rw [h'.1, h'.2]
  | nilExpr => exact Bool.noConfusion h
  | Literal t v => exact Bool.noConfusion h
  | Argument a => exact Bool.noConfusion h
  | AndExpr l r => exact Bool.noConfusion h
  | OrExpr l r => exact Bool.noConfusion h
  | NotExpr e => exact Bool.noConfusion h
  | ComparisonExpr o l r x => exact Bool.noConfusion h
  | FuncExpr q n d es => exact Bool.noConfusion h
  | Subquery p s => exact Bool.noConfusion h
  | ExistsExpr sq => exact Bool.noConfusion h
  | ExtractedSubquery ref => exact Bool.noConfusion h

/-- A column reference is structurally equal to column references only. -/
theorem EqualsExpr_ColName_left (n : ColIdent) (q : TableName) (e : Expr)
    (h : EqualsExpr (.ColName n q) e = true) : e.isColName = true := by
  cases e with
  | ColName n' q' => rfl
  | nilExpr => exact Bool.noConfusion h
  | Literal t v => exact Bool.noConfusion h
  | Argument a => exact Bool.noConfusion h
  | AndExpr l r => exact Bool.noConfusion h
  | OrExpr l r => exact Bool.noConfusion h
  | NotExpr e => exact Bool.noConfusion h
  | ComparisonExpr o l r x => exact Bool.noConfusion h
  | FuncExpr q n d es => exact Bool.noConfusion h
  | Subquery p s => exact Bool.noConfusion h
  | ExistsExpr sq => exact Bool.noConfusion h
  | ExtractedSubquery ref => exact Bool.noConfusion h

/-- An expression that is no column reference has no top-level qualifier to remove. -/
theorem withoutQualifier_of_not_col (e : Expr) (h : e.isColName = false) :
    e.withoutQualifier = e := by
  cases e <;> first | rfl | exact Bool.noConfusion h

/-- The entry that answers a request is structurally equal to the requested
expression up to removal of a top-level column qualifier: it is the requested
expression, or the requested column with its keyspace cleared. -/
theorem answers_sameUpToQualifier (se : SelectExpr) (e : AliasedExpr)
    (h : answers se e = true) : sameUpToQualifier se e.Expr = true := by
  cases se with
  | StarExpr t => exact Bool.noConfusion h
  | Nextval x => exact Bool.noConfusion h
  | AliasedExpr x a =>
    obtain ⟨ex, As⟩ := e
    have h' : (EqualsExpr x ex || EqualsExpr x (removeQualifierFromColName ⟨ex, As⟩).Expr) = true := h
    show EqualsExpr x.withoutQualifier ex.withoutQualifier = true
    cases hc : ex.isColName with
    | false =>
      have hrem : (removeQualifierFromColName ⟨ex, As⟩).Expr = ex := by
        cases ex <;> first | rfl | exact Bool.noConfusion hc
      rw [hrem, Bool.or_self] at h'
      have hx : x.isColName = false := by
        cases hxc : x.isColName with
        | false => rfl
        | true =>
          cases x <;> first | exact Bool.noConfusion hxc | skip
          rename_i n q
          rw [EqualsExpr_ColName_left n q ex h'] at hc
          exact Bool.noConfusion hc
      rw [withoutQualifier_of_not_col x hx, withoutQualifier_of_not_col ex hc]
      exact h'
    | true =>
      cases ex <;> first | exact Bool.noConfusion hc | skip
      rename_i n q
      have hx : ∃ q', x = .ColName n q' := by
        rcases Bool.or_eq_true _ _ |>.mp h' with h1 | h1
        · exact ⟨_, EqualsExpr_ColName_right x n q h1⟩
        · exact ⟨_, EqualsExpr_ColName_right x n _ h1⟩
      obtain ⟨q', hx⟩ := hx
      rw [hx]
      exact EqualsExpr_refl _

/-- C2. Join column mapping: on a join over two routes whose `Cols` is empty,
when the expressions `e_1..e_n` are each placed successfully by
`pushProjection`, in this order, the i-th call returns `i-1`, `Cols` has `n`
entries afterwards, and the i-th entry `c_i` designates, in the left route
when `c_i < 0` and in the right route when `c_i > 0`, at column `|c_i| - 1`,
an aliased expression that is structurally equal to `e_i` up to removal of a
top-level column qualifier. -/
theorem C2_join_column_mapping (st : SemTable) (op : JoinOpcode) (es : List (AliasedExpr × Bool))
    (l r : route) (ks : List Int)
    (h : (pushProjectionSeq st es (.joinGen4 (.route l) (.route r) op [])).2 = some ks) :
    ∃ l' r' cols',
      (pushProjectionSeq st es (.joinGen4 (.route l) (.route r) op [])).1
        = .joinGen4 (.route l') (.route r') op cols' ∧
      ks = (List.range es.length).map Int.ofNat ∧
      cols'.length = es.length ∧
      ∀ (i : Nat) (hi : i < es.length), ∃ c se,
        cols'.get? i = some c ∧ designated l' r' c = some se ∧
        sameUpToQualifier se (es.get ⟨i, hi⟩).1.Expr = true := by
  obtain ⟨l', r', added, hfin, _, _, hks, hall⟩ := pushProjectionSeq_join_routes st op es l r [] ks h
  refine ⟨l', r', added, by simpa using hfin, ?_, hall.length_eq, ?_⟩
  · rw [hks]; simp [List.range_eq_range']
  · intro i hi
    have hi' : i < added.length := by rw [hall.length_eq]; exact hi
    obtain ⟨se, h1, h2⟩ := (List.forall₂_iff_get.mp hall).2 i hi' hi
    exact ⟨added.get ⟨i, hi'⟩, se, by simp [List.getElem?_eq_getElem hi'], h1,
      answers_sameUpToQualifier se _ h2⟩

/-- C2, at a left join of a route over table 1 and a route over table 2: `b`
goes right, `a` and `ks.t.a` go left, the latter stored as `t.a`. -/
theorem C2_join_column_mapping_witness :
    (pushProjectionSeq semTableAB [(unaliased colB, true), (unaliased colA, false),
        (unaliased colKsTA, true)]
      (.joinGen4 (.route (routeOf [] 1)) (.route (routeOf [] 2)) .LeftJoin [])).1
      = .joinGen4 (.route (routeOf [.AliasedExpr colA ⟨""⟩, .AliasedExpr colTA ⟨""⟩] 1))
          (.route (routeOf [.AliasedExpr colB ⟨""⟩] 2)) .LeftJoin [1, -1, -2] ∧
    ∃ l' r' cols',
      (pushProjectionSeq semTableAB [(unaliased colB, true), (unaliased colA, false),
          (unaliased colKsTA, true)]
        (.joinGen4 (.route (routeOf [] 1)) (.route (routeOf [] 2)) .LeftJoin [])).1
        = .joinGen4 (.route l') (.route r') .LeftJoin cols' ∧
      [0, 1, 2] = (List.range 3).map Int.ofNat ∧
      cols'.length = 3 ∧
      ∀ (i : Nat) (hi : i < 3), ∃ c se,
        cols'.get? i = some c ∧ designated l' r' c = some se ∧
        sameUpToQualifier se ([(unaliased colB, true), (unaliased colA, false),
          (unaliased colKsTA, true)].get ⟨i, hi⟩).1.Expr = true :=
  ⟨rfl, C2_join_column_mapping semTableAB .LeftJoin
    [(unaliased colB, true), (unaliased colA, false), (unaliased colKsTA, true)]
    (routeOf [] 1) (routeOf [] 2) [0, 1, 2] (by decide)⟩

/-- The map built by the first loop of `rewriteHavingClause` holds, for each
lower-cased alias, the defining expression of the last select expression with
that alias. -/
theorem lookupAlias_buildSelectExprMap (key : String) :
    ∀ (ses : List SelectExpr) (m : List (String × Expr)),
      lookupAlias key (buildSelectExprMap ses m)
        = match aliasDefinition key ses with
          | some d => some d
          | none => lookupAlias key m
  | [], m => rfl
  | .StarExpr t :: rest, m => by
    simp only [buildSelectExprMap, aliasDefinition]
    rw [lookupAlias_buildSelectExprMap key rest m]
    cases aliasDefinition key rest <;> rfl
  | .Nextval x :: rest, m => by
    simp only [buildSelectExprMap, aliasDefinition]
    rw [lookupAlias_buildSelectExprMap key rest m]
    cases aliasDefinition key rest <;> rfl
  | .AliasedExpr e as :: rest, m => by
    simp only [buildSelectExprMap, aliasDefinition]
    cases hemp : as.IsEmpty with
    | true =>
      simp only [if_true, Bool.not_true, Bool.false_and, Bool.false_eq_true, if_false]
      rw [lookupAlias_buildSelectExprMap key rest m]
      cases aliasDefinition key rest <;> rfl
    | false =>
      simp only [Bool.false_eq_true, if_false, Bool.not_false, Bool.true_and, decide_eq_true_eq]
      rw [lookupAlias_buildSelectExprMap key rest ((as.Lowered, e) :: m)]
      cases aliasDefinition key rest with
      | some d => rfl
      | none =>
        simp only [lookupAlias]
        split <;> rfl

mutual
/-- The node that `sqlparser.Rewrite` returns for the callback of
`rewriteHavingClause` is the alias-substituted expression. -/
theorem RewriteExpr_substituteAliases (ses : List SelectExpr) :
    ∀ e, RewriteExpr (havingPre (buildSelectExprMap ses [])) e = substituteAliases ses e
  | .nilExpr => rfl
  | .ColName n q => by
      simp only [RewriteExpr, visitExpr, havingPre, substituteAliases]
      by_cases hq : q.IsEmpty = true
      · simp only [hq, Bool.not_true, Bool.false_eq_true, if_false, if_true]
        rw [lookupAlias_buildSelectExprMap n.Lowered ses []]
        cases aliasDefinition n.Lowered ses <;> simp [lookupAlias]
      · simp [hq]
  | .Literal t v => by simp [RewriteExpr, visitExpr, havingPre, substituteAliases]
  | .Argument a => by simp [RewriteExpr, visitExpr, havingPre, substituteAliases]
  | .AndExpr l r => by
      simp only [RewriteExpr, visitExpr, havingPre, substituteAliases, if_true]
      rw [RewriteExpr_substituteAliases ses l, RewriteExpr_substituteAliases ses r]
  | .OrExpr l r => by
      simp only [RewriteExpr, visitExpr, havingPre, substituteAliases, if_true]
      rw [RewriteExpr_substituteAliases ses l, RewriteExpr_substituteAliases ses r]
  | .NotExpr e => by
      simp only [RewriteExpr, visitExpr, havingPre, substituteAliases, if_true]
      rw [RewriteExpr_substituteAliases ses e]
  | .ComparisonExpr o l r x => by
      simp only [RewriteExpr, visitExpr, havingPre, substituteAliases, if_true]
      rw [RewriteExpr_substituteAliases ses l, RewriteExpr_substituteAliases ses r,
        RewriteExpr_substituteAliases ses x]
  | .FuncExpr q n d es => by
      simp only [RewriteExpr, visitExpr, havingPre, substituteAliases, if_true]
      rw [RewriteSelectExprs_substituteAliases ses es]
  | .Subquery p s => by
      simp only [RewriteExpr, visitExpr, havingPre, substituteAliases, if_true]
      rw [RewriteSelect_substituteAliases ses s]
  | .ExistsExpr sq => by
      simp only [RewriteExpr, visitExpr, havingPre, substituteAliases, if_true]
      rw [RewriteExpr_substituteAliases ses sq]
  | .ExtractedSubquery ref => by simp [RewriteExpr, visitExpr, havingPre, substituteAliases]
/-- The visit of a select list is the alias substitution in it. -/
theorem RewriteSelectExprs_substituteAliases (ses : List SelectExpr) :
    ∀ e, RewriteSelectExprs (havingPre (buildSelectExprMap ses [])) e
      = substituteAliasesSelectExprs ses e
  | [] => rfl
  | a :: as => by
      simp only [RewriteSelectExprs, substituteAliasesSelectExprs]
      rw [RewriteSelectExpr_substituteAliases ses a, RewriteSelectExprs_substituteAliases ses as]
/-- The visit of a select-list entry is the alias substitution in it. -/
theorem RewriteSelectExpr_substituteAliases (ses : List SelectExpr) :
    ∀ e, RewriteSelectExpr (havingPre (buildSelectExprMap ses [])) e
      = substituteAliasesSelectExpr ses e
  | .StarExpr t => rfl
  | .AliasedExpr e a => by
      simp only [RewriteSelectExpr, substituteAliasesSelectExpr]
      rw [RewriteExpr_substituteAliases ses e]
  | .Nextval e => by
      simp only [RewriteSelectExpr, substituteAliasesSelectExpr]
      rw [RewriteExpr_substituteAliases ses e]
/-- The visit of a FROM clause is the alias substitution in it. -/
theorem RewriteTableExprs_substituteAliases (ses : List SelectExpr) :
    ∀ e, RewriteTableExprs (havingPre (buildSelectExprMap ses [])) e
      = substituteAliasesTableExprs ses e
  | [] => rfl
  | a :: as => by
      simp only [RewriteTableExprs, substituteAliasesTableExprs]
      rw [RewriteTableExpr_substituteAliases ses a, RewriteTableExprs_substituteAliases ses as]
/-- The visit of a table expression is the alias substitution in it. -/
theorem RewriteTableExpr_substituteAliases (ses : List SelectExpr) :
    ∀ e, RewriteTableExpr (havingPre (buildSelectExprMap ses [])) e
      = substituteAliasesTableExpr ses e
  | .AliasedTableExpr p e a => by
      simp only [RewriteTableExpr, substituteAliasesTableExpr]
      rw [RewriteSimpleTableExpr_substituteAliases ses e]
  | .JoinTableExpr l r c => by
      simp only [RewriteTableExpr, substituteAliasesTableExpr]
      rw [RewriteTableExpr_substituteAliases ses l, RewriteTableExpr_substituteAliases ses r,
        RewriteExpr_substituteAliases ses c]
/-- The visit of a simple table expression is the alias substitution in it. -/
theorem RewriteSimpleTableExpr_substituteAliases (ses : List SelectExpr) :
    ∀ e, RewriteSimpleTableExpr (havingPre (buildSelectExprMap ses [])) e
      = substituteAliasesSimpleTableExpr ses e
  | .TableName n => rfl
  | .DerivedTable s => by
      simp only [RewriteSimpleTableExpr, substituteAliasesSimpleTableExpr]
      rw [RewriteSelect_substituteAliases ses s]
/-- The visit of an expression list is the alias substitution in it. -/
theorem RewriteExprs_substituteAliases (ses : List SelectExpr) :
    ∀ e, RewriteExprs (havingPre (buildSelectExprMap ses [])) e = substituteAliasesExprs ses e
  | [] => rfl
  | a :: as => by
      simp only [RewriteExprs, substituteAliasesExprs]
      rw [RewriteExpr_substituteAliases ses a, RewriteExprs_substituteAliases ses as]
/-- The visit of an optional condition is the alias substitution in it. -/
theorem RewriteRefOfWhere_substituteAliases (ses : List SelectExpr) :
    ∀ e, RewriteRefOfWhere (havingPre (buildSelectExprMap ses [])) e
      = substituteAliasesWhere ses e
  | none => rfl
  | some a => by
      simp only [RewriteRefOfWhere, substituteAliasesWhere]
      rw [RewriteExpr_substituteAliases ses a]
/-- The visit of an ORDER BY clause is the alias substitution in it. -/
theorem RewriteOrderBy_substituteAliases (ses : List SelectExpr) :
    ∀ e, RewriteOrderBy (havingPre (buildSelectExprMap ses [])) e
      = substituteAliasesOrderBy ses e
  | [] => rfl
  | a :: as => by
      simp only [RewriteOrderBy, substituteAliasesOrderBy]
      rw [RewriteRefOfOrder_substituteAliases ses a, RewriteOrderBy_substituteAliases ses as]
/-- The visit of an ORDER BY entry is the alias substitution in it. -/
theorem RewriteRefOfOrder_substituteAliases (ses : List SelectExpr) :
    ∀ e, RewriteRefOfOrder (havingPre (buildSelectExprMap ses [])) e
      = substituteAliasesOrder ses e
  | .mk p e d => by
      simp only [RewriteRefOfOrder, substituteAliasesOrder]
      rw [RewriteExpr_substituteAliases ses e]
/-- The visit of a nested statement is the alias substitution in it. -/
theorem RewriteSelect_substituteAliases (ses : List SelectExpr) :
    ∀ e, RewriteSelect (havingPre (buildSelectExprMap ses [])) e
      = substituteAliasesSelect ses e
  | .mk s f w g h o => by
      simp only [RewriteSelect, substituteAliasesSelect]
      rw [RewriteSelectExprs_substituteAliases ses s, RewriteTableExprs_substituteAliases ses f,
        RewriteRefOfWhere_substituteAliases ses w, RewriteExprs_substituteAliases ses g,
        RewriteRefOfWhere_substituteAliases ses h, RewriteOrderBy_substituteAliases ses o]
end

/-- Unless the whole HAVING expression is an unqualified reference to an
alias, the expression that `rewriteHavingClause` holds after its call of
`sqlparser.Rewrite` is the alias-substituted HAVING expression. -/
theorem havingAfterRewrite_substituteAliases (node : Select) (h : Expr)
    (hroot : havingRootIsAlias node.SelectExprs h = false) :
    havingAfterRewrite node h = substituteAliases node.SelectExprs h := by
  have hpre : (havingPre (buildSelectExprMap node.SelectExprs []) h).replaced = none := by
    cases h with
    | ColName n q =>
      simp only [havingRootIsAlias, Bool.and_eq_false_iff] at hroot
      simp only [havingPre]
      by_cases hq : q.IsEmpty = true
      · have hnone : aliasDefinition n.Lowered node.SelectExprs = none := by
          rcases hroot with hr | hr
          · rw [hq] at hr; cases hr
          · cases hd : aliasDefinition n.Lowered node.SelectExprs with
            | none => rfl
            | some d => rw [hd] at hr; cases hr
        simp only [hq, Bool.not_true, Bool.false_eq_true, if_false]
        rw [lookupAlias_buildSelectExprMap n.Lowered node.SelectExprs [], hnone]
        rfl
      · simp [hq]
    | nilExpr => rfl
    | Literal t v => rfl
    | Argument a => rfl
    | AndExpr l r => rfl
    | OrExpr l r => rfl
    | NotExpr e => rfl
    | ComparisonExpr o l r x => rfl
    | FuncExpr q n d es => rfl
    | Subquery p s => rfl
    | ExistsExpr sq => rfl
    | ExtractedSubquery ref => rfl
  rw [havingAfterRewrite_eq node h hpre, RewriteExpr_substituteAliases]

/-- HAVING redistribution, for a HAVING expression that is not as a whole an
unqualified reference to an alias: with `c_1 .. c_k` the top-level
AND-conjuncts of the alias-substituted HAVING expression, the new HAVING is
the conjunction, in order, of the `c_i` that contain an aggregate (absent
when there is none), the new WHERE is the old WHERE with the other `c_i`
ANDed to it in order, no conjunct is dropped, duplicated or split, and the
other clauses are unchanged. -/
theorem rewriteHavingClause_redistributes (node : Select) (h : Expr)
    (hh : node.Having = some h) (hroot : havingRootIsAlias node.SelectExprs h = false) :
    (rewriteHavingClause node).Having
      = addAll none ((substitutedConjuncts node.SelectExprs h).filter ContainsAggregation) ∧
    (rewriteHavingClause node).Where
      = addAll node.Where
          ((substitutedConjuncts node.SelectExprs h).filter (fun c => !ContainsAggregation c)) ∧
    conjunctsOf (rewriteHavingClause node).Having
      = (substitutedConjuncts node.SelectExprs h).filter ContainsAggregation ∧
    conjunctsOf (rewriteHavingClause node).Where
      = conjunctsOf node.Where
          ++ (substitutedConjuncts node.SelectExprs h).filter (fun c => !ContainsAggregation c) ∧
    (rewriteHavingClause node).SelectExprs = node.SelectExprs ∧
    (rewriteHavingClause node).From = node.From ∧
    (rewriteHavingClause node).GroupBy = node.GroupBy ∧
    (rewriteHavingClause node).OrderBy = node.OrderBy := by
  have hconj : ∀ (p : Expr → Bool), ∀ c ∈ (substitutedConjuncts node.SelectExprs h).filter p,
      isConjunct c = true := fun p c hc =>
    SplitAndExpression_isConjunct _ c (List.mem_of_mem_filter hc)
  have hdef : rewriteHavingClause node
      = distributeHaving (substitutedConjuncts node.SelectExprs h) (node.setHaving none) := by
    unfold rewriteHavingClause substitutedConjuncts
    rw [hh]
    simp only
    rw [havingAfterRewrite_substituteAliases node h hroot]
  cases node with
  | mk ses f w g hv o =>
    rw [hdef]
    simp only [Select.setHaving, distributeHaving_spec]
    refine ⟨rfl, rfl, ?_, ?_, rfl, rfl, rfl, rfl⟩
    · simpa [Select.Having, conjunctsOf] using
        conjunctsOf_addAll none _ (hconj ContainsAggregation)
    · simpa [Select.Where] using
        conjunctsOf_addAll w _ (hconj fun c => !ContainsAggregation c)

/-- C7 (the code at the failing input). For
`select count(*) as c from t group by t.a having c`, whose whole HAVING
expression is the unqualified reference to the alias `c`: the
alias-substituted HAVING expression is `count(*)`, its only conjunct, which
contains an aggregate, so it belongs in the new HAVING with WHERE left
absent; `rewriteHavingClause` leaves no HAVING and makes the unsubstituted
reference `c` the WHERE condition. With the alias below the root, as in
`... having c > 5 and y = 2`, the conjuncts of the alias-substituted
expression are distributed as they should be: HAVING keeps `count(*) > 5`
and WHERE gains `y = 2`. -/
theorem C7_root_alias_conjunct_moved_to_where :
    selectHavingAlias.Having = some colC ∧
    selectHavingAlias.Where = none ∧
    substitutedConjuncts selectHavingAlias.SelectExprs colC = [countStar] ∧
    ContainsAggregation countStar = true ∧
    (rewriteHavingClause selectHavingAlias).Having = none ∧
    (rewriteHavingClause selectHavingAlias).Where = some colC ∧
    substitutedConjuncts selectHavingAliasAndY.SelectExprs (.AndExpr cGtFive yEqTwo)
      = [countStarGtFive, yEqTwo] ∧
    (rewriteHavingClause selectHavingAliasAndY).Having = some countStarGtFive ∧
    (rewriteHavingClause selectHavingAliasAndY).Where = some yEqTwo :=
  ⟨rfl, rfl, rfl, by decide, rfl, rfl, rfl, rfl, rfl⟩

end Vitess
